import Mathlib

/-!
# ka9q-radio status/command codec (TLV), front-end drivers and linear demodulator

Embedding of the encoders, decoders, walkers and poll command of
`src/status.c`, of the command walkers, status frames, tuning and sample
callbacks of `src/rx888.c` and `src/airspyhf.c`, of the earlier codec of
`src/libradio/status.c`, and of the PLL lock detector, the AGC and the mute
flag of `src/linear.c`.

Bytes are natural numbers below 256, the `uint64_t`, `uint32_t` and `int`
arithmetic of the C code is written out with explicit reductions modulo
`2 ^ 64` and `2 ^ 32`.  The model assumes the LP64, little-endian targets the
program is built for (Linux on x86-64 and AArch64): `int` has 32 bits,
`ptrdiff_t` 64 bits, and the `float` member of `union result` overlays the low
32 bits of its `uint64_t` member.  In the codec floating-point values are
carried as their IEEE-754 bit patterns.  The arithmetic of the tuning, of the
Airspy HF callback and of the linear demodulator is exact, in the rationals or
in an ordered field; operations whose behaviour C leaves undefined (signed
overflow, a conversion out of range) give `none`.
-/

namespace Ka9q

/-! ## Memory and machine integers -/

/-- Memory seen through a `uint8_t const *`: what is stored at each offset. -/
abbrev Mem := Nat → Nat

/-- The memory that holds the given bytes from offset 0 on (zero elsewhere). -/
def memOf (bytes : List Nat) : Mem := fun i => bytes.getD i 0

/-- One `uint8_t` load, `cp[i]`. -/
def rd (mem : Mem) (i : Nat) : Nat := mem i % 256

/-- The bytes `bs` are stored in `mem` from offset `cp` on. -/
def MemHas (mem : Mem) (cp : Nat) (bs : List Nat) : Prop :=
  ∀ i, i < bs.length → mem (cp + i) = bs.getD i 0

/-- Conversion of an integer to a 32-bit C `int` (wrapping modulo `2 ^ 32`). -/
def toInt32 (n : Int) : Int := (n + 2 ^ 31) % 2 ^ 32 - 2 ^ 31

/-- Modelled from the spec: the tag `EOL` of `enum status_type`, whose header
`status.h` is missing from the sources; the specification fixes the
end-of-list tag as the byte 0.  The other tags of `status.h` are parameters of
the functions that use them. -/
def EOL : Nat := 0

/-- What an encoder leaves behind: the bytes stored through `*cp++`, in order
(the buffer pointer advances by their number), and the value it returns. -/
structure Encoded where
  bytes : List Nat
  ret : Int
deriving DecidableEq

/-! ## Integer encoders (`status.c` lines 37-100) -/

/-- The loop `while(len > 0 && ((x >> 56) == 0)){ x <<= 8; len--; }` of
`encode_int64`, started with the given `len` and `x`; returns the final
`(len, x)`. -/
def skipLeadingZeros : Nat → Nat → Nat × Nat
  | 0, x => (0, x)
  | len + 1, x =>
    if x >>> 56 = 0 then skipLeadingZeros len ((x <<< 8) % 2 ^ 64) else (len + 1, x)

/-- The loop `for(int i=0; i<len; i++){ *cp++ = x >> 56; x <<= 8; }` of
`encode_int64`: the bytes it stores. -/
def emitBigEndian : Nat → Nat → List Nat
  | 0, _ => []
  | n + 1, x => (x >>> 56) % 256 :: emitBigEndian n ((x <<< 8) % 2 ^ 64)

/-- Function `encode_int64` (`uint64_t x`, so `x < 2 ^ 64`). -/
def encode_int64 (type x : Nat) : Encoded :=
  if x = 0 then ⟨[type % 256, 0], 2⟩
  else
    let r := skipLeadingZeros 8 x
    ⟨type % 256 :: r.1 % 256 :: emitBigEndian r.1 r.2, 2 + (r.1 : Int)⟩

/-- Function `encode_eol`. -/
def encode_eol : Encoded := ⟨[EOL], 1⟩

/-- Function `encode_byte` (`uint8_t x`; `sizeof(x)` is 1). -/
def encode_byte (type x : Nat) : Encoded :=
  if x = 0 then ⟨[type % 256, 0], 2⟩
  else ⟨[type % 256, 1, x % 256], 2 + 1⟩

/-- Function `encode_int16`: the `uint16_t` argument widened to `uint64_t`. -/
def encode_int16 (type x : Nat) : Encoded := encode_int64 type x

/-- Function `encode_int32`: the `uint32_t` argument widened to `uint64_t`. -/
def encode_int32 (type x : Nat) : Encoded := encode_int64 type x

/-- Function `encode_int`: the `int` argument cast to `uint64_t`, that is,
reduced modulo `2 ^ 64`. -/
def encode_int (type : Nat) (x : Int) : Encoded := encode_int64 type (x % 2 ^ 64).toNat

/-! ## Floating-point encoders (`status.c` lines 104-120) -/

/-- Macro `isnan` on a binary32 bit pattern. -/
def isnan32 (x : Nat) : Bool := x / 2 ^ 23 % 256 == 255 && x % 2 ^ 23 != 0

/-- Macro `isnan` on a binary64 bit pattern. -/
def isnan64 (x : Nat) : Bool := x / 2 ^ 52 % 2048 == 2047 && x % 2 ^ 52 != 0

/-- Function `encode_float`; `x` is the bit pattern of the `float`, which the
code reads back through `union result` as `r.l`. -/
def encode_float (type x : Nat) : Encoded :=
  if isnan32 x then ⟨[], 0⟩ else encode_int32 type x

/-- Function `encode_double`; `x` is the bit pattern of the `double` (`r.ll`). -/
def encode_double (type x : Nat) : Encoded :=
  if isnan64 x then ⟨[], 0⟩ else encode_int64 type x

/-! ## Strings (`status.c` lines 123-152 and 204-209) -/

/-- The length bytes `encode_string` stores after the tag, for an
`unsigned int buflen`. -/
def encode_length (buflen : Nat) : List Nat :=
  if buflen < 128 then [buflen % 256]
  else if buflen < 65536 then [(0x80 ||| 2) % 256, (buflen >>> 8) % 256, buflen % 256]
  else if buflen < 16777216 then
    [(0x80 ||| 3) % 256, (buflen >>> 16) % 256, (buflen >>> 8) % 256, buflen % 256]
  else
    [(0x80 ||| 4) % 256, (buflen >>> 24) % 256, (buflen >>> 16) % 256, (buflen >>> 8) % 256,
      buflen % 256]

/-- Function `encode_string`: `s` holds the `buflen` bytes at `buf`
(`buflen = s.length`, an `unsigned int`).  The value returned is the pointer
difference `cp - orig_bpp` converted to `int`, which GCC and Clang reduce
modulo `2 ^ 32` when it does not fit. -/
def encode_string (type : Nat) (s : List Nat) : Encoded :=
  let bytes := type % 256 :: (encode_length s.length ++ s)
  ⟨bytes, toInt32 bytes.length⟩

/-- Function `decode_string`: the contents of the destination `buf` afterwards.
`none` stands for undefined behaviour: a negative `memcpy` count, or the
terminating NUL stored outside the destination.  The macro `min` of `misc.h`
(not among the sources) is the smaller of its arguments, as in the
specification. -/
def decode_string (mem : Mem) (cp : Nat) (optlen : Int) (buf : List Nat) (buflen : Int) :
    Option (List Nat) :=
  let n := min optlen (buflen - 1)
  if n < 0 then none
  else if buf.length ≤ n.toNat then none
  else some ((List.range n.toNat).map (fun i => rd mem (cp + i)) ++ 0 :: buf.drop (n.toNat + 1))

/-! ## Decoders (`status.c` lines 215-248) -/

/-- The loop `while(len-- > 0) result = (result << 8) | *cp++;` of `decode_int`,
with `n` iterations left. -/
def decode_int_loop (mem : Mem) : Nat → Nat → Nat → Nat
  | 0, _, result => result
  | n + 1, cp, result =>
    decode_int_loop mem n (cp + 1) (((result <<< 8) % 2 ^ 64) ||| rd mem cp)

/-- Function `decode_int` (`int len`; nothing is read when `len <= 0`). -/
def decode_int (mem : Mem) (cp : Nat) (len : Int) : Nat :=
  decode_int_loop mem len.toNat cp 0

/-- Position of the highest set bit of `m`, for `0 < m < 2 ^ k`. -/
def highBit : Nat → Nat → Nat
  | 0, _ => 0
  | k + 1, m => if 2 ^ k ≤ m then k else highBit k m

/-- The C conversion `(double)f` on bit patterns: binary32 to binary64.  It is
exact for every non-NaN value; a NaN keeps its sign and payload and comes out
quiet. -/
def float_to_double (f : Nat) : Nat :=
  let s := f / 2 ^ 31 % 2
  let e := f / 2 ^ 23 % 256
  let m := f % 2 ^ 23
  if e = 255 then
    if m = 0 then s * 2 ^ 63 + 2047 * 2 ^ 52
    else s * 2 ^ 63 + 2047 * 2 ^ 52 + 2 ^ 51 + m * 2 ^ 29 % 2 ^ 51
  else if e = 0 then
    if m = 0 then s * 2 ^ 63
    else
      let k := highBit 23 m
      s * 2 ^ 63 + (k + 874) * 2 ^ 52 + (m - 2 ^ k) * 2 ^ (52 - k)
  else s * 2 ^ 63 + (e + 896) * 2 ^ 52 + m * 2 ^ 29

/-- Last three lines of `decode_float`: `r.ll = decode_int(cp,len); return r.f;`
(the low 32 bits of `r.ll`). -/
def decode_float_union (mem : Mem) (cp : Nat) (len : Int) : Nat :=
  decode_int mem cp len % 2 ^ 32

/-- Last three lines of `decode_double`: `r.ll = decode_int(cp,len); return r.d;`. -/
def decode_double_union (mem : Mem) (cp : Nat) (len : Int) : Nat :=
  decode_int mem cp len

/-- Function `decode_float`, returning the bit pattern of the result.  The
conversion `(float)d` depends on the rounding mode and is the parameter
`narrow`.  The call `decode_double(cp,len)` is made with `len = 8` only, where
`decode_double` takes neither of its early returns
(see `decode_float_calls_decode_double`). -/
def decode_float (narrow : Nat → Nat) (mem : Mem) (cp : Nat) (len : Int) : Nat :=
  if len = 0 then 0
  else if len = 8 then narrow (decode_double_union mem cp len)
  else decode_float_union mem cp len

/-- Function `decode_double`, returning the bit pattern of the result.  The call
`decode_float(cp,len)` is made with `len = 4` only, where `decode_float` takes
neither of its early returns (see `decode_double_calls_decode_float`). -/
def decode_double (mem : Mem) (cp : Nat) (len : Int) : Nat :=
  if len = 0 then 0
  else if len = 4 then float_to_double (decode_float_union mem cp len)
  else decode_double_union mem cp len

/-! ## TLV walkers (`status.c` lines 347-421, `rx888.c` lines 335-382,
`airspyhf.c` lines 276-322)

The four walkers `get_ssrc`, `get_tag`, `decode_rx888_commands` and
`decode_airspyhf_commands` share the text of their loop, up to the body of
`switch(type)`.  The loop is `tlv_scan`, with the switch as its argument. -/

/-- The loop `while(length_of_length > 0){ optlen <<= 8; optlen |= *cp++;
length_of_length--; }` on the `unsigned int optlen`; returns `(optlen, cp)`. -/
def length_loop (mem : Mem) : Nat → Nat → Nat → Nat × Nat
  | 0, cp, optlen => (optlen, cp)
  | n + 1, cp, optlen => length_loop mem n (cp + 1) (((optlen <<< 8) % 2 ^ 32) ||| rd mem cp)

/-- The length rule of the walkers: `unsigned int optlen = *cp++;` followed by
`if(optlen & 0x80){ ... }`, with `cp` at the length byte.  Returns the record
length and the position of the value, `(optlen, cp)`. -/
def parse_optlen (mem : Mem) (cp : Nat) : Nat × Nat :=
  let optlen := rd mem cp
  if optlen &&& 0x80 ≠ 0 then length_loop mem (optlen &&& 0x7f) (cp + 1) 0
  else (optlen, cp + 1)

/-- What the `switch(type)` of a walker does with one record: leave the
function (`return`, `goto done`) or fall out of the switch to `cp += optlen`.
Both carry the state the walker has reached and the offsets the switch read. -/
inductive Action (σ : Type) where
  | stop (s : σ) (reads : List Nat)
  | next (s : σ) (reads : List Nat)

/-- A finished walk: the state reached, the final scan position `cp - buffer`,
the offsets read from the buffer in order, and the scan position at the start
of each iteration of the loop. -/
structure Scan (σ : Type) where
  state : σ
  cp : Nat
  reads : List Nat
  starts : List Nat
deriving DecidableEq

/-- The loop `while(cp - buffer < length){ ... }` of the walkers, from scan
position `cp` in state `s`; `switch` gets `type`, the position of the value and
`optlen`.  The header of a record is read byte after byte from the tag on, so
its reads are the offsets from `cp` up to the position of the value.  The
comparison `cp - buffer + optlen >= length` is made in `ptrdiff_t`.  The
first argument bounds the number of tests of the loop condition; `none` means
that the bound was too small. -/
def tlv_scan {σ : Type} (switch : Nat → Nat → Nat → σ → Action σ) (mem : Mem) (length : Int) :
    Nat → Nat → σ → Option (Scan σ)
  | 0, _, _ => none
  | fuel + 1, cp, s =>
    if (cp : Int) < length then
      let type := rd mem cp
      if type = EOL then some ⟨s, cp + 1, [cp], [cp]⟩
      else
        let h := parse_optlen mem (cp + 1)
        let header := List.range' cp (h.2 - cp)
        if (h.2 : Int) + (h.1 : Int) ≥ length then some ⟨s, h.2, header, [cp]⟩
        else
          match switch type h.2 h.1 s with
          | Action.stop s1 rs => some ⟨s1, h.2, header ++ rs, [cp]⟩
          | Action.next s1 rs =>
            (tlv_scan switch mem length fuel (h.2 + h.1) s1).map
              (fun r => ⟨r.state, r.cp, header ++ rs ++ r.reads, cp :: r.starts⟩)
    else some ⟨s, cp, [], []⟩

/-- The offsets `decode_int`, `decode_float` and `decode_double` read when
called with `cp` and the `unsigned int optlen` converted to `int`. -/
def value_reads (cp optlen : Nat) : List Nat := List.range' cp (toInt32 optlen).toNat

/-- The `switch(type)` of `get_ssrc`; the state is the value to return (0 at
`done:`).  The tag `OUTPUT_SSRC` of `status.h` is a parameter. -/
def get_ssrc_switch (OUTPUT_SSRC : Nat) (mem : Mem) (type cp optlen : Nat) (s : Nat) :
    Action Nat :=
  if type = EOL then Action.stop 0 []
  else if type = OUTPUT_SSRC then
    Action.stop (decode_int mem cp (toInt32 optlen) % 2 ^ 32) (value_reads cp optlen)
  else Action.next s []

/-- Function `get_ssrc` with its trace. -/
def get_ssrc_scan (OUTPUT_SSRC : Nat) (mem : Mem) (length : Int) : Option (Scan Nat) :=
  tlv_scan (get_ssrc_switch OUTPUT_SSRC mem) mem length (length.toNat + 1) 0 0

/-- Function `get_ssrc`: the `uint32_t` it returns. -/
def get_ssrc (OUTPUT_SSRC : Nat) (mem : Mem) (length : Int) : Option Nat :=
  (get_ssrc_scan OUTPUT_SSRC mem length).map Scan.state

/-- The `switch(type)` of `get_tag`; the tag `COMMAND_TAG` of `status.h` is a
parameter. -/
def get_tag_switch (COMMAND_TAG : Nat) (mem : Mem) (type cp optlen : Nat) (s : Nat) :
    Action Nat :=
  if type = EOL then Action.stop 0 []
  else if type = COMMAND_TAG then
    Action.stop (decode_int mem cp (toInt32 optlen) % 2 ^ 32) (value_reads cp optlen)
  else Action.next s []

/-- Function `get_tag` with its trace. -/
def get_tag_scan (COMMAND_TAG : Nat) (mem : Mem) (length : Int) : Option (Scan Nat) :=
  tlv_scan (get_tag_switch COMMAND_TAG mem) mem length (length.toNat + 1) 0 0

/-- Function `get_tag`: the `uint32_t` it returns. -/
def get_tag (COMMAND_TAG : Nat) (mem : Mem) (length : Int) : Option Nat :=
  (get_tag_scan COMMAND_TAG mem length).map Scan.state

/-- The tags of `status.h` that `decode_rx888_commands` dispatches on. -/
structure Rx888Tags where
  COMMAND_TAG : Nat
  RF_GAIN : Nat
  RF_ATTEN : Nat

/-- What `decode_rx888_commands` changes: `Frontend.sdr.command_tag`
(a `uint32_t`) and, in order, the `float` arguments of its calls of
`rx888_set_gain` and `rx888_set_att`. -/
structure Rx888State where
  command_tag : Nat
  gain_calls : List Nat
  att_calls : List Nat
deriving DecidableEq

/-- The `switch(type)` of `decode_rx888_commands`. -/
def rx888_switch (tags : Rx888Tags) (narrow : Nat → Nat) (mem : Mem) (type cp optlen : Nat)
    (s : Rx888State) : Action Rx888State :=
  if type = EOL then Action.next s []
  else if type = tags.COMMAND_TAG then
    Action.next { s with command_tag := decode_int mem cp (toInt32 optlen) % 2 ^ 32 }
      (value_reads cp optlen)
  else if type = tags.RF_GAIN then
    Action.next { s with gain_calls := s.gain_calls ++ [decode_float narrow mem cp (toInt32 optlen)] }
      (value_reads cp optlen)
  else if type = tags.RF_ATTEN then
    Action.next { s with att_calls := s.att_calls ++ [decode_float narrow mem cp (toInt32 optlen)] }
      (value_reads cp optlen)
  else Action.next s []

/-- Function `decode_rx888_commands` with its trace. -/
def decode_rx888_commands (tags : Rx888Tags) (narrow : Nat → Nat) (mem : Mem) (length : Int)
    (s : Rx888State) : Option (Scan Rx888State) :=
  tlv_scan (rx888_switch tags narrow mem) mem length (length.toNat + 1) 0 s

/-- The tags of `status.h` that `decode_airspyhf_commands` dispatches on. -/
structure AirspyhfTags where
  COMMAND_TAG : Nat
  CALIBRATE : Nat
  RADIO_FREQUENCY : Nat

/-- What `decode_airspyhf_commands` reads and changes in the front end:
`sdr.command_tag` (a `uint32_t`), `sdr.calibrate` (a `double`), the tuning lock
`sdr.lock`, and, in order, the `double` arguments of its calls of
`set_correct_freq`. -/
structure AirspyhfState where
  command_tag : Nat
  calibrate : Nat
  lock : Bool
  freq_calls : List Nat
deriving DecidableEq

/-- The `switch(type)` of `decode_airspyhf_commands`. -/
def airspyhf_switch (tags : AirspyhfTags) (mem : Mem) (type cp optlen : Nat)
    (s : AirspyhfState) : Action AirspyhfState :=
  if type = EOL then Action.next s []
  else if type = tags.COMMAND_TAG then
    Action.next { s with command_tag := decode_int mem cp (toInt32 optlen) % 2 ^ 32 }
      (value_reads cp optlen)
  else if type = tags.CALIBRATE then
    Action.next { s with calibrate := decode_double mem cp (toInt32 optlen) }
      (value_reads cp optlen)
  else if type = tags.RADIO_FREQUENCY then
    if s.lock then Action.next s []
    else
      Action.next { s with freq_calls := s.freq_calls ++ [decode_double mem cp (toInt32 optlen)] }
        (value_reads cp optlen)
  else Action.next s []

/-- Function `decode_airspyhf_commands` with its trace. -/
def decode_airspyhf_commands (tags : AirspyhfTags) (mem : Mem) (length : Int)
    (s : AirspyhfState) : Option (Scan AirspyhfState) :=
  tlv_scan (airspyhf_switch tags mem) mem length (length.toNat + 1) 0 s

/-! ## Status messages

What the callers of the encoders assemble (`send_poll`, `send_rx888_status`,
`send_airspyhf_status`): one record per field, then `encode_eol`. -/

/-- One field handed to the encoders: an integer for `encode_int64`, or a byte
string for `encode_string`. -/
inductive Field where
  | int (tag x : Nat)
  | str (tag : Nat) (s : List Nat)
deriving DecidableEq

/-- The tag of a field. -/
def Field.tag : Field → Nat
  | Field.int t _ => t
  | Field.str t _ => t

/-- The record the encoder writes for a field. -/
def Field.encode : Field → Encoded
  | Field.int t x => encode_int64 t x
  | Field.str t s => encode_string t s

/-- The value bytes of the record of a field: what `encode_int64` writes after
the tag and the length byte, or the string itself. -/
def Field.value : Field → List Nat
  | Field.int t x => (encode_int64 t x).bytes.drop 2
  | Field.str _ s => s

/-- The value of a field as an integer: the number encoded, or what
`decode_int` makes of the bytes of a string. -/
def Field.number : Field → Nat
  | Field.int _ x => x
  | Field.str _ s => decode_int (memOf s) 0 (s.length : Int)

/-- The field has a tag other than `EOL` that fits a byte, and a value of the
argument type of the encoder (`uint64_t`, or `unsigned int` many bytes). -/
def Field.WellTyped : Field → Prop
  | Field.int t x => 0 < t ∧ t < 256 ∧ x < 2 ^ 64
  | Field.str t s => 0 < t ∧ t < 256 ∧ s.length < 2 ^ 32 ∧ ∀ b ∈ s, b < 256

/-- The bytes of a message: the records of the fields in order, then the byte
of `encode_eol`. -/
def encode_message : List Field → List Nat
  | [] => encode_eol.bytes
  | f :: fs => f.encode.bytes ++ encode_message fs

/-- A `switch(type)` that only notes, for each record the loop of the walkers
hands to it, the tag and the `optlen` value bytes found at `cp`. -/
def record_switch (mem : Mem) (type cp optlen : Nat) (s : List (Nat × List Nat)) :
    Action (List (Nat × List Nat)) :=
  Action.next (s ++ [(type, (List.range optlen).map (fun i => rd mem (cp + i)))]) []

/-- The value a walker looking for the tag `T` is to return on a message: the
integer value of the first field with that tag, as a `uint32_t`, or 0. -/
def first_number (T : Nat) : List Field → Nat
  | [] => 0
  | f :: fs => if f.tag = T then f.number % 2 ^ 32 else first_number T fs

/-- The trace of a walk is that of a terminating scan over `length` bytes: the
scan position strictly increases from one iteration of the loop to the next,
every iteration starts below `length`, and there are at most `length`
iterations. -/
def Scan.Advances {σ : Type} (r : Scan σ) (length : Int) : Prop :=
  r.starts.Pairwise (fun a b => a < b) ∧ (∀ p ∈ r.starts, (p : Int) < length) ∧
    r.starts.length ≤ length.toNat

/-! ## Vectors (`status.c` lines 158-198) -/

/-- The length bytes `encode_vector` stores after the tag, for the `int bytes`. -/
def vector_length (bytes : Int) : List Nat :=
  if bytes < 128 then [(bytes % 256).toNat]
  else if bytes < 65536 then
    [(0x80 ||| 2) % 256, (bytes.toNat >>> 8) % 256, bytes.toNat % 256]
  else if bytes < 16777216 then
    [(0x80 ||| 3) % 256, (bytes.toNat >>> 16) % 256, (bytes.toNat >>> 8) % 256,
      bytes.toNat % 256]
  else
    [(0x80 ||| 4) % 256, (bytes.toNat >>> 24) % 256, (bytes.toNat >>> 16) % 256,
      (bytes.toNat >>> 8) % 256, bytes.toNat % 256]

/-- The four bytes `encode_vector` stores for one element with bit pattern
`w`: `foo.i >> 24`, `foo.i >> 16`, `foo.i >> 8`, `foo.i`. -/
def vector_element (w : Nat) : List Nat :=
  [(w >>> 24) % 256, (w >>> 16) % 256, (w >>> 8) % 256, w % 256]

/-- The loop `for(int i=0;i < size;i++){ ... }` of `encode_vector`, with `n`
elements left from index `i` on; `array` holds the bit patterns of the `float`
elements. -/
def vector_loop (array : List Nat) : Nat → Nat → List Nat
  | 0, _ => []
  | n + 1, i => vector_element (array.getD i 0) ++ vector_loop array n (i + 1)

/-- Function `encode_vector` (`int size`): `bytes` is `sizeof(*array) * size`
converted to `int`, the value returned is `cp - orig_bp` converted to `int`. -/
def encode_vector (type : Nat) (array : List Nat) (size : Int) : Encoded :=
  let bytes := toInt32 (4 * size)
  let out := type % 256 :: (vector_length bytes ++ vector_loop array size.toNat 0)
  ⟨out, toInt32 out.length⟩

/-! ## Socket addresses (`status.c` lines 251-318) -/

/-- A socket address as seen through the three views `encode_socket` takes of
it, by `sin_family`: `AF_UNIX` with the bytes of `sun_path` before its NUL,
`AF_INET` with the bytes of `sin_addr.s_addr` and `sin_port` as they lie in
memory (network order), `AF_INET6` with the bytes of `sin6_addr` and
`sin6_port`, and every other value of `sin_family`. -/
inductive Sockaddr where
  | unix (path : List Nat)
  | inet (addr port : List Nat)
  | inet6 (addr port : List Nat)
  | other (family : Nat)
deriving DecidableEq

/-- The address has fields of the sizes of the C structures: a path of at
most 107 non-zero bytes (`sun_path` has 108), 4 or 16 address bytes, 2 port
bytes. -/
def Sockaddr.WellFormed : Sockaddr → Prop
  | Sockaddr.unix path => path.length ≤ 107 ∧ ∀ b ∈ path, 0 < b ∧ b < 256
  | Sockaddr.inet addr port =>
    addr.length = 4 ∧ port.length = 2 ∧ (∀ b ∈ addr, b < 256) ∧ ∀ b ∈ port, b < 256
  | Sockaddr.inet6 addr port =>
    addr.length = 16 ∧ port.length = 2 ∧ (∀ b ∈ addr, b < 256) ∧ ∀ b ∈ port, b < 256
  | Sockaddr.other _ => True

/-- Function `encode_socket`.  For `AF_UNIX`, `optlen` is `strlen(sun_path) + 1`
and the `optlen` bytes copied are the path and its NUL. -/
def encode_socket (type : Nat) : Sockaddr → Encoded
  | Sockaddr.unix path =>
    let optlen := path.length + 1
    ⟨type % 256 :: optlen % 256 :: (path ++ [0]).take optlen, toInt32 optlen⟩
  | Sockaddr.inet addr port => ⟨type % 256 :: 6 :: (addr.take 4 ++ port.take 2), 6⟩
  | Sockaddr.inet6 addr port => ⟨type % 256 :: 10 :: (addr.take 8 ++ port.take 2), 10⟩
  | Sockaddr.other _ => ⟨[], 0⟩

/-- The `n` bytes a `memcpy` reads from offset `cp`. -/
def copy_bytes (mem : Mem) (cp n : Nat) : List Nat := (List.range n).map (fun i => rd mem (cp + i))

/-- Function `decode_socket`: the address left in the structure `sock`, or
`none` for `NULL`.  `old` holds the 16 bytes that `sin6_addr` had before the
call; the `memcpy` replaces the first 8 of them. -/
def decode_socket (old : List Nat) (mem : Mem) (val : Nat) (optlen : Int) : Option Sockaddr :=
  if optlen = 6 then some (Sockaddr.inet (copy_bytes mem val 4) (copy_bytes mem (val + 4) 2))
  else if optlen = 10 then
    some (Sockaddr.inet6 (copy_bytes mem val 8 ++ old.drop 8) (copy_bytes mem (val + 8) 2))
  else none

/-- Function `decode_local_socket`: the address left in the structure `sock`,
with the path read as a C string.  `old` holds the 108 bytes that `sun_path`
had before the call.  `none` stands for undefined behaviour: a `memcpy` with a
negative count or past the end of `sun_path`. -/
def decode_local_socket (old : List Nat) (mem : Mem) (val : Nat) (optlen : Int) :
    Option Sockaddr :=
  if optlen < 0 ∨ 108 < optlen then none
  else
    let path := copy_bytes mem val optlen.toNat ++ old.drop optlen.toNat
    let path := if optlen < 108 then path.set optlen.toNat 0 else path
    some (Sockaddr.unix (path.takeWhile (fun b => b != 0)))

/-! ## Linear demodulator: the mute flag (`linear.c` lines 201-241) -/

/-- The C function `round` on an exact value: to the nearest integer, halves
away from zero. -/
def c_round (x : ℚ) : Int := if 0 ≤ x then ⌊x + 1 / 2⌋ else -⌊-x + 1 / 2⌋

/-- Function `true_freq` (`uint64_t freq_hz`, returned as `double`): the
argument is converted to `uint64_t`, that is, reduced modulo `2 ^ 64`. -/
def true_freq (freq_hz : Int) : ℚ := ((freq_hz % 2 ^ 64 : Int) : ℚ)

/-- What `set_correct_freq` does: the `intfreq` it passes to
`airspyhf_set_freq`, and the value it stores in `frontend->sdr.frequency` and
returns. -/
structure Tuned where
  intfreq : Int
  frequency : ℚ
deriving DecidableEq

/-- Function `set_correct_freq` in exact arithmetic, the device call taken to
succeed.  `none` stands for undefined behaviour: a division by zero, or a
rounded value that does not fit the `int64_t intfreq`. -/
def set_correct_freq (calibrate freq : ℚ) : Option Tuned :=
  if 1 + calibrate = 0 then none
  else
    let r := c_round (freq / (1 + calibrate))
    if r < -2 ^ 63 ∨ 2 ^ 63 ≤ r then none
    else
      let tf := true_freq r
      some ⟨r, tf * (1 + calibrate)⟩

/-- Function `airspyhf_tune`. -/
def airspyhf_tune (calibrate f : ℚ) : Option Tuned := set_correct_freq calibrate f

/-! ## Airspy HF sample callback (`airspyhf.c` lines 369-399), in exact arithmetic -/

/-- Product of two complex numbers, as pairs of real and imaginary part. -/
def cmul (a b : ℚ × ℚ) : ℚ × ℚ := (a.1 * b.1 - a.2 * b.2, a.1 * b.2 + a.2 * b.1)

/-- The statement `in_energy += x * x` for the `float in_energy` and the
`float complex x`: the real `in_energy` is added to the complex product, and
the conversion of the sum back to `float` drops the imaginary part. -/
def add_energy (in_energy : ℚ) (x : ℚ × ℚ) : ℚ := (in_energy + (cmul x x).1, (cmul x x).2).1

/-- The loop `for(int i=0; i < sampcount; i++){ ... }` of `rx_callback`: the
final `in_energy`. -/
def energy_loop : List (ℚ × ℚ) → ℚ → ℚ
  | [], in_energy => in_energy
  | x :: xs, in_energy => energy_loop xs (add_energy in_energy x)

/-- What `rx_callback` leaves in the front end: the sample counter
`frontend->input.samples` (a `uint64_t`) and `frontend->sdr.output_level`. -/
structure Ingest where
  samples : Nat
  output_level : ℚ
deriving DecidableEq

/-- Function `rx_callback` of `airspyhf.c` on a burst of `sampcount` complex
samples, with the sample counter at `samples` before the call. -/
def rx_callback (samples : Nat) (burst : List (ℚ × ℚ)) : Ingest :=
  let sampcount := burst.length
  let in_energy := energy_loop burst 0
  ⟨(samples + sampcount) % 2 ^ 64, in_energy / sampcount⟩

/-! ## Status frames (`rx888.c` lines 384-424, `airspyhf.c` lines 324-365) -/

/-- The tags of `status.h` that the status frames use. -/
structure StatusTags where
  COMMAND_TAG : Nat
  CMD_CNT : Nat
  GPS_TIME : Nat
  DESCRIPTION : Nat
  INPUT_SAMPRATE : Nat
  OUTPUT_METADATA_PACKETS : Nat
  CALIBRATE : Nat
  RADIO_FREQUENCY : Nat
  LOCK : Nat
  DEMOD_TYPE : Nat
  OUTPUT_SAMPRATE : Nat
  OUTPUT_CHANNELS : Nat
  DIRECT_CONVERSION : Nat
  HIGH_EDGE : Nat
  LOW_EDGE : Nat
  OUTPUT_BITS_PER_SAMPLE : Nat
  RF_ATTEN : Nat
  RF_GAIN : Nat

/-- What `send_rx888_status` reads: `Frontend.sdr.command_tag`,
`Frontend.sdr.commands`, the value of `gps_time_ns()`, `sdr->description`
(`none` for `NULL`, otherwise the bytes before the NUL), `sdr->samprate`,
`Frontend.input.metadata_packets` before the call, the bit patterns of the
`float` members `sdr->rf_atten` and `sdr->rf_gain`, and the bit pattern of the
`float` argument `0.47 * sdr->samprate`, whose floating-point product is not
modelled. -/
structure Rx888Frontend where
  command_tag : Nat
  commands : Nat
  gps_time : Nat
  description : Option (List Nat)
  samprate : Nat
  metadata_packets : Nat
  rf_atten : Nat
  rf_gain : Nat
  high_edge : Nat

/-- The bytes that `send_rx888_status` stores through `bp`, in order, the
first at `packet[0]`; their number is `bp - packet` when `encode_eol` returns.
Integer arguments are converted to the `uint32_t` or `uint64_t` of the encoder
called, and a `float` or `double` has 32 or 64 bits. -/
def rx888_status_stores (t : StatusTags) (f : Rx888Frontend) : List Nat :=
  [0] ++
  (encode_int32 t.COMMAND_TAG (f.command_tag % 2 ^ 32)).bytes ++
  (encode_int64 t.CMD_CNT (f.commands % 2 ^ 64)).bytes ++
  (encode_int64 t.GPS_TIME (f.gps_time % 2 ^ 64)).bytes ++
  (match f.description with
    | none => []
    | some d => (encode_string t.DESCRIPTION d).bytes) ++
  (encode_int32 t.INPUT_SAMPRATE (f.samprate % 2 ^ 32)).bytes ++
  (encode_int64 t.OUTPUT_METADATA_PACKETS ((f.metadata_packets + 1) % 2 ^ 64)).bytes ++
  (encode_float t.RF_ATTEN (f.rf_atten % 2 ^ 32)).bytes ++
  (encode_float t.RF_GAIN (f.rf_gain % 2 ^ 32)).bytes ++
  (encode_double t.RADIO_FREQUENCY 0).bytes ++
  (encode_byte t.DEMOD_TYPE 0).bytes ++
  (encode_int32 t.OUTPUT_SAMPRATE (f.samprate % 2 ^ 32)).bytes ++
  (encode_int32 t.OUTPUT_CHANNELS 1).bytes ++
  (encode_int32 t.DIRECT_CONVERSION 1).bytes ++
  (encode_float t.LOW_EDGE 0).bytes ++
  (encode_float t.HIGH_EDGE (f.high_edge % 2 ^ 32)).bytes ++
  (encode_int32 t.OUTPUT_BITS_PER_SAMPLE 16).bytes ++
  encode_eol.bytes

/-- Function `send_rx888_status` with its buffer `uint8_t packet[2048]`: the
`len` bytes of `packet` handed to `send`.  `none` stands for a run that does
not get to `send`: a store beyond the 2048 bytes of `packet` is undefined, and
with exactly 2048 bytes stored `assert(len < sizeof(packet))` fails. -/
def send_rx888_status (t : StatusTags) (f : Rx888Frontend) : Option (List Nat) :=
  let stores := rx888_status_stores t f
  if stores.length < 2048 then some stores else none

/-- What `send_airspyhf_status` reads: `sdr.command_tag`, `sdr.commands`, the
value of `gps_time_ns()`, the bytes of the array `sdr.description` before its
NUL, `sdr.samprate`, `input.metadata_packets` before the call, the bit
patterns of the `double` members `sdr.calibrate` and `sdr.frequency`,
`sdr.lock`, and the bit patterns of the `float` arguments
`+0.43 * sdr.samprate` and `-0.43 * sdr.samprate`, whose floating-point
products are not modelled. -/
structure AirspyhfFrontend where
  command_tag : Nat
  commands : Nat
  gps_time : Nat
  description : List Nat
  samprate : Nat
  metadata_packets : Nat
  calibrate : Nat
  frequency : Nat
  lock : Nat
  high_edge : Nat
  low_edge : Nat

/-- The bytes that `send_airspyhf_status` stores through `bp`, in order, the
first at `packet[0]`; their number is `bp - packet` when `encode_eol` returns. -/
def airspyhf_status_stores (t : StatusTags) (f : AirspyhfFrontend) : List Nat :=
  [0] ++
  (encode_int32 t.COMMAND_TAG (f.command_tag % 2 ^ 32)).bytes ++
  (encode_int64 t.CMD_CNT (f.commands % 2 ^ 64)).bytes ++
  (encode_int64 t.GPS_TIME (f.gps_time % 2 ^ 64)).bytes ++
  (if f.description.head? ≠ none then (encode_string t.DESCRIPTION f.description).bytes
    else []) ++
  (encode_int32 t.INPUT_SAMPRATE (f.samprate % 2 ^ 32)).bytes ++
  (encode_int64 t.OUTPUT_METADATA_PACKETS ((f.metadata_packets + 1) % 2 ^ 64)).bytes ++
  (encode_double t.CALIBRATE (f.calibrate % 2 ^ 64)).bytes ++
  (encode_double t.RADIO_FREQUENCY (f.frequency % 2 ^ 64)).bytes ++
  (encode_int32 t.LOCK (f.lock % 2 ^ 32)).bytes ++
  (encode_byte t.DEMOD_TYPE 0).bytes ++
  (encode_int32 t.OUTPUT_SAMPRATE (f.samprate % 2 ^ 32)).bytes ++
  (encode_int32 t.OUTPUT_CHANNELS 1).bytes ++
  (encode_int32 t.DIRECT_CONVERSION 1).bytes ++
  (encode_float t.HIGH_EDGE (f.high_edge % 2 ^ 32)).bytes ++
  (encode_float t.LOW_EDGE (f.low_edge % 2 ^ 32)).bytes ++
  encode_eol.bytes

/-- Function `send_airspyhf_status` with its buffer `uint8_t packet[2048]`: the
`len` bytes of `packet` handed to `send`.  `none` stands for a run that does
not get to `send`: a store beyond the 2048 bytes of `packet` is undefined, and
with exactly 2048 bytes stored `assert(len < sizeof(packet))` fails. -/
def send_airspyhf_status (t : StatusTags) (f : AirspyhfFrontend) : Option (List Nat) :=
  let stores := airspyhf_status_stores t f
  if stores.length < 2048 then some stores else none

/-- The records of a packet as the receiving walkers see them: the loop of the
walkers on the bytes after the direction byte (`buffer+1`, `length-1`), noting
the tag and value bytes of each record. -/
def frame_records (packet : List Nat) : Option (List (Nat × List Nat)) :=
  (tlv_scan (record_switch (memOf packet.tail)) (memOf packet.tail)
    ((packet.tail.length : Nat) : Int) (packet.tail.length + 1) 0 []).map Scan.state

/-- The tags of the records of a packet, in order. -/
def frame_tags (packet : List Nat) : Option (List Nat) :=
  (frame_records packet).map (List.map Prod.fst)

/-- The record list of one floating-point field: none for a NaN, which the
encoders drop. -/
def float_field (tag x : Nat) : List Field :=
  if isnan32 x then [] else [Field.int tag x]

/-- The record list of one double-precision field. -/
def double_field (tag x : Nat) : List Field :=
  if isnan64 x then [] else [Field.int tag x]

/-- The fields of the frame of `send_rx888_status`, in order. -/
def rx888_fields (t : StatusTags) (f : Rx888Frontend) : List Field :=
  [Field.int t.COMMAND_TAG (f.command_tag % 2 ^ 32), Field.int t.CMD_CNT (f.commands % 2 ^ 64),
    Field.int t.GPS_TIME (f.gps_time % 2 ^ 64)] ++
  (match f.description with
    | none => []
    | some d => [Field.str t.DESCRIPTION d]) ++
  [Field.int t.INPUT_SAMPRATE (f.samprate % 2 ^ 32),
    Field.int t.OUTPUT_METADATA_PACKETS ((f.metadata_packets + 1) % 2 ^ 64)] ++
  float_field t.RF_ATTEN (f.rf_atten % 2 ^ 32) ++ float_field t.RF_GAIN (f.rf_gain % 2 ^ 32) ++
  [Field.int t.RADIO_FREQUENCY 0, Field.int t.DEMOD_TYPE 0,
    Field.int t.OUTPUT_SAMPRATE (f.samprate % 2 ^ 32), Field.int t.OUTPUT_CHANNELS 1,
    Field.int t.DIRECT_CONVERSION 1, Field.int t.LOW_EDGE 0] ++
  float_field t.HIGH_EDGE (f.high_edge % 2 ^ 32) ++
  [Field.int t.OUTPUT_BITS_PER_SAMPLE 16]

/-- The fields of the frame of `send_airspyhf_status`, in order. -/
def airspyhf_fields (t : StatusTags) (f : AirspyhfFrontend) : List Field :=
  [Field.int t.COMMAND_TAG (f.command_tag % 2 ^ 32), Field.int t.CMD_CNT (f.commands % 2 ^ 64),
    Field.int t.GPS_TIME (f.gps_time % 2 ^ 64)] ++
  (if f.description.head? ≠ none then [Field.str t.DESCRIPTION f.description] else []) ++
  [Field.int t.INPUT_SAMPRATE (f.samprate % 2 ^ 32),
    Field.int t.OUTPUT_METADATA_PACKETS ((f.metadata_packets + 1) % 2 ^ 64)] ++
  double_field t.CALIBRATE (f.calibrate % 2 ^ 64) ++
  double_field t.RADIO_FREQUENCY (f.frequency % 2 ^ 64) ++
  [Field.int t.LOCK (f.lock % 2 ^ 32), Field.int t.DEMOD_TYPE 0,
    Field.int t.OUTPUT_SAMPRATE (f.samprate % 2 ^ 32), Field.int t.OUTPUT_CHANNELS 1,
    Field.int t.DIRECT_CONVERSION 1] ++
  float_field t.HIGH_EDGE (f.high_edge % 2 ^ 32) ++ float_field t.LOW_EDGE (f.low_edge % 2 ^ 32)

/-- Every tag of the frames is a byte other than `EOL`. -/
def StatusTags.WellTyped (t : StatusTags) : Prop :=
  ∀ x ∈ [t.COMMAND_TAG, t.CMD_CNT, t.GPS_TIME, t.DESCRIPTION, t.INPUT_SAMPRATE,
    t.OUTPUT_METADATA_PACKETS, t.CALIBRATE, t.RADIO_FREQUENCY, t.LOCK, t.DEMOD_TYPE,
    t.OUTPUT_SAMPRATE, t.OUTPUT_CHANNELS, t.DIRECT_CONVERSION, t.HIGH_EDGE, t.LOW_EDGE,
    t.OUTPUT_BITS_PER_SAMPLE, t.RF_ATTEN, t.RF_GAIN], 0 < x ∧ x < 256

/-- An assignment of the tags by position in the list of the structure, for
use in examples (`status.h` is not among the sources). -/
def exampleTags : StatusTags :=
  ⟨1, 2, 3, 4, 5, 6, 7, 8, 9, 10, 11, 12, 13, 14, 15, 16, 17, 18⟩

/-! ## RX888 sample callback (`rx888.c` lines 450-467) -/

/-- The two's complement bit pattern of a C `int`, 32 bits. -/
def int_bits (x : Int) : Nat := (x % 2 ^ 32).toNat

/-- The expression `samples[i] ^ (-2 * (samples[i] & 1))` of `rx_callback` of
`rx888.c`, for the `int16_t` sample promoted to `int`: the bit operations are
made on the 32-bit patterns, the result is read back as an `int`. -/
def randomizer_unmask (sample : Int) : Int :=
  let lsb := int_bits sample &&& 1
  let mask := int_bits (-2 * (lsb : Int))
  toInt32 ((int_bits sample ^^^ mask : Nat) : Int)

/-- The two sample loops of `rx_callback` of `rx888.c`, selected by
`sdr->randomizer`: the values `s` in order (each is stored as `s * inv_gain`),
and the final `uint64_t in_energy`, started from the given value. -/
def Rx888.rx_callback (randomizer : Bool) : List Int → Nat → List Int × Nat
  | [], in_energy => ([], in_energy)
  | sample :: rest, in_energy =>
    let s := if randomizer then randomizer_unmask sample else sample
    let in_energy := (in_energy + (toInt32 (s * s) % 2 ^ 64).toNat) % 2 ^ 64
    let r := Rx888.rx_callback randomizer rest in_energy
    (s :: r.1, r.2)

/-! ## The earlier codec (`src/libradio/status.c`) -/

/-- The loop `while(cp - buffer < length){ ... }` of `get_ssrc` of
`libradio/status.c`, from scan position `cp`, with its trace.  The length of a
record is the single byte `unsigned int const optlen = *cp++;`.  The state is
the `int` returned: `decode_int(cp,optlen)` converted from `uint64_t`, or the 0
of `done:`.  The first argument bounds the number of tests of the loop
condition; `none` means that the bound was too small. -/
def Libradio.get_ssrc_loop (OUTPUT_SSRC : Nat) (mem : Mem) (length : Int) :
    Nat → Nat → Option (Scan Int)
  | 0, _ => none
  | fuel + 1, cp =>
    if (cp : Int) < length then
      let type := rd mem cp
      if type = EOL then some ⟨0, cp + 1, [cp], [cp]⟩
      else
        let optlen := rd mem (cp + 1)
        if ((cp + 2 : Nat) : Int) + (optlen : Int) ≥ length then
          some ⟨0, cp + 2, [cp, cp + 1], [cp]⟩
        else if type = EOL then some ⟨0, cp + 2, [cp, cp + 1], [cp]⟩
        else if type = OUTPUT_SSRC then
          some ⟨toInt32 (decode_int mem (cp + 2) (toInt32 optlen)), cp + 2,
            [cp, cp + 1] ++ value_reads (cp + 2) optlen, [cp]⟩
        else
          (Libradio.get_ssrc_loop OUTPUT_SSRC mem length fuel (cp + 2 + optlen)).map
            (fun r => ⟨r.state, r.cp, [cp, cp + 1] ++ r.reads, cp :: r.starts⟩)
    else some ⟨0, cp, [], []⟩

/-- Function `get_ssrc` of `libradio/status.c` with its trace. -/
def Libradio.get_ssrc_scan (OUTPUT_SSRC : Nat) (mem : Mem) (length : Int) : Option (Scan Int) :=
  Libradio.get_ssrc_loop OUTPUT_SSRC mem length (length.toNat + 1) 0

/-- Function `get_ssrc` of `libradio/status.c`: the `int` it returns. -/
def Libradio.get_ssrc (OUTPUT_SSRC : Nat) (mem : Mem) (length : Int) : Option Int :=
  (Libradio.get_ssrc_scan OUTPUT_SSRC mem length).map Scan.state

/-- Function `encode_string` of `libradio/status.c`: `s` holds the bytes at
`buf`, and the `int buflen` is their number converted to `int`.  `none` stands
for undefined behaviour, a negative `buflen` handed to `memcpy`. -/
def Libradio.encode_string (type : Nat) (s : List Nat) : Option Encoded :=
  let buflen := toInt32 s.length
  let buflen := if buflen > 255 then 255 else buflen
  if buflen < 0 then none
  else some ⟨type % 256 :: (buflen % 256).toNat :: s.take buflen.toNat, 2 + buflen⟩

/-! ## The poll command (`status.c` lines 328-343) -/

/-- What `send_poll` does: the `command_len` bytes of `cmdbuffer` it hands to
`send`, and the tag it returns. -/
structure Poll where
  packet : List Nat
  tag : Nat
deriving DecidableEq

/-- Function `send_poll` (`int ssrc`).  The value of the call `random()` is the
parameter `random`; the tags `OUTPUT_SSRC` and `COMMAND_TAG` of `status.h` are
parameters.  The `uint32_t tag` is converted to the `int` argument of
`encode_int`. -/
def send_poll (OUTPUT_SSRC COMMAND_TAG : Nat) (ssrc : Int) (random : Nat) : Poll :=
  let bp := [1]
  let bp := if ssrc ≠ 0 then bp ++ (encode_int OUTPUT_SSRC ssrc).bytes else bp
  let tag : Nat := random % 2 ^ 32
  let bp := bp ++ (encode_int COMMAND_TAG (toInt32 (tag : Int))).bytes
  let bp := bp ++ encode_eol.bytes
  ⟨bp, tag⟩

/-- The fields of the command of `send_poll`, in order. -/
def poll_fields (OUTPUT_SSRC COMMAND_TAG : Nat) (ssrc : Int) (random : Nat) : List Field :=
  (if ssrc ≠ 0 then [Field.int OUTPUT_SSRC (ssrc % 2 ^ 64).toNat] else []) ++
    [Field.int COMMAND_TAG random]

/-! ## Linear demodulator: PLL lock detector and AGC (`linear.c` lines 58-246)

One pass of the loop `while(!chan->terminate){ ... }` of `demod_linear`, in
exact arithmetic: the `float` values are elements of an ordered field `F`
(the rationals or the reals), `NAN` is `none`.  The functions `sqrtf` and
`powf` of the C library are parameters.  A division by zero, which gives an
infinity or `NAN` in C, gives 0 in `F`; the theorems below do not rest on one:
`noise != 0` guards the quotient of the PLL pass, and the quotients of the AGC
are used with positive `ampl`, `gain` and `N` only. -/

/-- The result of an operation on `int`: `none` stands for signed overflow,
which is undefined. -/
def int_checked (n : Int) : Option Int :=
  if -2 ^ 31 ≤ n ∧ n < 2 ^ 31 then some n else none

/-- The C conversion of a `float` to `int`: the fractional part is discarded;
`none` stands for a value that does not fit, where the conversion is
undefined. -/
def float_to_int {F : Type} [LinearOrderedField F] [FloorRing F] (x : F) : Option Int :=
  int_checked (if 0 ≤ x then ⌊x⌋ else ⌈x⌉)

/-- The power of two by which a `float` of magnitude `a` is scaled, so that
`a` divided by it is below `2 ^ 24`; the first argument bounds the exponent. -/
def float_scale : Nat → Nat → Nat
  | 0, _ => 1
  | k + 1, a => if a < 2 ^ 24 then 1 else 2 * float_scale k (a / 2)

/-- The C conversion of an `int` to `float` (binary32, 24 bits of precision,
rounding to nearest, ties to even): the value of the result, an integer. -/
def int_to_float (n : Int) : Int :=
  let a := n.natAbs
  let q := float_scale 32 a
  let m := a / q
  let r := a % q
  let m := if 2 * r > q ∨ (2 * r = q ∧ m % 2 = 1) then m + 1 else m
  n.sign * ((m * q : Nat) : Int)

/-- The fields of `struct channel` that a pass of `demod_linear` over one block
reads or writes after `downconvert`. -/
structure Channel (F : Type) where
  /-- Field `linear.pll`. -/
  pll : Bool
  /-- Field `pll.was_on`. -/
  was_on : Bool
  /-- Field `pll.lock_count`, an `int`. -/
  lock_count : Int
  /-- Field `linear.pll_lock`. -/
  pll_lock : Bool
  /-- Field `linear.lock_timer`, a `float`. -/
  lock_timer : F
  /-- Field `sig.snr`. -/
  snr : Option F
  /-- Field `linear.agc`. -/
  agc : Bool
  /-- Field `linear.env`. -/
  env : Bool
  /-- Field `output.channels`. -/
  channels : Int
  /-- Field `filter.min_IF`. -/
  min_IF : F
  /-- Field `filter.max_IF`. -/
  max_IF : F
  /-- Field `sig.n0`. -/
  n0 : F
  /-- Field `sig.bb_power`. -/
  bb_power : F
  /-- Field `linear.threshold`. -/
  threshold : F
  /-- Field `linear.recovery_rate`. -/
  recovery_rate : F
  /-- Field `linear.hangtime`, a `float`. -/
  hangtime : F
  /-- Field `hangcount`, an `int`. -/
  hangcount : Int
  /-- Field `output.gain`. -/
  gain : F
  /-- Field `output.headroom`. -/
  headroom : F

/-- The sums `signal` and `noise` after `n` iterations of the loop of lines
80-91; `s n` is the value of `s` in iteration `n`, real and imaginary part (the
buffer sample turned by the phasor of the PLL of `osc.c`, which is not among
the sources). -/
def pll_energy {F : Type} [LinearOrderedField F] (s : Nat → F × F) : Nat → F × F
  | 0 => (0, 0)
  | n + 1 =>
    let e := pll_energy s n
    (e.1 + (s n).1 * (s n).1, e.2 + (s n).2 * (s n).2)

/-- Lines 92-97: the value stored in `chan->sig.snr`. -/
def pll_snr {F : Type} [LinearOrderedField F] (signal noise : F) : Option F :=
  if noise ≠ 0 then
    let snr := signal / noise - 1
    let snr := if snr < 0 then 0 else snr
    some snr
  else none

/-- The comparison `snr < 0` of line 111: false for `NAN`. -/
def snr_negative {F : Type} [LinearOrderedField F] : Option F → Bool
  | some snr => decide (snr < 0)
  | none => false

/-- The comparison `snr > 0` of line 113: false for `NAN`. -/
def snr_positive {F : Type} [LinearOrderedField F] : Option F → Bool
  | some snr => decide (snr > 0)
  | none => false

/-- Lines 73-133 of `demod_linear`, the PLL pass over a block of `N` samples,
with the constant `lock_limit` of the thread. -/
def pll_pass {F : Type} [LinearOrderedField F] (lock_limit N : Int) (s : Nat → F × F)
    (chan : Channel F) : Option (Channel F) :=
  if chan.pll then
    let e := pll_energy s N.toNat
    let snr := pll_snr e.1 e.2
    let counted :=
      if snr_negative snr then int_checked (chan.lock_count - N)
      else if snr_positive snr then int_checked (chan.lock_count + N)
      else some chan.lock_count
    counted.bind fun lock_count =>
    (int_checked (-lock_limit)).bind fun low =>
    let c1 := if lock_count ≥ lock_limit then (lock_limit, true) else (lock_count, chan.pll_lock)
    let c2 := if c1.1 ≤ low then (low, false) else c1
    some { chan with
      was_on := true, snr := snr, lock_count := c2.1, pll_lock := c2.2,
      lock_timer := ((int_to_float c2.1 : Int) : F) }
  else some { chan with was_on := false }

/-- Lines 146-176, the AGC decision: `gain_change` and the new `hangcount`. -/
def agc_decision {F : Type} [LinearOrderedField F] [FloorRing F] (sqrtf : F → F)
    (powf : F → F → F) (N : Int) (chan : Channel F) : Option (F × Int) :=
  let gain_change : F := 1
  if chan.agc then
    let bw := |chan.min_IF - chan.max_IF|
    let bn := sqrtf (bw * chan.n0)
    let ampl := sqrtf chan.bb_power
    if ampl * chan.gain > chan.headroom then
      let newgain := chan.headroom / ampl
      let gain_change := powf (newgain / chan.gain) (1 / (N : F))
      (float_to_int chan.hangtime).map fun hangcount => (gain_change, hangcount)
    else if bn * chan.gain > chan.threshold * chan.headroom then
      let newgain := chan.threshold * chan.headroom / bn
      let gain_change := powf (newgain / chan.gain) (1 / (N : F))
      some (gain_change, chan.hangcount)
    else if chan.hangcount > 0 then
      let gain_change := 1
      some (gain_change, chan.hangcount - 1)
    else
      let gain_change := powf chan.recovery_rate (1 / (N : F))
      some (gain_change, chan.hangcount)
  else some (gain_change, chan.hangcount)

/-- The statement `chan->output.gain *= gain_change;` made once in each of the
`n` iterations of a loop of the output pass. -/
def gain_loop {F : Type} [LinearOrderedField F] (gain_change : F) : Nat → F → F
  | 0, gain => gain
  | n + 1, gain => gain_loop gain_change n (gain * gain_change)

/-- Lines 183-229, the output pass: `chan->output.gain` after the loop of the
selected output path (mono or stereo, envelope or not). -/
def output_pass_gain {F : Type} [LinearOrderedField F] (N : Int) (gain_change : F)
    (chan : Channel F) : F :=
  if chan.channels = 1 then
    if chan.env then gain_loop gain_change N.toNat chan.gain
    else gain_loop gain_change N.toNat chan.gain
  else
    if chan.env then gain_loop gain_change N.toNat chan.gain
    else gain_loop gain_change N.toNat chan.gain

/-- What `downconvert` hands to one pass of the loop: the block length
`N = chan->filter.out->olen`, the values of `s` in the PLL loop, and the
measurements `sig.bb_power` and `sig.n0`. -/
structure Block (F : Type) where
  N : Int
  s : Nat → F × F
  bb_power : F
  n0 : F

/-- One pass of the loop of `demod_linear` over a block: the PLL pass, the AGC
decision and the output pass.  `none` stands for undefined behaviour. -/
def demod_linear_block {F : Type} [LinearOrderedField F] [FloorRing F] (sqrtf : F → F)
    (powf : F → F → F) (lock_limit : Int) (b : Block F) (chan : Channel F) :
    Option (Channel F) :=
  let chan := { chan with bb_power := b.bb_power, n0 := b.n0 }
  (pll_pass lock_limit b.N b.s chan).bind fun chan =>
  (agc_decision sqrtf powf b.N chan).map fun d =>
  { chan with hangcount := d.2, gain := output_pass_gain b.N d.1 chan }

/-- The loop of `demod_linear` over the successive blocks. -/
def demod_linear {F : Type} [LinearOrderedField F] [FloorRing F] (sqrtf : F → F)
    (powf : F → F → F) (lock_limit : Int) : List (Block F) → Channel F → Option (Channel F)
  | [], chan => some chan
  | b :: rest, chan =>
    (demod_linear_block sqrtf powf lock_limit b chan).bind
      (demod_linear sqrtf powf lock_limit rest)

/-- A channel for use in examples: output at 48 kHz (`lock_limit = 2400`), PLL
enabled and locked with the counter at the limit, AGC disabled. -/
def exampleChannel : Channel ℚ :=
  { pll := true, was_on := true, lock_count := 2400, pll_lock := true, lock_timer := 2400,
    snr := some 1, agc := false, env := false, channels := 1, min_IF := -5000, max_IF := 5000,
    n0 := 0, bb_power := 0, threshold := 1 / 5, recovery_rate := 1, hangtime := 55,
    hangcount := 0, gain := 1, headroom := 1 / 3 }

/-! ## Records of a command -/

/-- The value bytes of the last record with the tag `T` in a list of records
(tag and value bytes), if there is one. -/
def last_record (T : Nat) : List (Nat × List Nat) → Option (List Nat)
  | [] => none
  | (type, value) :: rest =>
    match last_record T rest with
    | some v => some v
    | none => if type = T then some value else none

/-! # Theorems

## Memory lemmas -/

theorem memHas_nil (mem : Mem) (cp : Nat) : MemHas mem cp [] := by
  intro i hi; simp at hi

theorem memHas_cons (mem : Mem) (cp b : Nat) (t : List Nat) :
    MemHas mem cp (b :: t) ↔ mem cp = b ∧ MemHas mem (cp + 1) t := by
  constructor
  · intro h
    refine ⟨by simpa using h 0 (by simp), ?_⟩
    intro i hi
    have := h (i + 1) (by simpa using hi)
    simpa [Nat.add_assoc, Nat.add_comm 1 i] using this
  · rintro ⟨h0, ht⟩ i hi
    cases i with
    | zero => simpa using h0
    | succ j =>
      have := ht j (by simpa using hi)
      simpa [Nat.add_assoc, Nat.add_comm 1 j] using this

theorem memHas_append (mem : Mem) (cp : Nat) (a b : List Nat) :
    MemHas mem cp (a ++ b) ↔ MemHas mem cp a ∧ MemHas mem (cp + a.length) b := by
  induction a generalizing cp with
  | nil => simp [memHas_nil]
  | cons x t ih =>
    simp only [List.cons_append, memHas_cons, ih, List.length_cons]
    have : cp + 1 + t.length = cp + (t.length + 1) := by omega
    rw [this]; tauto

theorem memOf_has (bs : List Nat) : MemHas (memOf bs) 0 bs := by
  intro i _; simp [memOf]

/-! ## The integer codec -/

theorem skip_spec : ∀ (len y : Nat), len ≤ 8 → y < 256 ^ len →
    ∃ n, skipLeadingZeros len (y * 256 ^ (8 - len)) = (n, y * 256 ^ (8 - n)) ∧ n ≤ len ∧
      y < 256 ^ n ∧ (n = 0 ∨ 256 ^ (n - 1) ≤ y) := by
  intro len
  induction len with
  | zero => intro y _ hy; exact ⟨0, rfl, le_refl _, hy, Or.inl rfl⟩
  | succ k ih =>
    intro y hk hy
    have hk7 : k < 8 := by omega
    unfold skipLeadingZeros
    by_cases h : (y * 256 ^ (8 - (k + 1))) >>> 56 = 0
    · rw [if_pos h]
      have hlt : y < 256 ^ k := by
        rw [Nat.shiftRight_eq_div_pow] at h
        clear ih
        interval_cases k <;> simp at h hy ⊢ <;> omega
      obtain ⟨n, h1, h2, h3, h4⟩ := ih y (by omega) hlt
      refine ⟨n, ?_, by omega, h3, h4⟩
      rw [← h1]
      congr 1
      rw [Nat.shiftLeft_eq]
      clear ih h1
      interval_cases k <;> simp at hlt ⊢ <;> omega
    · rw [if_neg h]
      refine ⟨k + 1, rfl, le_refl _, hy, Or.inr ?_⟩
      rw [Nat.shiftRight_eq_div_pow] at h
      clear ih
      interval_cases k <;> simp at h hy ⊢ <;> omega

theorem emit_length : ∀ (n x : Nat), (emitBigEndian n x).length = n := by
  intro n
  induction n with
  | zero => intro x; rfl
  | succ k ih => intro x; simp [emitBigEndian, ih]

theorem emit_lt : ∀ (n x b : Nat), b ∈ emitBigEndian n x → b < 256 := by
  intro n
  induction n with
  | zero => intro x b hb; simp [emitBigEndian] at hb
  | succ k ih =>
    intro x b hb
    simp only [emitBigEndian, List.mem_cons] at hb
    rcases hb with h | h
    · subst h; exact Nat.mod_lt _ (by norm_num)
    · exact ih _ _ h

theorem emit_head (k y : Nat) (hk : k < 8) (hy : y < 256 ^ (k + 1)) :
    (y * 256 ^ (8 - (k + 1))) >>> 56 % 256 = y / 256 ^ k := by
  rw [Nat.shiftRight_eq_div_pow]
  interval_cases k <;> simp at hy ⊢ <;> omega

theorem emit_ofDigits : ∀ (n y : Nat), n ≤ 8 → y < 256 ^ n →
    Nat.ofDigits 256 (emitBigEndian n (y * 256 ^ (8 - n))).reverse = y := by
  intro n
  induction n with
  | zero => intro y _ hy; simp at hy; subst hy; simp [emitBigEndian]
  | succ k ih =>
    intro y hk hy
    have hk7 : k < 8 := by omega
    have hmod : y % 256 ^ k < 256 ^ k := Nat.mod_lt _ (by positivity)
    have hnext : ((y * 256 ^ (8 - (k + 1))) <<< 8) % 2 ^ 64 = (y % 256 ^ k) * 256 ^ (8 - k) := by
      rw [Nat.shiftLeft_eq]
      clear ih hmod
      interval_cases k <;> simp at hy ⊢ <;> omega
    simp only [emitBigEndian, List.reverse_cons, Nat.ofDigits_append, Nat.ofDigits_singleton,
      List.length_reverse, emit_length]
    rw [hnext, emit_head k y hk7 hy, ih _ (by omega) hmod]
    exact Nat.mod_add_div y (256 ^ k)

theorem or_byte (a b : Nat) (hb : b < 256) :
    ((a <<< 8) % 2 ^ 64) ||| b = (a * 256) % 2 ^ 64 + b := by
  have h1 : (a <<< 8) % 2 ^ 64 = 2 ^ 8 * (a % 2 ^ 56) := by
    rw [Nat.shiftLeft_eq]; omega
  have h2 : (a * 256) % 2 ^ 64 = 2 ^ 8 * (a % 2 ^ 56) := by omega
  rw [h1, h2]
  exact (Nat.mul_add_lt_is_or (by simpa using hb) _).symm

theorem digits_getD : ∀ (j x : Nat), (Nat.digits 256 x).getD j 0 = x / 256 ^ j % 256 := by
  intro j
  induction j with
  | zero =>
    intro x
    by_cases h0 : x = 0
    · subst h0; simp
    · rw [Nat.digits_eq_cons_digits_div (by norm_num) h0]; simp
  | succ k ih =>
    intro x
    by_cases h0 : x = 0
    · subst h0; simp
    · rw [Nat.digits_eq_cons_digits_div (by norm_num) h0]
      simp only [List.getD_cons_succ]
      rw [ih, Nat.div_div_eq_div_mul, pow_succ']

theorem digits_length_le (x m : Nat) (hx : x < 256 ^ m) : (Nat.digits 256 x).length ≤ m := by
  by_cases h0 : x = 0
  · subst h0; simp
  · have h1 := Nat.base_pow_length_digits_le 256 x (by norm_num) h0
    have h2 : 256 ^ (Nat.digits 256 x).length < 256 ^ (m + 1) := by
      rw [pow_succ']; omega
    have h3 := (Nat.pow_lt_pow_iff_right (by norm_num : 1 < 256)).mp h2
    omega

/-- The encoder `encode_int64` stores the base-256 digits of `x`, most significant first. -/
theorem encode_int64_digits (type x : Nat) (hx : x < 2 ^ 64) :
    encode_int64 type x =
      ⟨type % 256 :: (Nat.digits 256 x).length :: (Nat.digits 256 x).reverse,
        2 + ((Nat.digits 256 x).length : Int)⟩ := by
  by_cases h0 : x = 0
  · subst h0; simp [encode_int64]
  · obtain ⟨n, h1, h2, h3, h4⟩ := skip_spec 8 x (le_refl _) (by simpa using hx)
    simp only [Nat.sub_self, pow_zero, mul_one] at h1
    have hn : n ≠ 0 := by
      rintro rfl
      simp at h3; exact h0 h3
    have hdig : (emitBigEndian n (x * 256 ^ (8 - n))).reverse = Nat.digits 256 x := by
      have key := Nat.digits_ofDigits 256 (by norm_num)
        (emitBigEndian n (x * 256 ^ (8 - n))).reverse
        (fun l hl => emit_lt _ _ _ (List.mem_reverse.mp hl))
        (by
          intro hne
          obtain ⟨k, rfl⟩ := Nat.exists_eq_succ_of_ne_zero hn
          rw [List.getLast_reverse]
          simp only [emitBigEndian, List.head_cons]
          rw [emit_head k x (by omega) h3]
          have h5 : 256 ^ k ≤ x := by simpa using h4
          exact Nat.pos_iff_ne_zero.mp (Nat.div_pos h5 (by positivity)))
      rw [emit_ofDigits n x h2 h3] at key
      exact key.symm
    have hlen : (Nat.digits 256 x).length = n := by
      rw [← hdig, List.length_reverse, emit_length]
    simp only [encode_int64, if_neg h0, h1]
    rw [hlen, ← hdig, List.reverse_reverse, Nat.mod_eq_of_lt (by omega : n < 256)]

theorem decode_loop_ofDigits (mem : Mem) : ∀ (vs : List Nat) (cp acc : Nat),
    MemHas mem cp vs → (∀ b ∈ vs, b < 256) →
    acc * 256 ^ vs.length + Nat.ofDigits 256 vs.reverse < 2 ^ 64 →
    decode_int_loop mem vs.length cp acc = acc * 256 ^ vs.length + Nat.ofDigits 256 vs.reverse := by
  intro vs
  induction vs with
  | nil => intro cp acc _ _ _; simp [decode_int_loop]
  | cons b t ih =>
    intro cp acc hm hb hlt
    rw [memHas_cons] at hm
    have hb256 : b < 256 := hb b (List.mem_cons_self _ _)
    have hexp : acc * 256 ^ (b :: t).length + Nat.ofDigits 256 (b :: t).reverse =
        (acc * 256 + b) * 256 ^ t.length + Nat.ofDigits 256 t.reverse := by
      simp only [List.length_cons, List.reverse_cons, Nat.ofDigits_append, Nat.ofDigits_singleton,
        List.length_reverse, pow_succ]
      ring
    rw [hexp] at hlt ⊢
    have hacc : acc * 256 + b < 2 ^ 64 := by
      have h1 : 1 ≤ 256 ^ t.length := Nat.one_le_pow _ _ (by norm_num)
      have h2 : (acc * 256 + b) * 1 ≤ (acc * 256 + b) * 256 ^ t.length :=
        Nat.mul_le_mul_left _ h1
      omega
    have hstep : ((acc <<< 8) % 2 ^ 64) ||| rd mem cp = acc * 256 + b := by
      have hr : rd mem cp = b := by simp [rd, hm.1, Nat.mod_eq_of_lt hb256]
      rw [hr, or_byte acc b hb256, Nat.mod_eq_of_lt (by omega)]
    simp only [List.length_cons, decode_int_loop]
    rw [hstep]
    exact ih (cp + 1) (acc * 256 + b) hm.2 (fun c hc => hb c (List.mem_cons_of_mem _ hc)) hlt

/-- Decoding the stored digits of `x` gives `x` back. -/
theorem decode_int_digits (mem : Mem) (cp x : Nat) (hx : x < 2 ^ 64)
    (hm : MemHas mem cp (Nat.digits 256 x).reverse) :
    decode_int mem cp ((Nat.digits 256 x).length : Int) = x := by
  have h := decode_loop_ofDigits mem (Nat.digits 256 x).reverse cp 0 hm
    (fun b hb => Nat.digits_lt_base (by norm_num) (List.mem_reverse.mp hb))
    (by simpa [Nat.ofDigits_digits] using hx)
  simpa [decode_int, Nat.ofDigits_digits] using h

/-- The record of `encode_int64` and its decoding, wherever the record is stored. -/
theorem encode_int64_record (type x : Nat) (hx : x < 2 ^ 64) (mem : Mem) (cp : Nat)
    (hm : MemHas mem cp (encode_int64 type x).bytes) :
    ∃ n vs, (encode_int64 type x).bytes = type % 256 :: n :: vs ∧ vs.length = n ∧
      MemHas mem (cp + 2) vs ∧ decode_int mem (cp + 2) (n : Int) = x := by
  rw [encode_int64_digits type x hx] at hm ⊢
  refine ⟨_, _, rfl, by simp, ?_⟩
  simp only [memHas_cons] at hm
  exact ⟨hm.2.2, decode_int_digits mem (cp + 2) x hx hm.2.2⟩

/-- C1: for every `uint64_t` value `x` and every tag, `encode_int64` writes a
record `tag, n, v1 .. vn`, and wherever that record is stored, `decode_int`
applied to its `n` value bytes with length `n` returns exactly `x`. -/
theorem decode_int_encode_int64 (type x : Nat) (hx : x < 2 ^ 64) (mem : Mem) (cp : Nat)
    (hm : MemHas mem cp (encode_int64 type x).bytes) :
    ∃ n vs, (encode_int64 type x).bytes = type % 256 :: n :: vs ∧ vs.length = n ∧
      MemHas mem (cp + 2) vs ∧ decode_int mem (cp + 2) (n : Int) = x :=
  encode_int64_record type x hx mem cp hm

/-- Witness of C1 at the tag 11 and the value 0x12345678 of the example message of the
specification. -/
theorem decode_int_encode_int64_witness :
    ∃ n vs, (encode_int64 11 305419896).bytes = 11 % 256 :: n :: vs ∧ vs.length = n ∧
      MemHas (memOf [11, 4, 18, 52, 86, 120]) (0 + 2) vs ∧
      decode_int (memOf [11, 4, 18, 52, 86, 120]) (0 + 2) (n : Int) = 305419896 :=
  decode_int_encode_int64 11 305419896 (by norm_num) (memOf [11, 4, 18, 52, 86, 120]) 0
    (by
      have h : (encode_int64 11 305419896).bytes = [11, 4, 18, 52, 86, 120] := by decide
      rw [h]; exact memOf_has _)

/-- C2: for every `uint64_t` value `x`, `encode_int64` writes the tag, then the
length byte `n`, the minimal number of bytes that can hold `x` (`n = 0` when
`x = 0`, otherwise `1 <= n <= 8` with a non-zero first value byte), then the `n`
base-256 digits of `x`, most significant first, and returns `2 + n`; the value 0
yields the two-byte record `tag, 0` for `encode_int64`, `encode_int32`,
`encode_int16`, `encode_int` and `encode_byte`. -/
theorem encode_int64_minimal_big_endian (type x : Nat) (hx : x < 2 ^ 64) :
    (∃ n vs, encode_int64 type x = ⟨type % 256 :: n :: vs, 2 + (n : Int)⟩ ∧
      vs.length = n ∧ vs = (Nat.digits 256 x).reverse ∧
      (∀ i, i < n → vs.getD i 0 = x / 256 ^ (n - 1 - i) % 256) ∧
      n ≤ 8 ∧ x < 256 ^ n ∧ (∀ m, x < 256 ^ m → n ≤ m) ∧
      (x = 0 → n = 0) ∧ (x ≠ 0 → 1 ≤ n ∧ vs.getD 0 0 ≠ 0)) ∧
    encode_int64 type 0 = ⟨[type % 256, 0], 2⟩ ∧
    encode_int32 type 0 = ⟨[type % 256, 0], 2⟩ ∧
    encode_int16 type 0 = ⟨[type % 256, 0], 2⟩ ∧
    encode_int type 0 = ⟨[type % 256, 0], 2⟩ ∧
    encode_byte type 0 = ⟨[type % 256, 0], 2⟩ := by
  refine ⟨⟨(Nat.digits 256 x).length, (Nat.digits 256 x).reverse,
    encode_int64_digits type x hx, by simp, rfl, ?_, ?_, ?_, ?_, ?_, ?_⟩, ?_⟩
  · intro i hi
    have hi2 : (Nat.digits 256 x).length - 1 - i < (Nat.digits 256 x).length := by omega
    rw [List.getD_eq_getElem _ _ (by simpa using hi), List.getElem_reverse,
      ← List.getD_eq_getElem _ 0 hi2, digits_getD]
  · exact digits_length_le x 8 (by simpa using hx)
  · exact Nat.lt_base_pow_length_digits (by norm_num)
  · intro m hm
    exact digits_length_le x m hm
  · rintro rfl; simp
  · intro h0
    have hpos : 0 < (Nat.digits 256 x).length := by
      rcases Nat.eq_zero_or_pos (Nat.digits 256 x).length with h | h
      · exact absurd (Nat.digits_eq_nil_iff_eq_zero.mp (List.length_eq_zero.mp h)) h0
      · exact h
    refine ⟨hpos, ?_⟩
    have hne : Nat.digits 256 x ≠ [] := by
      intro h; rw [h] at hpos; simp at hpos
    have hlast := Nat.getLast_digit_ne_zero 256 h0
    rw [List.getD_eq_getElem _ _ (by simpa using hpos), List.getElem_reverse]
    rw [List.getLast_eq_getElem] at hlast
    simpa using hlast
  · refine ⟨by simp [encode_int64], by simp [encode_int32, encode_int64],
      by simp [encode_int16, encode_int64], by simp [encode_int, encode_int64], by simp [encode_byte]⟩

/-- Witness of C2 at the 64-bit value of the example message of the specification. -/
theorem encode_int64_minimal_big_endian_witness :
    81985529216486895 < 2 ^ 64 ∧
    ((∃ n vs, encode_int64 13 81985529216486895 = ⟨13 % 256 :: n :: vs, 2 + (n : Int)⟩ ∧
      vs.length = n ∧ vs = (Nat.digits 256 81985529216486895).reverse ∧
      (∀ i, i < n → vs.getD i 0 = 81985529216486895 / 256 ^ (n - 1 - i) % 256) ∧
      n ≤ 8 ∧ 81985529216486895 < 256 ^ n ∧ (∀ m, 81985529216486895 < 256 ^ m → n ≤ m) ∧
      (81985529216486895 = 0 → n = 0) ∧ (81985529216486895 ≠ 0 → 1 ≤ n ∧ vs.getD 0 0 ≠ 0)) ∧
    encode_int64 13 0 = ⟨[13 % 256, 0], 2⟩ ∧
    encode_int32 13 0 = ⟨[13 % 256, 0], 2⟩ ∧
    encode_int16 13 0 = ⟨[13 % 256, 0], 2⟩ ∧
    encode_int 13 0 = ⟨[13 % 256, 0], 2⟩ ∧
    encode_byte 13 0 = ⟨[13 % 256, 0], 2⟩) :=
  ⟨by norm_num, encode_int64_minimal_big_endian 13 81985529216486895 (by norm_num)⟩

/-! ## Floating-point round trips -/

theorem decode_float_calls_decode_double (narrow : Nat → Nat) (mem : Mem) (cp : Nat) (len : Int) :
    decode_float narrow mem cp len =
      if len = 0 then 0
      else if len = 8 then narrow (decode_double mem cp len)
      else decode_float_union mem cp len := by
  unfold decode_float decode_double
  by_cases h8 : len = 8
  · subst h8; simp
  · simp [h8]

theorem decode_double_calls_decode_float (narrow : Nat → Nat) (mem : Mem) (cp : Nat) (len : Int) :
    decode_double mem cp len =
      if len = 0 then 0
      else if len = 4 then float_to_double (decode_float narrow mem cp len)
      else decode_double_union mem cp len := by
  unfold decode_float decode_double
  by_cases h4 : len = 4
  · subst h4; simp
  · simp [h4]

/-- The widening `float_to_double` on `1.0`, the least subnormal, minus infinity
and the `float` nearest to minus pi. -/
theorem float_to_double_examples :
    float_to_double 0x3F800000 = 0x3FF0000000000000 ∧
    float_to_double 0x00000001 = 0x36A0000000000000 ∧
    float_to_double 0xFF800000 = 0xFFF0000000000000 ∧
    float_to_double 0xC0490FDB = 0xC00921FB60000000 := by
  decide

theorem digits_length_eq_zero (x : Nat) : (Nat.digits 256 x).length = 0 ↔ x = 0 := by
  rw [List.length_eq_zero, Nat.digits_eq_nil_iff_eq_zero]

/-- C3: for every non-NaN `float` bit pattern `x`, `encode_float` writes a record
`tag, n, v1 .. vn` (with `n <= 4`, and `n = 0` for `+0.0`), and `decode_float`
applied to the value bytes and the length `n` returns the bit pattern `x`. -/
theorem decode_float_encode_float (type x : Nat) (hx : x < 2 ^ 32) (hnan : isnan32 x = false)
    (narrow : Nat → Nat) (mem : Mem) (cp : Nat)
    (hm : MemHas mem cp (encode_float type x).bytes) :
    ∃ n vs, (encode_float type x).bytes = type % 256 :: n :: vs ∧ vs.length = n ∧ n ≤ 4 ∧
      (x = 0 → n = 0) ∧ MemHas mem (cp + 2) vs ∧
      decode_float narrow mem (cp + 2) (n : Int) = x := by
  have hx64 : x < 2 ^ 64 := by omega
  have henc : encode_float type x = encode_int64 type x := by
    simp [encode_float, hnan, encode_int32]
  rw [henc] at hm ⊢
  obtain ⟨n, vs, h1, h2, h3, h4⟩ := encode_int64_record type x hx64 mem cp hm
  have hn : n = (Nat.digits 256 x).length := by
    rw [encode_int64_digits type x hx64] at h1
    simp only [List.cons.injEq, true_and] at h1
    exact h1.1.symm
  have hn4 : n ≤ 4 := by
    rw [hn]; exact digits_length_le x 4 (by simpa using hx)
  refine ⟨n, vs, h1, h2, hn4, ?_, h3, ?_⟩
  · intro h0; rw [hn]; exact (digits_length_eq_zero x).mpr h0
  · unfold decode_float decode_float_union
    by_cases hz : n = 0
    · have : x = 0 := (digits_length_eq_zero x).mp (hn ▸ hz)
      simp [hz, this]
    · have h8 : (n : Int) ≠ 8 := by omega
      have h0 : (n : Int) ≠ 0 := by omega
      rw [if_neg h0, if_neg h8, h4]
      exact Nat.mod_eq_of_lt hx

/-- Witness of C3 at the bit pattern of `-0.0`. -/
theorem decode_float_encode_float_witness :
    (2147483648 < 2 ^ 32 ∧ isnan32 2147483648 = false ∧
      MemHas (memOf [7, 4, 128, 0, 0, 0]) 0 (encode_float 7 2147483648).bytes) ∧
    ∃ n vs, (encode_float 7 2147483648).bytes = 7 % 256 :: n :: vs ∧ vs.length = n ∧ n ≤ 4 ∧
      (2147483648 = 0 → n = 0) ∧ MemHas (memOf [7, 4, 128, 0, 0, 0]) (0 + 2) vs ∧
      decode_float id (memOf [7, 4, 128, 0, 0, 0]) (0 + 2) (n : Int) = 2147483648 :=
  have hm : MemHas (memOf [7, 4, 128, 0, 0, 0]) 0 (encode_float 7 2147483648).bytes := by
    have h : (encode_float 7 2147483648).bytes = [7, 4, 128, 0, 0, 0] := by decide
    rw [h]; exact memOf_has _
  ⟨⟨by norm_num, by decide, hm⟩,
    decode_float_encode_float 7 2147483648 (by norm_num) (by decide) id _ 0 hm⟩

/-- C4 fails as stated: the subnormal `double` with bit pattern `0x3F800000` is
not a NaN, its suppressed encoding is the four bytes `3F 80 00 00`, and
`decode_double` with length 4 returns the bit pattern of `1.0`, not that of the
value encoded. -/
theorem decode_double_encode_double_counterexample :
    isnan64 1065353216 = false ∧
    encode_double 7 1065353216 = ⟨[7, 4, 63, 128, 0, 0], 6⟩ ∧
    decode_double (memOf [7, 4, 63, 128, 0, 0]) 2 4 = 4607182418800017408 ∧
    decode_double (memOf [7, 4, 63, 128, 0, 0]) 2 4 ≠ 1065353216 := by
  decide

/-- C4 as amended: for every non-NaN `double` bit pattern `x`, `encode_double`
writes a record `tag, n, v1 .. vn` with `n <= 8`; the length is 4 exactly when
`2 ^ 24 <= x < 2 ^ 32`; when `n` is not 4, `decode_double` applied to the value
bytes and `n` returns `x`; when `n` is 4 the bytes are decoded as a `float` and
widened, so that the result is `(double)` of the `float` with bit pattern `x`. -/
theorem decode_double_encode_double (type x : Nat) (hx : x < 2 ^ 64) (hnan : isnan64 x = false)
    (mem : Mem) (cp : Nat) (hm : MemHas mem cp (encode_double type x).bytes) :
    ∃ n vs, (encode_double type x).bytes = type % 256 :: n :: vs ∧ vs.length = n ∧ n ≤ 8 ∧
      MemHas mem (cp + 2) vs ∧
      (n = 4 ↔ 2 ^ 24 ≤ x ∧ x < 2 ^ 32) ∧
      (n ≠ 4 → decode_double mem (cp + 2) (n : Int) = x) ∧
      (n = 4 → decode_double mem (cp + 2) (n : Int) = float_to_double x) := by
  have henc : encode_double type x = encode_int64 type x := by
    simp [encode_double, hnan]
  rw [henc] at hm ⊢
  obtain ⟨n, vs, h1, h2, h3, h4⟩ := encode_int64_record type x hx mem cp hm
  have hn : n = (Nat.digits 256 x).length := by
    rw [encode_int64_digits type x hx] at h1
    simp only [List.cons.injEq, true_and] at h1
    exact h1.1.symm
  have hn8 : n ≤ 8 := by
    rw [hn]; exact digits_length_le x 8 (by simpa using hx)
  have hlt : x < 256 ^ n := by
    rw [hn]; exact Nat.lt_base_pow_length_digits (by norm_num)
  have hiff : n = 4 ↔ 2 ^ 24 ≤ x ∧ x < 2 ^ 32 := by
    constructor
    · intro h
      subst h
      refine ⟨?_, by simpa using hlt⟩
      by_contra hc
      have := digits_length_le x 3 (by simpa using (not_le.mp hc))
      omega
    · rintro ⟨hlo, hhi⟩
      have h4le := digits_length_le x 4 (by simpa using hhi)
      have h3 : ¬ n ≤ 3 := by
        intro h
        have : (256 : Nat) ^ n ≤ 256 ^ 3 := Nat.pow_le_pow_right (by norm_num) h
        omega
      omega
  refine ⟨n, vs, h1, h2, hn8, h3, hiff, ?_, ?_⟩
  · intro hne
    unfold decode_double decode_double_union
    by_cases hz : n = 0
    · have : x = 0 := (digits_length_eq_zero x).mp (hn ▸ hz)
      simp [hz, this]
    · have h0 : (n : Int) ≠ 0 := by omega
      have h4' : (n : Int) ≠ 4 := by omega
      rw [if_neg h0, if_neg h4', h4]
  · intro he
    unfold decode_double decode_float_union
    have hx32 := (hiff.mp he).2
    subst he
    simp only [Nat.cast_ofNat] at h4 ⊢
    rw [if_pos True.intro, h4, Nat.mod_eq_of_lt hx32]
    exact if_neg (by norm_num)

/-- Witness of the amended C4 at the bit pattern of `1.0`. -/
theorem decode_double_encode_double_witness :
    (4607182418800017408 < 2 ^ 64 ∧ isnan64 4607182418800017408 = false ∧
      MemHas (memOf [7, 8, 63, 240, 0, 0, 0, 0, 0, 0]) 0 (encode_double 7 4607182418800017408).bytes) ∧
    ∃ n vs, (encode_double 7 4607182418800017408).bytes = 7 % 256 :: n :: vs ∧ vs.length = n ∧
      n ≤ 8 ∧ MemHas (memOf [7, 8, 63, 240, 0, 0, 0, 0, 0, 0]) (0 + 2) vs ∧
      (n = 4 ↔ 2 ^ 24 ≤ 4607182418800017408 ∧ 4607182418800017408 < 2 ^ 32) ∧
      (n ≠ 4 → decode_double (memOf [7, 8, 63, 240, 0, 0, 0, 0, 0, 0]) (0 + 2) (n : Int) = 4607182418800017408) ∧
      (n = 4 → decode_double (memOf [7, 8, 63, 240, 0, 0, 0, 0, 0, 0]) (0 + 2) (n : Int) =
        float_to_double 4607182418800017408) :=
  have hm : MemHas (memOf [7, 8, 63, 240, 0, 0, 0, 0, 0, 0]) 0 (encode_double 7 4607182418800017408).bytes := by
    have h : (encode_double 7 4607182418800017408).bytes = [7, 8, 63, 240, 0, 0, 0, 0, 0, 0] := by decide
    rw [h]; exact memOf_has _
  ⟨⟨by norm_num, by decide, hm⟩,
    decode_double_encode_double 7 4607182418800017408 (by norm_num) (by decide) _ 0 hm⟩

/-! ## Strings -/

theorem or_byte32 (a b : Nat) (hb : b < 256) :
    ((a <<< 8) % 2 ^ 32) ||| b = (a * 256) % 2 ^ 32 + b := by
  have h1 : (a <<< 8) % 2 ^ 32 = 2 ^ 8 * (a % 2 ^ 24) := by
    rw [Nat.shiftLeft_eq]; omega
  have h2 : (a * 256) % 2 ^ 32 = 2 ^ 8 * (a % 2 ^ 24) := by omega
  rw [h1, h2]
  exact (Nat.mul_add_lt_is_or (by simpa using hb) _).symm

theorem and_128_of_lt (n : Nat) (h : n < 128) : n &&& 128 = 0 := by
  have h1 := Nat.and_two_pow n 7
  have h2 : n.testBit 7 = false := Nat.testBit_lt_two_pow (by simpa using h)
  simpa [h2] using h1

/-- The length bytes of `encode_string`, spelled out. -/
theorem encode_length_cases (n : Nat) (hn : n < 2 ^ 32) :
    (n < 128 → encode_length n = [n]) ∧
    (128 ≤ n → n < 65536 → encode_length n = [0x82, n / 256, n % 256]) ∧
    (65536 ≤ n → n < 16777216 → encode_length n = [0x83, n / 65536, n / 256 % 256, n % 256]) ∧
    (16777216 ≤ n →
      encode_length n = [0x84, n / 16777216, n / 65536 % 256, n / 256 % 256, n % 256]) := by
  refine ⟨?_, ?_, ?_, ?_⟩
  · intro h
    simp [encode_length, h, Nat.mod_eq_of_lt (by omega : n < 256)]
  · intro h1 h2
    have h3 : ¬ n < 128 := by omega
    simp only [encode_length, if_neg h3, if_pos h2, Nat.shiftRight_eq_div_pow]
    have : n / 2 ^ 8 % 256 = n / 256 := by omega
    simp [this]
    omega
  · intro h1 h2
    have h3 : ¬ n < 128 := by omega
    have h4 : ¬ n < 65536 := by omega
    simp only [encode_length, if_neg h3, if_neg h4, if_pos h2, Nat.shiftRight_eq_div_pow]
    have : n / 2 ^ 16 % 256 = n / 65536 := by omega
    simp [this]
    omega
  · intro h1
    have h3 : ¬ n < 128 := by omega
    have h4 : ¬ n < 65536 := by omega
    have h5 : ¬ n < 16777216 := by omega
    simp only [encode_length, if_neg h3, if_neg h4, if_neg h5, Nat.shiftRight_eq_div_pow]
    have : n / 2 ^ 24 % 256 = n / 16777216 := by omega
    simp [this]
    omega

/-- The length rule of the walkers reads back what `encode_length` stored. -/
theorem parse_optlen_encode_length (mem : Mem) (cp n : Nat) (hn : n < 2 ^ 32)
    (hm : MemHas mem cp (encode_length n)) :
    parse_optlen mem cp = (n, cp + (encode_length n).length) := by
  obtain ⟨c1, c2, c3, c4⟩ := encode_length_cases n hn
  by_cases h1 : n < 128
  · rw [c1 h1] at hm ⊢
    simp only [memHas_cons] at hm
    have hr : rd mem cp = n := by simp [rd, hm.1]; omega
    simp [parse_optlen, hr, and_128_of_lt n h1]
  · by_cases h2 : n < 65536
    · rw [c2 (by omega) h2] at hm ⊢
      simp only [memHas_cons] at hm
      obtain ⟨m0, m1, m2, -⟩ := hm
      have r0 : rd mem cp = 130 := by simp [rd, m0]
      have r1 : rd mem (cp + 1) = n / 256 := by simp [rd, m1]; omega
      have r2 : rd mem (cp + 1 + 1) = n % 256 := by simp [rd, m2]
      have e : (130 : Nat) &&& 127 = 2 := by decide
      simp only [parse_optlen, r0, e, length_loop, r1, r2]
      rw [or_byte32 _ _ (by omega), or_byte32 _ _ (by omega)]
      simp
      omega
    · by_cases h3 : n < 16777216
      · rw [c3 (by omega) h3] at hm ⊢
        simp only [memHas_cons] at hm
        obtain ⟨m0, m1, m2, m3, -⟩ := hm
        have r0 : rd mem cp = 131 := by simp [rd, m0]
        have r1 : rd mem (cp + 1) = n / 65536 := by simp [rd, m1]; omega
        have r2 : rd mem (cp + 1 + 1) = n / 256 % 256 := by simp [rd, m2]
        have r3 : rd mem (cp + 1 + 1 + 1) = n % 256 := by simp [rd, m3]
        have e : (131 : Nat) &&& 127 = 3 := by decide
        simp only [parse_optlen, r0, e, length_loop, r1, r2, r3]
        rw [or_byte32 _ _ (by omega), or_byte32 _ _ (by omega), or_byte32 _ _ (by omega)]
        simp
        omega
      · rw [c4 (by omega)] at hm ⊢
        simp only [memHas_cons] at hm
        obtain ⟨m0, m1, m2, m3, m4, -⟩ := hm
        have r0 : rd mem cp = 132 := by simp [rd, m0]
        have r1 : rd mem (cp + 1) = n / 16777216 := by simp [rd, m1]; omega
        have r2 : rd mem (cp + 1 + 1) = n / 65536 % 256 := by simp [rd, m2]
        have r3 : rd mem (cp + 1 + 1 + 1) = n / 256 % 256 := by simp [rd, m3]
        have r4 : rd mem (cp + 1 + 1 + 1 + 1) = n % 256 := by simp [rd, m4]
        have e : (132 : Nat) &&& 127 = 4 := by decide
        simp only [parse_optlen, r0, e, length_loop, r1, r2, r3, r4]
        rw [or_byte32 _ _ (by omega), or_byte32 _ _ (by omega), or_byte32 _ _ (by omega),
          or_byte32 _ _ (by omega)]
        simp
        omega

theorem toInt32_of_lt (n : Nat) (h : n < 2 ^ 31) : toInt32 (n : Int) = (n : Int) := by
  unfold toInt32
  have h1 : ((n : Int) + 2 ^ 31) % 2 ^ 32 = (n : Int) + 2 ^ 31 := by
    apply Int.emod_eq_of_lt <;> omega
  omega

theorem encode_string_replicate (type n : Nat) (h : 16777216 ≤ n) :
    (encode_string type (List.replicate n 0)).bytes.length = n + 6 ∧
    (encode_string type (List.replicate n 0)).ret = toInt32 ((n : Int) + 6) := by
  have h1 : ¬ n < 128 := by omega
  have h2 : ¬ n < 65536 := by omega
  have h3 : ¬ n < 16777216 := by omega
  have hl : (encode_length n).length = 5 := by
    simp only [encode_length, if_neg h1, if_neg h2, if_neg h3, List.length_cons, List.length_nil]
  have hlen : (encode_string type (List.replicate n 0)).bytes.length = n + 6 := by
    simp only [encode_string, List.length_cons, List.length_append, List.length_replicate, hl]
    omega
  refine ⟨hlen, ?_⟩
  have hr : (encode_string type (List.replicate n 0)).ret =
      toInt32 ((encode_string type (List.replicate n 0)).bytes.length : Int) := rfl
  rw [hr, hlen]
  rfl

/-- C6 fails as stated for the value returned: for a string of `2 ^ 31` bytes
`encode_string` writes `2 ^ 31 + 6` bytes, and the `int` it returns is
`6 - 2 ^ 31`. -/
theorem encode_string_counterexample :
    (List.replicate 2147483648 0).length < 2 ^ 32 ∧
    (encode_string 7 (List.replicate 2147483648 0)).bytes.length = 2147483654 ∧
    (encode_string 7 (List.replicate 2147483648 0)).ret = -2147483642 := by
  refine ⟨?_, (encode_string_replicate 7 2147483648 (by norm_num)).1, ?_⟩
  · rw [List.length_replicate]; norm_num
  · rw [(encode_string_replicate 7 2147483648 (by norm_num)).2]
    unfold toInt32
    norm_num

/-- The layout of the record of `encode_string`, its length bytes and the value returned. -/
theorem encode_string_record (type : Nat) (s : List Nat) (hn : s.length < 2 ^ 32) :
    ∃ lb, (encode_string type s).bytes = type % 256 :: (lb ++ s) ∧
      (s.length < 128 → lb = [s.length]) ∧
      (128 ≤ s.length → s.length < 65536 → lb = [0x82, s.length / 256, s.length % 256]) ∧
      (65536 ≤ s.length → s.length < 16777216 →
        lb = [0x83, s.length / 65536, s.length / 256 % 256, s.length % 256]) ∧
      (16777216 ≤ s.length →
        lb = [0x84, s.length / 16777216, s.length / 65536 % 256, s.length / 256 % 256,
          s.length % 256]) ∧
      (∀ (mem : Mem) (cp : Nat), MemHas mem cp (encode_string type s).bytes →
        parse_optlen mem (cp + 1) = (s.length, cp + 1 + lb.length) ∧
        MemHas mem (cp + 1 + lb.length) s) ∧
      ((encode_string type s).bytes.length < 2 ^ 31 →
        (encode_string type s).ret = ((encode_string type s).bytes.length : Int)) ∧
      (s.length = 300 → (encode_string type s).bytes = type % 256 :: 0x82 :: 0x01 :: 0x2C :: s) := by
  obtain ⟨c1, c2, c3, c4⟩ := encode_length_cases s.length hn
  refine ⟨encode_length s.length, rfl, c1, c2, c3, c4, ?_, ?_, ?_⟩
  · intro mem cp hm
    have hm2 : MemHas mem cp ([type % 256] ++ (encode_length s.length ++ s)) := by
      simpa [encode_string] using hm
    rw [memHas_append, memHas_append] at hm2
    obtain ⟨-, h2, h3⟩ := hm2
    simp only [List.length_singleton] at h2 h3
    exact ⟨parse_optlen_encode_length mem (cp + 1) s.length hn h2, h3⟩
  · intro h
    exact toInt32_of_lt _ h
  · intro h
    have h300 : encode_length 300 = [130, 1, 44] := by decide
    simp [encode_string, h, h300]

/-- C6 as amended: for every byte string of length `n < 2 ^ 32`, `encode_string`
writes the tag, then the length bytes (the single byte `n` when `n < 128`,
otherwise `0x80 | k` and the `k` bytes of `n`, most significant first, with
`k = 2` for `n < 65536`, `k = 3` for `n < 2 ^ 24` and `k = 4` otherwise), then
the `n` bytes unchanged; the length rule of the walkers recovers `n` and the
position of the string; the value returned is the number of bytes written
whenever that number is below `2 ^ 31`; a string of 300 bytes gives the tag,
`0x82 0x01 0x2C` and the 300 bytes. -/
theorem encode_string_layout (type : Nat) (s : List Nat) (hn : s.length < 2 ^ 32) :
    ∃ lb, (encode_string type s).bytes = type % 256 :: (lb ++ s) ∧
      (s.length < 128 → lb = [s.length]) ∧
      (128 ≤ s.length → s.length < 65536 → lb = [0x82, s.length / 256, s.length % 256]) ∧
      (65536 ≤ s.length → s.length < 16777216 →
        lb = [0x83, s.length / 65536, s.length / 256 % 256, s.length % 256]) ∧
      (16777216 ≤ s.length →
        lb = [0x84, s.length / 16777216, s.length / 65536 % 256, s.length / 256 % 256,
          s.length % 256]) ∧
      (∀ (mem : Mem) (cp : Nat), MemHas mem cp (encode_string type s).bytes →
        parse_optlen mem (cp + 1) = (s.length, cp + 1 + lb.length) ∧
        MemHas mem (cp + 1 + lb.length) s) ∧
      ((encode_string type s).bytes.length < 2 ^ 31 →
        (encode_string type s).ret = ((encode_string type s).bytes.length : Int)) ∧
      (s.length = 300 → (encode_string type s).bytes = type % 256 :: 0x82 :: 0x01 :: 0x2C :: s) :=
  encode_string_record type s hn

/-- Witness of the amended C6 at the two-byte string `rx` of the example message of the
specification. -/
theorem encode_string_layout_witness :
    [114, 120].length < 2 ^ 32 ∧
    ∃ lb, (encode_string 14 [114, 120]).bytes = 14 % 256 :: (lb ++ [114, 120]) ∧
      ([114, 120].length < 128 → lb = [[114, 120].length]) ∧
      (128 ≤ [114, 120].length → [114, 120].length < 65536 →
        lb = [0x82, [114, 120].length / 256, [114, 120].length % 256]) ∧
      (65536 ≤ [114, 120].length → [114, 120].length < 16777216 →
        lb = [0x83, [114, 120].length / 65536, [114, 120].length / 256 % 256,
          [114, 120].length % 256]) ∧
      (16777216 ≤ [114, 120].length →
        lb = [0x84, [114, 120].length / 16777216, [114, 120].length / 65536 % 256,
          [114, 120].length / 256 % 256, [114, 120].length % 256]) ∧
      (∀ (mem : Mem) (cp : Nat), MemHas mem cp (encode_string 14 [114, 120]).bytes →
        parse_optlen mem (cp + 1) = ([114, 120].length, cp + 1 + lb.length) ∧
        MemHas mem (cp + 1 + lb.length) [114, 120]) ∧
      ((encode_string 14 [114, 120]).bytes.length < 2 ^ 31 →
        (encode_string 14 [114, 120]).ret = ((encode_string 14 [114, 120]).bytes.length : Int)) ∧
      ([114, 120].length = 300 →
        (encode_string 14 [114, 120]).bytes = 14 % 256 :: 0x82 :: 0x01 :: 0x2C :: [114, 120]) :=
  ⟨by decide, encode_string_layout 14 [114, 120] (by decide)⟩

theorem map_rd_take (mem : Mem) (cp : Nat) (s : List Nat) (hb : ∀ b ∈ s, b < 256)
    (hm : MemHas mem cp s) (n : Nat) (hn : n ≤ s.length) :
    (List.range n).map (fun i => rd mem (cp + i)) = s.take n := by
  apply List.ext_getElem
  · simp [hn]
  · intro i h1 h2
    simp only [List.length_map, List.length_range] at h1
    have hi : i < s.length := by omega
    simp only [List.getElem_map, List.getElem_range, List.getElem_take, rd]
    rw [hm i hi, List.getD_eq_getElem _ _ hi]
    exact Nat.mod_eq_of_lt (hb _ (List.getElem_mem _))

/-- C7 fails as stated: `encode_string` accepts the string of `2 ^ 31` zero
bytes, the length rule of the walkers reads its length back as the
`unsigned int` `2 ^ 31`, and as the `int optlen` of `decode_string` that is
`-2 ^ 31`: the count handed to `memcpy` is negative and the call is undefined,
whatever the destination (here four bytes). -/
theorem decode_string_counterexample :
    (List.replicate 2147483648 0).length < 2 ^ 32 ∧
    (parse_optlen (memOf (encode_string 7 (List.replicate 2147483648 0)).bytes) (0 + 1)).1 =
      2147483648 ∧
    toInt32 ((2147483648 : Nat) : Int) = -2147483648 ∧
    decode_string (memOf (encode_string 7 (List.replicate 2147483648 0)).bytes)
        (parse_optlen (memOf (encode_string 7 (List.replicate 2147483648 0)).bytes) (0 + 1)).2
        (toInt32 (parse_optlen (memOf (encode_string 7 (List.replicate 2147483648 0)).bytes)
          (0 + 1)).1)
        [7, 7, 7, 7] 4 = none := by
  have hn : (List.replicate 2147483648 0).length < 2 ^ 32 := by
    rw [List.length_replicate]; norm_num
  have ht : toInt32 ((2147483648 : Nat) : Int) = -2147483648 := by
    unfold toInt32; norm_num
  obtain ⟨lb, -, -, -, -, -, hp, -, -⟩ := encode_string_record 7 (List.replicate 2147483648 0) hn
  obtain ⟨hp1, -⟩ := hp (memOf (encode_string 7 (List.replicate 2147483648 0)).bytes) 0
    (memOf_has _)
  rw [List.length_replicate] at hp1
  refine ⟨hn, by rw [hp1], ht, ?_⟩
  rw [hp1]
  simp only
  rw [ht]
  unfold decode_string
  simp only
  rw [if_pos (by omega)]

/-- C7 as amended: for every byte string `s` of fewer than `2 ^ 31` bytes (a
length that fits the `int optlen`) and every destination of `buflen >= 1`
bytes, `decode_string` applied to the payload and the length that the length
rule of the walkers reads from the record written by `encode_string` leaves in
the destination the first `min(len(s), buflen-1)` bytes of `s`, then a NUL
byte, and the rest of the destination untouched. -/
theorem decode_string_encode_string (type : Nat) (s buf : List Nat) (buflen : Int)
    (mem : Mem) (cp : Nat) (hs : s.length < 2 ^ 31) (hb : ∀ b ∈ s, b < 256)
    (h1 : 1 ≤ buflen) (h2 : buflen ≤ (buf.length : Int))
    (hm : MemHas mem cp (encode_string type s).bytes) :
    decode_string mem (parse_optlen mem (cp + 1)).2 (toInt32 (parse_optlen mem (cp + 1)).1)
        buf buflen =
      some (s.take (min s.length (buflen.toNat - 1)) ++
        0 :: buf.drop (min s.length (buflen.toNat - 1) + 1)) := by
  obtain ⟨lb, -, -, -, -, -, hp, -, -⟩ := encode_string_record type s (by omega)
  obtain ⟨hp1, hp2⟩ := hp mem cp hm
  rw [hp1]
  simp only
  rw [toInt32_of_lt _ hs]
  have hmin : (min (s.length : Int) (buflen - 1)).toNat = min s.length (buflen.toNat - 1) := by
    omega
  unfold decode_string
  simp only
  rw [if_neg (by omega), hmin, if_neg (by omega),
    map_rd_take mem _ s hb hp2 _ (Nat.min_le_left _ _)]

/-- Witness of C7: the five-byte string `1 2 3 4 5` decoded into four of the
eight bytes of a destination. -/
theorem decode_string_encode_string_witness :
    decode_string (memOf [9, 5, 1, 2, 3, 4, 5])
        (parse_optlen (memOf [9, 5, 1, 2, 3, 4, 5]) (0 + 1)).2
        (toInt32 (parse_optlen (memOf [9, 5, 1, 2, 3, 4, 5]) (0 + 1)).1)
        [7, 7, 7, 7, 7, 7, 7, 7] 4 =
      some ([1, 2, 3, 4, 5].take (min [1, 2, 3, 4, 5].length ((4 : Int).toNat - 1)) ++
        0 :: [7, 7, 7, 7, 7, 7, 7, 7].drop (min [1, 2, 3, 4, 5].length ((4 : Int).toNat - 1) + 1)) :=
  decode_string_encode_string 9 [1, 2, 3, 4, 5] [7, 7, 7, 7, 7, 7, 7, 7] 4
    (memOf [9, 5, 1, 2, 3, 4, 5]) 0 (by decide) (by decide) (by decide) (by decide)
    (by
      have h : (encode_string 9 [1, 2, 3, 4, 5]).bytes = [9, 5, 1, 2, 3, 4, 5] := by decide
      rw [h]; exact memOf_has _)

theorem length_loop_snd (mem : Mem) : ∀ (n cp optlen : Nat),
    (length_loop mem n cp optlen).2 = cp + n := by
  intro n
  induction n with
  | zero => intro cp optlen; rfl
  | succ k ih => intro cp optlen; simp only [length_loop, ih]; omega

theorem parse_optlen_snd_gt (mem : Mem) (cp : Nat) : cp < (parse_optlen mem cp).2 := by
  unfold parse_optlen
  simp only
  split
  · rw [length_loop_snd]; omega
  · simp

theorem tlv_scan_total {σ : Type} (switch : Nat → Nat → Nat → σ → Action σ) (mem : Mem)
    (length : Int) : ∀ (fuel cp : Nat) (s : σ), length.toNat - cp < fuel →
    ∃ r, tlv_scan switch mem length fuel cp s = some r ∧
      r.starts.Pairwise (fun a b => a < b) ∧
      (∀ p ∈ r.starts, cp ≤ p ∧ (p : Int) < length) ∧
      r.starts.length ≤ length.toNat - cp := by
  intro fuel
  induction fuel with
  | zero => intro cp s h; omega
  | succ k ih =>
    intro cp s h
    unfold tlv_scan
    by_cases hc : (cp : Int) < length
    · rw [if_pos hc]
      have hone : 1 ≤ length.toNat - cp := by omega
      by_cases he : rd mem cp = EOL
      · simp only [he, if_true]
        exact ⟨_, rfl, by simp, by simpa using hc, by simpa using hone⟩
      · simp only [if_neg he]
        have hgt := parse_optlen_snd_gt mem (cp + 1)
        by_cases hv : ((parse_optlen mem (cp + 1)).2 : Int) + ((parse_optlen mem (cp + 1)).1 : Int) ≥ length
        · rw [if_pos hv]
          exact ⟨_, rfl, by simp, by simpa using hc, by simpa using hone⟩
        · rw [if_neg hv]
          cases hsw : switch (rd mem cp) (parse_optlen mem (cp + 1)).2 (parse_optlen mem (cp + 1)).1 s with
          | stop s1 rs =>
            exact ⟨_, rfl, by simp, by simpa using hc, by simpa using hone⟩
          | next s1 rs =>
            obtain ⟨r, hr, hp, hb, hl⟩ :=
              ih ((parse_optlen mem (cp + 1)).2 + (parse_optlen mem (cp + 1)).1) s1 (by omega)
            refine ⟨_, by simp only [hr, Option.map_some']; rfl, ?_, ?_, ?_⟩
            · simp only [List.pairwise_cons]
              refine ⟨?_, hp⟩
              intro p hp2
              have := (hb p hp2).1
              omega
            · intro p hp2
              simp only [List.mem_cons] at hp2
              rcases hp2 with h1 | h1
              · subst h1; exact ⟨le_refl _, hc⟩
              · have := hb p h1
                exact ⟨by omega, this.2⟩
            · simp only [List.length_cons]
              omega
    · rw [if_neg hc]
      exact ⟨_, rfl, by simp, by simp, by simp⟩

theorem tlv_scan_fuel_succ {σ : Type} (switch : Nat → Nat → Nat → σ → Action σ) (mem : Mem)
    (length : Int) : ∀ (fuel cp : Nat) (s : σ) (r : Scan σ),
    tlv_scan switch mem length fuel cp s = some r →
    tlv_scan switch mem length (fuel + 1) cp s = some r := by
  intro fuel
  induction fuel with
  | zero => intro cp s r h; simp [tlv_scan] at h
  | succ k ih =>
    intro cp s r h
    unfold tlv_scan at h ⊢
    by_cases hc : (cp : Int) < length
    · rw [if_pos hc] at h ⊢
      by_cases he : rd mem cp = EOL
      · simpa only [he, if_true] using h
      · simp only [if_neg he] at h ⊢
        by_cases hv : ((parse_optlen mem (cp + 1)).2 : Int) + ((parse_optlen mem (cp + 1)).1 : Int) ≥ length
        · rw [if_pos hv] at h ⊢; exact h
        · rw [if_neg hv] at h ⊢
          cases hsw : switch (rd mem cp) (parse_optlen mem (cp + 1)).2 (parse_optlen mem (cp + 1)).1 s with
          | stop s1 rs => rw [hsw] at h; exact h
          | next s1 rs =>
            rw [hsw] at h
            simp only at h ⊢
            cases hrec : tlv_scan switch mem length k
                ((parse_optlen mem (cp + 1)).2 + (parse_optlen mem (cp + 1)).1) s1 with
            | none => rw [hrec] at h; simp at h
            | some r1 =>
              rw [hrec] at h
              rw [ih _ _ _ hrec]
              exact h
    · rw [if_neg hc] at h ⊢; exact h

theorem tlv_scan_fuel_le {σ : Type} (switch : Nat → Nat → Nat → σ → Action σ) (mem : Mem)
    (length : Int) (cp : Nat) (s : σ) (r : Scan σ) (f1 f2 : Nat) (hle : f1 ≤ f2)
    (h : tlv_scan switch mem length f1 cp s = some r) :
    tlv_scan switch mem length f2 cp s = some r := by
  induction hle with
  | refl => exact h
  | step _ ih => exact tlv_scan_fuel_succ switch mem length _ cp s r ih

/-- Every walk from position 0 with the bound `length + 1` finishes, its trace
advances, and a larger bound gives the same walk. -/
theorem tlv_scan_advances {σ : Type} (switch : Nat → Nat → Nat → σ → Action σ) (mem : Mem)
    (length : Int) (s : σ) :
    ∃ r, tlv_scan switch mem length (length.toNat + 1) 0 s = some r ∧ r.Advances length ∧
      ∀ fuel, length.toNat + 1 ≤ fuel → tlv_scan switch mem length fuel 0 s = some r := by
  obtain ⟨r, hr, hp, hb, hl⟩ := tlv_scan_total switch mem length (length.toNat + 1) 0 s (by omega)
  refine ⟨r, hr, ⟨hp, fun p hp2 => (hb p hp2).2, by simpa using hl⟩, ?_⟩
  intro fuel hf
  exact tlv_scan_fuel_le switch mem length 0 s r _ _ hf hr

/-- C9: for every buffer contents and every `length`, the walkers `get_ssrc`,
`get_tag`, `decode_rx888_commands` and `decode_airspyhf_commands` terminate:
the walk finishes within the bound built into the model, the scan position
strictly increases from each iteration of the loop to the next, and the loop
makes at most `length` iterations.  A larger bound gives the same walk. -/
theorem walkers_terminate (OUTPUT_SSRC COMMAND_TAG : Nat) (rt : Rx888Tags) (ta : AirspyhfTags)
    (narrow : Nat → Nat) (mem : Mem) (length : Int) (s1 : Rx888State) (s2 : AirspyhfState) :
    (∃ r, get_ssrc_scan OUTPUT_SSRC mem length = some r ∧ r.Advances length ∧
      ∀ fuel, length.toNat + 1 ≤ fuel →
        tlv_scan (get_ssrc_switch OUTPUT_SSRC mem) mem length fuel 0 0 = some r) ∧
    (∃ r, get_tag_scan COMMAND_TAG mem length = some r ∧ r.Advances length ∧
      ∀ fuel, length.toNat + 1 ≤ fuel →
        tlv_scan (get_tag_switch COMMAND_TAG mem) mem length fuel 0 0 = some r) ∧
    (∃ r, decode_rx888_commands rt narrow mem length s1 = some r ∧ r.Advances length ∧
      ∀ fuel, length.toNat + 1 ≤ fuel →
        tlv_scan (rx888_switch rt narrow mem) mem length fuel 0 s1 = some r) ∧
    (∃ r, decode_airspyhf_commands ta mem length s2 = some r ∧ r.Advances length ∧
      ∀ fuel, length.toNat + 1 ≤ fuel →
        tlv_scan (airspyhf_switch ta mem) mem length fuel 0 s2 = some r) :=
  ⟨tlv_scan_advances _ mem length 0, tlv_scan_advances _ mem length 0,
    tlv_scan_advances _ mem length s1, tlv_scan_advances _ mem length s2⟩

theorem tlv_scan_lone_tag {σ : Type} (switch : Nat → Nat → Nat → σ → Action σ) (s : σ) :
    tlv_scan switch (memOf [1]) 1 2 0 s = some ⟨s, 2, [0, 1], [0]⟩ := by
  simp [tlv_scan, rd, memOf, parse_optlen, EOL, List.range']

set_option maxRecDepth 8000 in
theorem tlv_scan_long_escape {σ : Type} (switch : Nat → Nat → Nat → σ → Action σ) (s : σ) :
    tlv_scan switch (memOf [1, 255]) 2 3 0 s = some ⟨s, 129, List.range' 0 129, [0]⟩ := by
  have h1 : rd (memOf [1, 255]) 0 = 1 := by decide
  have h2 : parse_optlen (memOf [1, 255]) (0 + 1) = (0, 129) := by decide
  simp [tlv_scan, h1, h2, EOL]

/-- C8, the code at the failing inputs.  On a one-byte buffer holding a tag
other than `EOL`, with `length = 1`, each walker reads the offsets 0 and 1; on
the two bytes `01 FF` with `length = 2` each walker reads the offsets 0 to 128:
offsets at and beyond `length` are read. -/
theorem walkers_read_past_length (T : Nat) (rt : Rx888Tags) (ta : AirspyhfTags)
    (narrow : Nat → Nat) (s1 : Rx888State) (s2 : AirspyhfState) :
    ((get_ssrc_scan T (memOf [1]) 1).map Scan.reads = some [0, 1] ∧
      (get_tag_scan T (memOf [1]) 1).map Scan.reads = some [0, 1] ∧
      (decode_rx888_commands rt narrow (memOf [1]) 1 s1).map Scan.reads = some [0, 1] ∧
      (decode_airspyhf_commands ta (memOf [1]) 1 s2).map Scan.reads = some [0, 1]) ∧
    ((get_ssrc_scan T (memOf [1, 255]) 2).map Scan.reads = some (List.range' 0 129) ∧
      (get_tag_scan T (memOf [1, 255]) 2).map Scan.reads = some (List.range' 0 129) ∧
      (decode_rx888_commands rt narrow (memOf [1, 255]) 2 s1).map Scan.reads =
        some (List.range' 0 129) ∧
      (decode_airspyhf_commands ta (memOf [1, 255]) 2 s2).map Scan.reads =
        some (List.range' 0 129)) := by
  refine ⟨⟨?_, ?_, ?_, ?_⟩, ⟨?_, ?_, ?_, ?_⟩⟩
  · exact congrArg (Option.map Scan.reads) (tlv_scan_lone_tag _ _)
  · exact congrArg (Option.map Scan.reads) (tlv_scan_lone_tag _ _)
  · exact congrArg (Option.map Scan.reads) (tlv_scan_lone_tag _ _)
  · exact congrArg (Option.map Scan.reads) (tlv_scan_lone_tag _ _)
  · exact congrArg (Option.map Scan.reads) (tlv_scan_long_escape _ _)
  · exact congrArg (Option.map Scan.reads) (tlv_scan_long_escape _ _)
  · exact congrArg (Option.map Scan.reads) (tlv_scan_long_escape _ _)
  · exact congrArg (Option.map Scan.reads) (tlv_scan_long_escape _ _)

theorem tlv_scan_exact_fit {σ : Type} (switch : Nat → Nat → Nat → σ → Action σ) (s : σ)
    (T v : Nat) :
    (tlv_scan switch (memOf [T, 1, v]) 3 4 0 s).map Scan.state = some s := by
  have h2 : parse_optlen (memOf [T, 1, v]) (0 + 1) = (1, 2) := by
    simp [parse_optlen, rd, memOf]
  unfold tlv_scan
  by_cases he : rd (memOf [T, 1, v]) 0 = EOL
  · simp [he]
  · simp [he, h2]

/-- C10, the code at the failing input.  On the three bytes `T 01 v`, a record
of tag `T` whose one-byte value `v` ends exactly at the end of the buffer, with
`length = 3`, `get_ssrc` and `get_tag` looking for the tag `T` both return 0,
whatever `T` and `v` are; with the tag 18 and the value 5, the same record
followed by an `EOL` byte gives 5. -/
theorem walkers_drop_exact_fit (T v : Nat) :
    get_ssrc T (memOf [T, 1, v]) 3 = some 0 ∧ get_tag T (memOf [T, 1, v]) 3 = some 0 ∧
    get_ssrc 18 (memOf [18, 1, 5]) 3 = some 0 ∧ get_ssrc 18 (memOf [18, 1, 5, 0]) 4 = some 5 ∧
    get_tag 18 (memOf [18, 1, 5]) 3 = some 0 ∧ get_tag 18 (memOf [18, 1, 5, 0]) 4 = some 5 :=
  ⟨tlv_scan_exact_fit _ 0 T v, tlv_scan_exact_fit _ 0 T v, by decide, by decide, by decide,
    by decide⟩

/-! ## Walking an encoded message -/

theorem decode_loop_congr (mem1 mem2 : Mem) : ∀ (vs : List Nat) (cp1 cp2 acc : Nat),
    MemHas mem1 cp1 vs → MemHas mem2 cp2 vs →
    decode_int_loop mem1 vs.length cp1 acc = decode_int_loop mem2 vs.length cp2 acc := by
  intro vs
  induction vs with
  | nil => intro cp1 cp2 acc _ _; rfl
  | cons b t ih =>
    intro cp1 cp2 acc h1 h2
    rw [memHas_cons] at h1 h2
    simp only [List.length_cons, decode_int_loop, rd, h1.1, h2.1]
    exact ih _ _ _ h1.2 h2.2

/-- What the header code of the walkers finds on the record of a field. -/
theorem field_header (f : Field) (hok : f.WellTyped) (mem : Mem) (cp : Nat)
    (hm : MemHas mem cp f.encode.bytes) :
    rd mem cp = f.tag ∧ f.tag ≠ EOL ∧
    ∃ vpos, parse_optlen mem (cp + 1) = (f.value.length, vpos) ∧ MemHas mem vpos f.value ∧
      vpos + f.value.length = cp + f.encode.bytes.length ∧ (∀ b ∈ f.value, b < 256) ∧
      (f.value.length < 2 ^ 31 → decode_int mem vpos (toInt32 f.value.length) = f.number) := by
  cases f with
  | int t x =>
    obtain ⟨ht0, ht, hx⟩ := hok
    simp only [Field.encode, Field.tag, Field.value, Field.number] at hm ⊢
    rw [encode_int64_digits t x hx] at hm ⊢
    simp only [List.drop_succ_cons, List.drop_zero, List.length_cons, List.length_reverse]
    have hm' := hm
    simp only [memHas_cons] at hm'
    obtain ⟨m0, m1, m2⟩ := hm'
    have hn8 := digits_length_le x 8 (by simpa using hx)
    refine ⟨by simp [rd, m0]; omega, by simp [EOL]; omega, cp + 1 + 1, ?_, m2, by omega, ?_, ?_⟩
    · have hr : rd mem (cp + 1) = (Nat.digits 256 x).length := by simp [rd, m1]; omega
      simp [parse_optlen, hr, and_128_of_lt _ (by omega : (Nat.digits 256 x).length < 128)]
    · intro b hb
      exact Nat.digits_lt_base (by norm_num) (List.mem_reverse.mp hb)
    · intro hlt
      rw [toInt32_of_lt _ hlt]
      exact decode_int_digits mem (cp + 1 + 1) x hx m2
  | str t s =>
    obtain ⟨ht0, ht, hs, hb⟩ := hok
    simp only [Field.encode, Field.tag, Field.value, Field.number] at hm ⊢
    obtain ⟨lb, hbytes, -, -, -, -, hp, -, -⟩ := encode_string_record t s hs
    obtain ⟨hp1, hp2⟩ := hp mem cp hm
    have hm' := hm
    rw [hbytes, memHas_cons] at hm'
    refine ⟨by simp [rd, hm'.1]; omega, by simp [EOL]; omega, cp + 1 + lb.length, hp1, hp2, ?_,
      hb, ?_⟩
    · rw [hbytes]; simp; omega
    · intro hlt
      rw [toInt32_of_lt _ hlt]
      unfold decode_int
      simp only [Int.toNat_ofNat]
      exact decode_loop_congr _ _ s _ _ 0 hp2 (memOf_has s)

theorem tlv_scan_succ {σ : Type} (switch : Nat → Nat → Nat → σ → Action σ) (mem : Mem)
    (length : Int) (fuel cp : Nat) (s : σ) :
    tlv_scan switch mem length (fuel + 1) cp s =
      if (cp : Int) < length then
        if rd mem cp = EOL then some ⟨s, cp + 1, [cp], [cp]⟩
        else
          if ((parse_optlen mem (cp + 1)).2 : Int) + ((parse_optlen mem (cp + 1)).1 : Int) ≥ length
          then some ⟨s, (parse_optlen mem (cp + 1)).2,
            List.range' cp ((parse_optlen mem (cp + 1)).2 - cp), [cp]⟩
          else
            match switch (rd mem cp) (parse_optlen mem (cp + 1)).2 (parse_optlen mem (cp + 1)).1 s with
            | Action.stop s1 rs => some ⟨s1, (parse_optlen mem (cp + 1)).2,
                List.range' cp ((parse_optlen mem (cp + 1)).2 - cp) ++ rs, [cp]⟩
            | Action.next s1 rs =>
              (tlv_scan switch mem length fuel
                ((parse_optlen mem (cp + 1)).2 + (parse_optlen mem (cp + 1)).1) s1).map
                (fun r => ⟨r.state, r.cp,
                  List.range' cp ((parse_optlen mem (cp + 1)).2 - cp) ++ rs ++ r.reads,
                  cp :: r.starts⟩)
      else some ⟨s, cp, [], []⟩ := by
  rfl

/-- One iteration of the loop of the walkers on the record of a field that ends
before the end of the buffer. -/
theorem tlv_scan_field {σ : Type} (switch : Nat → Nat → Nat → σ → Action σ) (mem : Mem)
    (length : Int) (f : Field) (hok : f.WellTyped) (cp fuel : Nat) (s : σ)
    (hm : MemHas mem cp f.encode.bytes)
    (hlt : ((cp + f.encode.bytes.length : Nat) : Int) < length) :
    ∃ vpos, MemHas mem vpos f.value ∧ vpos + f.value.length = cp + f.encode.bytes.length ∧
      (∀ b ∈ f.value, b < 256) ∧
      (f.value.length < 2 ^ 31 → decode_int mem vpos (toInt32 f.value.length) = f.number) ∧
      (tlv_scan switch mem length (fuel + 1) cp s).map Scan.state =
        match switch f.tag vpos f.value.length s with
        | Action.stop s1 _ => some s1
        | Action.next s1 _ =>
          (tlv_scan switch mem length fuel (cp + f.encode.bytes.length) s1).map Scan.state := by
  obtain ⟨h1, h2, vpos, h3, h4, h5, h6, h7⟩ := field_header f hok mem cp hm
  refine ⟨vpos, h4, h5, h6, h7, ?_⟩
  rw [tlv_scan_succ]
  have hc : (cp : Int) < length := by omega
  rw [if_pos hc]
  simp only [h1, if_neg h2, h3]
  have hv : ¬ ((vpos : Int) + (f.value.length : Int) ≥ length) := by omega
  rw [if_neg hv]
  cases hsw : switch f.tag vpos f.value.length s with
  | stop s1 rs => rfl
  | next s1 rs =>
    simp only [h5, Option.map_map]
    rfl

/-- The iteration of the loop of the walkers that meets the `EOL` byte. -/
theorem tlv_scan_eol {σ : Type} (switch : Nat → Nat → Nat → σ → Action σ) (mem : Mem)
    (length : Int) (cp fuel : Nat) (s : σ) (hm : MemHas mem cp encode_eol.bytes)
    (hlt : (cp : Int) < length) :
    (tlv_scan switch mem length (fuel + 1) cp s).map Scan.state = some s := by
  have h0 : rd mem cp = EOL := by
    have := hm 0 (by simp [encode_eol])
    simpa [rd, encode_eol, EOL] using congrArg (fun v => v % 256) this
  rw [tlv_scan_succ, if_pos hlt]
  simp [h0]

theorem encode_message_length_pos (fs : List Field) : 0 < (encode_message fs).length := by
  cases fs with
  | nil => simp [encode_message, encode_eol]
  | cons f t =>
    simp only [encode_message, List.length_append]
    have : 0 < (encode_message t).length := encode_message_length_pos t
    omega

theorem map_rd_self (mem : Mem) (cp : Nat) (s : List Nat) (hb : ∀ b ∈ s, b < 256)
    (hm : MemHas mem cp s) : (List.range s.length).map (fun i => rd mem (cp + i)) = s := by
  rw [map_rd_take mem cp s hb hm s.length (le_refl _), List.take_length]

theorem field_bytes_pos (f : Field) : 0 < f.encode.bytes.length := by
  cases f with
  | int t x =>
    simp only [Field.encode, encode_int64]
    split <;> simp
  | str t s => simp [Field.encode, encode_string]

theorem length_le_encode_message (fs : List Field) : fs.length < (encode_message fs).length := by
  induction fs with
  | nil => simp [encode_message, encode_eol]
  | cons f t ih =>
    simp only [encode_message, List.length_append, List.length_cons]
    have := field_bytes_pos f
    omega

theorem walk_records (mem : Mem) (L : Nat) : ∀ (fs : List Field)
    (cp fuel : Nat) (acc : List (Nat × List Nat)), (∀ f ∈ fs, f.WellTyped) →
    MemHas mem cp (encode_message fs) → cp + (encode_message fs).length = L → fs.length < fuel →
    (tlv_scan (record_switch mem) mem (L : Int) fuel cp acc).map Scan.state =
      some (acc ++ fs.map (fun f => (f.tag, f.value))) := by
  intro fs
  induction fs with
  | nil =>
    intro cp fuel acc _ hm hlen hf
    obtain ⟨k, rfl⟩ := Nat.exists_eq_succ_of_ne_zero (by omega : fuel ≠ 0)
    simp only [encode_message] at hm hlen
    have hpos : 0 < encode_eol.bytes.length := by simp [encode_eol]
    rw [tlv_scan_eol _ mem _ cp k acc hm (by omega)]
    simp
  | cons f t ih =>
    intro cp fuel acc hok hm hlen hf
    obtain ⟨k, rfl⟩ := Nat.exists_eq_succ_of_ne_zero (by omega : fuel ≠ 0)
    simp only [encode_message, List.length_append] at hm hlen
    rw [memHas_append] at hm
    have hpos := encode_message_length_pos t
    obtain ⟨vpos, h1, h2, h3, -, h5⟩ := tlv_scan_field (record_switch mem) mem (L : Int) f
      (hok f (List.mem_cons_self _ _)) cp k acc hm.1 (by omega)
    rw [h5]
    simp only [record_switch, map_rd_self mem vpos f.value h3 h1]
    rw [ih (cp + f.encode.bytes.length) k _ (fun g hg => hok g (List.mem_cons_of_mem _ hg)) hm.2
      (by omega) (by simpa using hf)]
    simp

theorem walk_first (T : Nat) (mem : Mem) (L : Nat) (hL : L < 2 ^ 31) : ∀ (fs : List Field)
    (cp fuel : Nat), (∀ f ∈ fs, f.WellTyped) →
    MemHas mem cp (encode_message fs) → cp + (encode_message fs).length = L → fs.length < fuel →
    (tlv_scan (get_tag_switch T mem) mem (L : Int) fuel cp 0).map Scan.state =
      some (first_number T fs) := by
  intro fs
  induction fs with
  | nil =>
    intro cp fuel _ hm hlen hf
    obtain ⟨k, rfl⟩ := Nat.exists_eq_succ_of_ne_zero (by omega : fuel ≠ 0)
    simp only [encode_message] at hm hlen
    have hpos : 0 < encode_eol.bytes.length := by simp [encode_eol]
    rw [tlv_scan_eol _ mem _ cp k 0 hm (by omega)]
    rfl
  | cons f t ih =>
    intro cp fuel hok hm hlen hf
    obtain ⟨k, rfl⟩ := Nat.exists_eq_succ_of_ne_zero (by omega : fuel ≠ 0)
    simp only [encode_message, List.length_append] at hm hlen
    rw [memHas_append] at hm
    have hpos := encode_message_length_pos t
    have hf0 := (field_header f (hok f (List.mem_cons_self _ _)) mem cp hm.1).2.1
    obtain ⟨vpos, h1, h2, h3, h4, h5⟩ := tlv_scan_field (get_tag_switch T mem) mem (L : Int) f
      (hok f (List.mem_cons_self _ _)) cp k 0 hm.1 (by omega)
    rw [h5]
    simp only [get_tag_switch, if_neg hf0, first_number]
    by_cases hT : f.tag = T
    · simp only [if_pos hT]
      rw [h4 (by omega)]
    · simp only [if_neg hT]
      exact ih (cp + f.encode.bytes.length) k (fun g hg => hok g (List.mem_cons_of_mem _ hg)) hm.2
        (by omega) (by simpa using hf)

theorem get_ssrc_switch_eq : get_ssrc_switch = get_tag_switch := rfl

/-- The example message of the specification has the bytes the specification
lists, and on them `get_tag` finds the command tag. -/
theorem example_message_bytes :
    encode_message [Field.int 11 305419896, Field.int 12 0, Field.int 13 81985529216486895,
        Field.str 14 [114, 120]] =
      [0x0B, 0x04, 0x12, 0x34, 0x56, 0x78, 0x0C, 0x00, 0x0D, 0x08, 0x01, 0x23, 0x45, 0x67, 0x89,
        0xAB, 0xCD, 0xEF, 0x0E, 0x02, 0x72, 0x78, 0x00] ∧
    get_tag 11 (memOf [0x0B, 0x04, 0x12, 0x34, 0x56, 0x78, 0x0C, 0x00, 0x0D, 0x08, 0x01, 0x23,
        0x45, 0x67, 0x89, 0xAB, 0xCD, 0xEF, 0x0E, 0x02, 0x72, 0x78, 0x00]) 23 =
      some 0x12345678 := by
  decide

/-! ## NaN handling of the encoders -/

/-- C11: for a NaN input, `encode_float` and `encode_double` return 0 and store
no byte, so that the buffer pointer stays where it was. -/
theorem encode_nan_writes_nothing (type x y : Nat) :
    (isnan32 x = true → encode_float type x = ⟨[], 0⟩) ∧
    (isnan64 y = true → encode_double type y = ⟨[], 0⟩) := by
  constructor
  · intro h; simp [encode_float, h]
  · intro h; simp [encode_double, h]

/-- Witness of C11 at the quiet NaN patterns `0x7FC00000` and
`0x7FF8000000000000`. -/
theorem encode_nan_writes_nothing_witness :
    (isnan32 2143289344 = true ∧ isnan64 9221120237041090560 = true) ∧
    encode_float 7 2143289344 = ⟨[], 0⟩ ∧ encode_double 7 9221120237041090560 = ⟨[], 0⟩ :=
  ⟨⟨by decide, by decide⟩,
    (encode_nan_writes_nothing 7 2143289344 9221120237041090560).1 (by decide),
    (encode_nan_writes_nothing 7 2143289344 9221120237041090560).2 (by decide)⟩

/-- C12, the code at the failing input.  For the one-element array holding the
quiet NaN `0x7FC00000`, `encode_vector` stores the tag, the length 4 and the
four bytes `7F C0 00 00`; `decode_float` reads them back as the same NaN
pattern, which `encode_float` refuses to write. -/
theorem encode_vector_emits_nan :
    isnan32 2143289344 = true ∧
    encode_vector 7 [2143289344] 1 = ⟨[7, 4, 127, 192, 0, 0], 6⟩ ∧
    decode_float id (memOf [7, 4, 127, 192, 0, 0]) 2 4 = 2143289344 ∧
    encode_float 7 2143289344 = ⟨[], 0⟩ := by
  decide

/-! ## Socket addresses -/

theorem copy_bytes_eq (mem : Mem) (cp : Nat) (s : List Nat) (hb : ∀ b ∈ s, b < 256)
    (hm : MemHas mem cp s) : copy_bytes mem cp s.length = s :=
  map_rd_self mem cp s hb hm

/-- The records of `encode_socket`, family by family. -/
theorem encode_socket_record (type : Nat) :
    (∀ addr port : List Nat, addr.length = 4 → port.length = 2 →
      encode_socket type (Sockaddr.inet addr port) = ⟨type % 256 :: 6 :: (addr ++ port), 6⟩) ∧
    (∀ addr port : List Nat, addr.length = 16 → port.length = 2 →
      encode_socket type (Sockaddr.inet6 addr port) =
        ⟨type % 256 :: 10 :: (addr.take 8 ++ port), 10⟩) ∧
    (∀ path : List Nat, path.length ≤ 107 →
      encode_socket type (Sockaddr.unix path) =
        ⟨type % 256 :: (path.length + 1) :: (path ++ [0]), (path.length : Int) + 1⟩) ∧
    (∀ family : Nat, encode_socket type (Sockaddr.other family) = ⟨[], 0⟩) := by
  refine ⟨?_, ?_, ?_, ?_⟩
  · intro addr port ha hp
    simp [encode_socket, List.take_of_length_le, ha, hp]
  · intro addr port _ hp
    simp [encode_socket, List.take_of_length_le, hp]
  · intro path hl
    have h1 : (path.length + 1) % 256 = path.length + 1 := Nat.mod_eq_of_lt (by omega)
    have h2 : (path ++ [0]).take (path.length + 1) = path ++ [0] :=
      List.take_of_length_le (by simp)
    have h3 := toInt32_of_lt (path.length + 1) (by omega)
    simp only [encode_socket, h1, h2]
    rw [h3]; simp
  · intro family; rfl

/-- C14: after the tag, `encode_socket` writes the length byte 6, the 4 address
bytes and the 2 port bytes for `AF_INET`; the length byte 10, the first 8
address bytes and the 2 port bytes for `AF_INET6`; the length byte
`strlen(path) + 1` and the path with its terminating NUL for `AF_UNIX`; for
every other family it writes nothing and returns 0. -/
theorem encode_socket_layout (type : Nat) :
    (∀ addr port : List Nat, addr.length = 4 → port.length = 2 →
      encode_socket type (Sockaddr.inet addr port) = ⟨type % 256 :: 6 :: (addr ++ port), 6⟩) ∧
    (∀ addr port : List Nat, addr.length = 16 → port.length = 2 →
      encode_socket type (Sockaddr.inet6 addr port) =
        ⟨type % 256 :: 10 :: (addr.take 8 ++ port), 10⟩) ∧
    (∀ path : List Nat, path.length ≤ 107 →
      encode_socket type (Sockaddr.unix path) =
        ⟨type % 256 :: (path.length + 1) :: (path ++ [0]), (path.length : Int) + 1⟩) ∧
    (∀ family : Nat, encode_socket type (Sockaddr.other family) = ⟨[], 0⟩) :=
  encode_socket_record type

/-- Witness of C14: 127.0.0.1 port 5004, the first half of an IPv6 address,
and the path `/a`. -/
theorem encode_socket_layout_witness :
    encode_socket 5 (Sockaddr.inet [127, 0, 0, 1] [19, 140]) =
      ⟨5 % 256 :: 6 :: ([127, 0, 0, 1] ++ [19, 140]), 6⟩ ∧
    encode_socket 5 (Sockaddr.inet6 [255, 2, 0, 0, 0, 0, 0, 0, 0, 0, 0, 0, 0, 0, 0, 1] [19, 140]) =
      ⟨5 % 256 :: 10 ::
        ([255, 2, 0, 0, 0, 0, 0, 0, 0, 0, 0, 0, 0, 0, 0, 1].take 8 ++ [19, 140]), 10⟩ ∧
    encode_socket 5 (Sockaddr.unix [47, 97]) =
      ⟨5 % 256 :: ([47, 97].length + 1) :: ([47, 97] ++ [0]), (([47, 97].length : Nat) : Int) + 1⟩ :=
  ⟨(encode_socket_layout 5).1 _ _ (by decide) (by decide),
    (encode_socket_layout 5).2.1 _ _ (by decide) (by decide),
    (encode_socket_layout 5).2.2.1 _ (by decide)⟩

theorem takeWhile_path (path rest : List Nat) (hp : ∀ b ∈ path, 0 < b) :
    (path ++ 0 :: rest).takeWhile (fun b => b != 0) = path := by
  induction path with
  | nil => simp
  | cons a t ih =>
    have ha : 0 < a := hp a (List.mem_cons_self _ _)
    have hne : (a != 0) = true := by simp; omega
    simp only [List.cons_append, List.takeWhile_cons, hne, if_true]
    rw [ih (fun b hb => hp b (List.mem_cons_of_mem _ hb))]

/-- What the decoders make of the records of `encode_socket`. -/
theorem decode_socket_record (type : Nat) (mem : Mem) (cp : Nat) :
    (∀ addr port : List Nat, (Sockaddr.inet addr port).WellFormed →
      MemHas mem cp (encode_socket type (Sockaddr.inet addr port)).bytes →
      decode_socket (List.replicate 16 0) mem (cp + 2) (rd mem (cp + 1)) =
        some (Sockaddr.inet addr port)) ∧
    (∀ addr port : List Nat, (Sockaddr.inet6 addr port).WellFormed →
      MemHas mem cp (encode_socket type (Sockaddr.inet6 addr port)).bytes →
      decode_socket (List.replicate 16 0) mem (cp + 2) (rd mem (cp + 1)) =
        some (Sockaddr.inet6 (addr.take 8 ++ List.replicate 8 0) port)) ∧
    (∀ path : List Nat, (Sockaddr.unix path).WellFormed →
      MemHas mem cp (encode_socket type (Sockaddr.unix path)).bytes →
      decode_local_socket (List.replicate 108 0) mem (cp + 2) (rd mem (cp + 1)) =
        some (Sockaddr.unix path)) := by
  obtain ⟨e4, e6, eu, -⟩ := encode_socket_record type
  refine ⟨?_, ?_, ?_⟩
  · rintro addr port ⟨ha, hp, hba, hbp⟩ hm
    rw [e4 addr port ha hp] at hm
    have hm2 : MemHas mem cp ([type % 256, 6] ++ (addr ++ port)) := by simpa using hm
    rw [memHas_append, memHas_append] at hm2
    obtain ⟨h0, h1, h2⟩ := hm2
    simp only [memHas_cons] at h0
    have hr : rd mem (cp + 1) = 6 := by simp [rd, h0.2.1]
    have c1 : copy_bytes mem (cp + 2) 4 = addr := by
      have := copy_bytes_eq mem (cp + 2) addr hba (by simpa using h1)
      rwa [ha] at this
    have c2 : copy_bytes mem (cp + 2 + 4) 2 = port := by
      have := copy_bytes_eq mem (cp + 2 + 4) port hbp (by simpa [ha] using h2)
      rwa [hp] at this
    simp [decode_socket, hr, c1, c2]
  · rintro addr port ⟨ha, hp, hba, hbp⟩ hm
    rw [e6 addr port ha hp] at hm
    have hm2 : MemHas mem cp ([type % 256, 10] ++ (addr.take 8 ++ port)) := by simpa using hm
    rw [memHas_append, memHas_append] at hm2
    obtain ⟨h0, h1, h2⟩ := hm2
    simp only [memHas_cons] at h0
    have hr : rd mem (cp + 1) = 10 := by simp [rd, h0.2.1]
    have hl : (addr.take 8).length = 8 := by simp [ha]
    have c1 : copy_bytes mem (cp + 2) 8 = addr.take 8 := by
      have := copy_bytes_eq mem (cp + 2) (addr.take 8)
        (fun b hb => hba b (List.mem_of_mem_take hb)) (by simpa using h1)
      rwa [hl] at this
    have c2 : copy_bytes mem (cp + 2 + 8) 2 = port := by
      have := copy_bytes_eq mem (cp + 2 + 8) port hbp (by simpa [hl] using h2)
      rwa [hp] at this
    simp [decode_socket, hr, c1, c2]
  · rintro path ⟨hl, hb⟩ hm
    rw [eu path hl] at hm
    have hm2 : MemHas mem cp ([type % 256, path.length + 1] ++ (path ++ [0])) := by
      simpa using hm
    rw [memHas_append] at hm2
    obtain ⟨h0, h1⟩ := hm2
    simp only [memHas_cons] at h0
    have hr : rd mem (cp + 1) = path.length + 1 := by
      simp only [rd, h0.2.1]; exact Nat.mod_eq_of_lt (by omega)
    have hb2 : ∀ b ∈ path ++ [0], b < 256 := by
      intro b hb1
      rcases List.mem_append.mp hb1 with h | h
      · exact (hb b h).2
      · simp at h; omega
    have c1 : copy_bytes mem (cp + 2) (path.length + 1) = path ++ [0] := by
      have := copy_bytes_eq mem (cp + 2) (path ++ [0]) hb2 (by simpa using h1)
      simpa using this
    have hnot : ¬ (((path.length + 1 : Nat) : Int) < 0 ∨ 108 < ((path.length + 1 : Nat) : Int)) := by
      omega
    simp only [decode_local_socket, hr, if_neg hnot, Int.toNat_ofNat, c1]
    have htw : ∀ rest : List Nat, ((path ++ [0]) ++ rest).takeWhile (fun b => b != 0) = path := by
      intro rest
      rw [List.append_assoc]
      exact takeWhile_path path _ (fun b hb1 => (hb b hb1).1)
    split
    · rw [List.set_append]
      simp only [List.length_append, List.length_cons, List.length_nil, Nat.lt_irrefl, if_false]
      rw [htw]
    · rw [htw]

/-- C13 fails as stated: for the IPv6 loopback address `::1` with port 5004,
`encode_socket` stores the first 8 address bytes and the port, and
`decode_socket` into a zeroed structure yields the address `::`. -/
theorem socket_roundtrip_counterexample :
    encode_socket 5 (Sockaddr.inet6 [0, 0, 0, 0, 0, 0, 0, 0, 0, 0, 0, 0, 0, 0, 0, 1] [19, 140]) =
      ⟨[5, 10, 0, 0, 0, 0, 0, 0, 0, 0, 19, 140], 10⟩ ∧
    decode_socket (List.replicate 16 0) (memOf [5, 10, 0, 0, 0, 0, 0, 0, 0, 0, 19, 140]) 2 10 =
      some (Sockaddr.inet6 [0, 0, 0, 0, 0, 0, 0, 0, 0, 0, 0, 0, 0, 0, 0, 0] [19, 140]) ∧
    decode_socket (List.replicate 16 0) (memOf [5, 10, 0, 0, 0, 0, 0, 0, 0, 0, 19, 140]) 2 10 ≠
      some (Sockaddr.inet6 [0, 0, 0, 0, 0, 0, 0, 0, 0, 0, 0, 0, 0, 0, 0, 1] [19, 140]) := by
  decide

/-- C13 as amended: wherever the record of `encode_socket` is stored, the
matching decoder applied to its value bytes and length byte, with a zeroed
destination, gives back the family, address and port of every `AF_INET`
address and the family and path of every `AF_UNIX` address; of an `AF_INET6`
address it gives back the family, the port and the first 8 address bytes, the
last 8 address bytes being those of the zeroed destination. -/
theorem socket_roundtrip (type : Nat) (mem : Mem) (cp : Nat) :
    (∀ addr port : List Nat, (Sockaddr.inet addr port).WellFormed →
      MemHas mem cp (encode_socket type (Sockaddr.inet addr port)).bytes →
      decode_socket (List.replicate 16 0) mem (cp + 2) (rd mem (cp + 1)) =
        some (Sockaddr.inet addr port)) ∧
    (∀ addr port : List Nat, (Sockaddr.inet6 addr port).WellFormed →
      MemHas mem cp (encode_socket type (Sockaddr.inet6 addr port)).bytes →
      decode_socket (List.replicate 16 0) mem (cp + 2) (rd mem (cp + 1)) =
        some (Sockaddr.inet6 (addr.take 8 ++ List.replicate 8 0) port)) ∧
    (∀ path : List Nat, (Sockaddr.unix path).WellFormed →
      MemHas mem cp (encode_socket type (Sockaddr.unix path)).bytes →
      decode_local_socket (List.replicate 108 0) mem (cp + 2) (rd mem (cp + 1)) =
        some (Sockaddr.unix path)) :=
  decode_socket_record type mem cp

/-- Witness of the amended C13: 127.0.0.1 port 5004, the multicast address
`ff02::1` port 5004, and the path `/a`. -/
theorem socket_roundtrip_witness :
    decode_socket (List.replicate 16 0) (memOf [5, 6, 127, 0, 0, 1, 19, 140]) (0 + 2)
        (rd (memOf [5, 6, 127, 0, 0, 1, 19, 140]) (0 + 1)) =
      some (Sockaddr.inet [127, 0, 0, 1] [19, 140]) ∧
    decode_socket (List.replicate 16 0) (memOf [5, 10, 255, 2, 0, 0, 0, 0, 0, 0, 19, 140]) (0 + 2)
        (rd (memOf [5, 10, 255, 2, 0, 0, 0, 0, 0, 0, 19, 140]) (0 + 1)) =
      some (Sockaddr.inet6
        ([255, 2, 0, 0, 0, 0, 0, 0, 0, 0, 0, 0, 0, 0, 0, 1].take 8 ++ List.replicate 8 0)
        [19, 140]) ∧
    decode_local_socket (List.replicate 108 0) (memOf [5, 3, 47, 97, 0]) (0 + 2)
        (rd (memOf [5, 3, 47, 97, 0]) (0 + 1)) =
      some (Sockaddr.unix [47, 97]) :=
  ⟨(socket_roundtrip 5 (memOf [5, 6, 127, 0, 0, 1, 19, 140]) 0).1 [127, 0, 0, 1] [19, 140]
      (by simp [Sockaddr.WellFormed]) (memOf_has _),
    (socket_roundtrip 5 (memOf [5, 10, 255, 2, 0, 0, 0, 0, 0, 0, 19, 140]) 0).2.1
      [255, 2, 0, 0, 0, 0, 0, 0, 0, 0, 0, 0, 0, 0, 0, 1] [19, 140]
      (by simp [Sockaddr.WellFormed]) (memOf_has _),
    (socket_roundtrip 5 (memOf [5, 3, 47, 97, 0]) 0).2.2 [47, 97]
      (by simp [Sockaddr.WellFormed]) (memOf_has _)⟩

/-! ## Values returned by the encoders -/

/-- C15 fails as stated: for the `AF_INET` address 127.0.0.1 port 5004,
`encode_socket` stores 8 bytes and returns 6; for a string of `2 ^ 31` bytes,
`encode_string` stores `2 ^ 31 + 6` bytes and returns `6 - 2 ^ 31`. -/
theorem encoders_return_counterexample :
    (encode_socket 5 (Sockaddr.inet [127, 0, 0, 1] [19, 140])).bytes.length = 8 ∧
    (encode_socket 5 (Sockaddr.inet [127, 0, 0, 1] [19, 140])).ret = 6 ∧
    (encode_string 7 (List.replicate 2147483648 0)).bytes.length = 2147483654 ∧
    (encode_string 7 (List.replicate 2147483648 0)).ret = -2147483642 := by
  refine ⟨by decide, by decide, (encode_string_replicate 7 2147483648 (by norm_num)).1, ?_⟩
  rw [(encode_string_replicate 7 2147483648 (by norm_num)).2]
  unfold toInt32
  norm_num

/-- C15 as amended: the integer returned equals the number of bytes written,
for `encode_int64`, `encode_byte` and `encode_eol` on every input, and for
`encode_string` and `encode_vector` whenever fewer than `2 ^ 31` bytes are
written. -/
theorem encoders_return_count (type x : Nat) (s array : List Nat) (size : Int) :
    (encode_int64 type x).ret = ((encode_int64 type x).bytes.length : Int) ∧
    (encode_byte type x).ret = ((encode_byte type x).bytes.length : Int) ∧
    encode_eol.ret = (encode_eol.bytes.length : Int) ∧
    ((encode_string type s).bytes.length < 2 ^ 31 →
      (encode_string type s).ret = ((encode_string type s).bytes.length : Int)) ∧
    ((encode_vector type array size).bytes.length < 2 ^ 31 →
      (encode_vector type array size).ret = ((encode_vector type array size).bytes.length : Int)) := by
  refine ⟨?_, ?_, by simp [encode_eol], ?_, ?_⟩
  · unfold encode_int64
    split
    · simp
    · simp [emit_length]; omega
  · unfold encode_byte
    split <;> simp
  · intro h; exact toInt32_of_lt _ h
  · intro h; exact toInt32_of_lt _ h

/-- Witness of the amended C15 on small inputs. -/
theorem encoders_return_count_witness :
    ((encode_string 14 [114, 120]).bytes.length < 2 ^ 31 ∧
      (encode_vector 7 [1065353216] 1).bytes.length < 2 ^ 31) ∧
    (encode_string 14 [114, 120]).ret = ((encode_string 14 [114, 120]).bytes.length : Int) ∧
    (encode_vector 7 [1065353216] 1).ret = ((encode_vector 7 [1065353216] 1).bytes.length : Int) :=
  ⟨⟨by decide, by decide⟩,
    (encoders_return_count 14 0 [114, 120] [1065353216] 1).2.2.2.1 (by decide),
    (encoders_return_count 7 0 [114, 120] [1065353216] 1).2.2.2.2 (by decide)⟩

/-! ## The mute flag -/

theorem c_round_example : c_round (10000000 / (1 + 1 / 1000000)) = 9999990 := by
  unfold c_round
  rw [if_pos (by norm_num)]
  rw [Int.floor_eq_iff]
  constructor <;> norm_num

/-- What `set_correct_freq` does when the rounded frequency is a non-negative
`int64_t`. -/
theorem set_correct_freq_nonneg (calibrate freq : ℚ) (hc : -1 < calibrate)
    (h0 : 0 ≤ c_round (freq / (1 + calibrate)))
    (h1 : c_round (freq / (1 + calibrate)) < 2 ^ 63) :
    set_correct_freq calibrate freq =
      some ⟨c_round (freq / (1 + calibrate)),
        (c_round (freq / (1 + calibrate)) : ℚ) * (1 + calibrate)⟩ := by
  have hne : 1 + calibrate ≠ 0 := by
    intro h
    have : calibrate = -1 := by linarith
    rw [this] at hc
    exact lt_irrefl _ hc
  have hr : ¬ (c_round (freq / (1 + calibrate)) < -2 ^ 63 ∨
      2 ^ 63 ≤ c_round (freq / (1 + calibrate))) := by omega
  have hmod : c_round (freq / (1 + calibrate)) % 2 ^ 64 = c_round (freq / (1 + calibrate)) :=
    Int.emod_eq_of_lt h0 (by omega)
  simp only [set_correct_freq, if_neg hne, if_neg hr, true_freq, hmod]

/-- C17 fails as stated: with `calibrate = 0` and the requested frequency
`-1`, `set_correct_freq` programs `intfreq = -1`, and `true_freq`, whose
argument is a `uint64_t`, makes the frequency stored and returned
`2 ^ 64 - 1`, not `intfreq * (1 + calibrate) = -1`. -/
theorem set_correct_freq_counterexample :
    (-1 : ℚ) < 0 ∧ c_round ((-1 : ℚ) / (1 + 0)) = -1 ∧
    set_correct_freq 0 (-1) = some ⟨-1, 18446744073709551615⟩ ∧
    set_correct_freq 0 (-1) ≠ some ⟨-1, ((-1 : Int) : ℚ) * (1 + 0)⟩ := by
  have hr : c_round ((-1 : ℚ) / (1 + 0)) = -1 := by
    unfold c_round
    rw [if_neg (by norm_num)]
    have : ⌊-((-1 : ℚ) / (1 + 0)) + 1 / 2⌋ = 1 := by
      rw [Int.floor_eq_iff]; constructor <;> norm_num
    rw [this]
  have hs : set_correct_freq 0 (-1) = some ⟨-1, 18446744073709551615⟩ := by
    simp only [set_correct_freq, hr, true_freq]
    norm_num
  refine ⟨by norm_num, hr, hs, ?_⟩
  rw [hs]
  norm_num

/-- C17 as amended: in exact arithmetic, for every `calibrate > -1` and every
requested `freq` whose rounded quotient `round(freq / (1 + calibrate))` is a
non-negative `int64_t`, `set_correct_freq` (and `airspyhf_tune`) programs the
device with that `intfreq` and stores and returns `intfreq * (1 + calibrate)`;
for `calibrate = 1e-6` and `freq = 10,000,000` the `intfreq` is 9,999,990 and
the frequency reported is `9,999,990 * 1.000001`. -/
theorem set_correct_freq_exact (calibrate freq : ℚ) (hc : -1 < calibrate)
    (h0 : 0 ≤ c_round (freq / (1 + calibrate)))
    (h1 : c_round (freq / (1 + calibrate)) < 2 ^ 63) :
    set_correct_freq calibrate freq =
      some ⟨c_round (freq / (1 + calibrate)),
        (c_round (freq / (1 + calibrate)) : ℚ) * (1 + calibrate)⟩ ∧
    airspyhf_tune calibrate freq =
      some ⟨c_round (freq / (1 + calibrate)),
        (c_round (freq / (1 + calibrate)) : ℚ) * (1 + calibrate)⟩ ∧
    set_correct_freq (1 / 1000000) 10000000 = some ⟨9999990, 9999990 * (1 + 1 / 1000000)⟩ := by
  refine ⟨set_correct_freq_nonneg calibrate freq hc h0 h1,
    set_correct_freq_nonneg calibrate freq hc h0 h1, ?_⟩
  have h := set_correct_freq_nonneg (1 / 1000000) 10000000 (by norm_num)
    (by rw [c_round_example]; norm_num) (by rw [c_round_example]; norm_num)
  rw [c_round_example] at h
  rw [h]
  norm_num

/-- Witness of the amended C17 at `calibrate = 1e-6`, `freq = 10,000,000`. -/
theorem set_correct_freq_exact_witness :
    ((-1 : ℚ) < 1 / 1000000 ∧ 0 ≤ c_round (10000000 / (1 + 1 / 1000000)) ∧
      c_round (10000000 / (1 + 1 / 1000000)) < 2 ^ 63) ∧
    set_correct_freq (1 / 1000000) 10000000 =
      some ⟨c_round (10000000 / (1 + 1 / 1000000)),
        (c_round (10000000 / (1 + 1 / 1000000)) : ℚ) * (1 + 1 / 1000000)⟩ :=
  ⟨⟨by norm_num, by rw [c_round_example]; norm_num, by rw [c_round_example]; norm_num⟩,
    (set_correct_freq_exact (1 / 1000000) 10000000 (by norm_num)
      (by rw [c_round_example]; norm_num) (by rw [c_round_example]; norm_num)).1⟩

/-! ## The sample callback -/

theorem energy_loop_sum : ∀ (burst : List (ℚ × ℚ)) (e : ℚ),
    energy_loop burst e = e + (burst.map (fun x => x.1 * x.1 - x.2 * x.2)).sum := by
  intro burst
  induction burst with
  | nil => intro e; simp [energy_loop]
  | cons x xs ih =>
    intro e
    simp only [energy_loop, ih, add_energy, cmul, List.map_cons, List.sum_cons]
    ring

/-- C18, the code at the failing input.  For every burst `rx_callback` stores
in `output_level` the mean of `Re(x_i)^2 - Im(x_i)^2`, the real part of the
complex square `x_i * x_i`; for the one-sample burst `x = i` it stores `-1`
and counts one sample, while the mean-square of the burst is `1`. -/
theorem rx_callback_level (samples : Nat) (burst : List (ℚ × ℚ)) :
    (rx_callback samples burst).output_level =
      (burst.map (fun x => x.1 * x.1 - x.2 * x.2)).sum / burst.length ∧
    rx_callback 0 [(0, 1)] = ⟨1, -1⟩ ∧
    ([((0 : ℚ), (1 : ℚ))].map (fun x => x.1 * x.1 + x.2 * x.2)).sum /
      ([((0 : ℚ), (1 : ℚ))].length : ℚ) = 1 := by
  refine ⟨?_, ?_, by norm_num⟩
  · simp [rx_callback, energy_loop_sum]
  · simp [rx_callback, energy_loop_sum]

/-! ## Status frames -/

theorem encode_message_append (a b : List Field) :
    encode_message (a ++ b) = (a.map (fun x => x.encode.bytes)).flatten ++ encode_message b := by
  induction a with
  | nil => simp
  | cons x xs ih => simp [encode_message, ih]

theorem encode_message_eq (a : List Field) :
    encode_message a = (a.map (fun x => x.encode.bytes)).flatten ++ encode_eol.bytes := by
  have h := encode_message_append a []
  simpa [encode_message] using h

theorem encode_byte_zero (type : Nat) : encode_byte type 0 = encode_int64 type 0 := by
  simp [encode_byte, encode_int64]

theorem float_field_bytes (tag x : Nat) :
    (encode_float tag x).bytes = ((float_field tag x).map (fun y => y.encode.bytes)).flatten := by
  unfold encode_float float_field
  split <;> simp [Field.encode, encode_int32]

theorem double_field_bytes (tag x : Nat) :
    (encode_double tag x).bytes = ((double_field tag x).map (fun y => y.encode.bytes)).flatten := by
  unfold encode_double double_field
  split <;> simp [Field.encode]

/-- The bytes `send_rx888_status` stores are the direction byte 0 and the
message of its fields. -/
theorem rx888_status_stores_eq (t : StatusTags) (f : Rx888Frontend) :
    rx888_status_stores t f = 0 :: encode_message (rx888_fields t f) := by
  have hd : encode_double t.RADIO_FREQUENCY 0 = encode_int64 t.RADIO_FREQUENCY 0 := by
    simp [encode_double, isnan64]
  have hl : encode_float t.LOW_EDGE 0 = encode_int64 t.LOW_EDGE 0 := by
    simp [encode_float, isnan32, encode_int32]
  unfold rx888_status_stores rx888_fields
  simp only [float_field_bytes, hd, hl, encode_byte_zero, encode_int32]
  rw [encode_message_eq]
  cases f.description <;> simp [Field.encode]

/-- The bytes `send_airspyhf_status` stores are the direction byte 0 and the
message of its fields. -/
theorem airspyhf_status_stores_eq (t : StatusTags) (f : AirspyhfFrontend) :
    airspyhf_status_stores t f = 0 :: encode_message (airspyhf_fields t f) := by
  unfold airspyhf_status_stores airspyhf_fields
  simp only [float_field_bytes, double_field_bytes, encode_byte_zero, encode_int32]
  rw [encode_message_eq]
  by_cases hdesc : f.description.head? ≠ none
  · simp only [if_pos hdesc]
    simp [Field.encode]
  · simp only [if_neg hdesc]
    simp [Field.encode]

/-- The walkers read back the fields of a frame. -/
theorem frame_records_message (fs : List Field) (hok : ∀ x ∈ fs, x.WellTyped) :
    frame_records (0 :: encode_message fs) = some (fs.map (fun x => (x.tag, x.value))) := by
  unfold frame_records
  simp only [List.tail_cons]
  have h := walk_records (memOf (encode_message fs)) (encode_message fs).length fs 0
    ((encode_message fs).length + 1) [] hok (memOf_has _) (by omega)
    (by have := length_le_encode_message fs; omega)
  simpa using h

theorem last_encode_message (fs : List Field) :
    (0 :: encode_message fs).getLast? = some EOL := by
  have h : ∀ gs : List Field, ∃ pre, encode_message gs = pre ++ [EOL] := by
    intro gs
    induction gs with
    | nil => exact ⟨[], rfl⟩
    | cons x xs ih =>
      obtain ⟨pre, hp⟩ := ih
      exact ⟨x.encode.bytes ++ pre, by simp [encode_message, hp]⟩
  obtain ⟨pre, hp⟩ := h fs
  rw [hp, ← List.cons_append]
  exact List.getLast?_concat _

theorem status_tags_facts (t : StatusTags) (ht : t.WellTyped) (x : Nat)
    (hx : x ∈ [t.COMMAND_TAG, t.CMD_CNT, t.GPS_TIME, t.DESCRIPTION, t.INPUT_SAMPRATE,
      t.OUTPUT_METADATA_PACKETS, t.CALIBRATE, t.RADIO_FREQUENCY, t.LOCK, t.DEMOD_TYPE,
      t.OUTPUT_SAMPRATE, t.OUTPUT_CHANNELS, t.DIRECT_CONVERSION, t.HIGH_EDGE, t.LOW_EDGE,
      t.OUTPUT_BITS_PER_SAMPLE, t.RF_ATTEN, t.RF_GAIN]) : 0 < x ∧ x < 256 :=
  ht x hx

theorem int_field_ok (t : StatusTags) (ht : t.WellTyped) (tag x : Nat)
    (hx : tag ∈ [t.COMMAND_TAG, t.CMD_CNT, t.GPS_TIME, t.DESCRIPTION, t.INPUT_SAMPRATE,
      t.OUTPUT_METADATA_PACKETS, t.CALIBRATE, t.RADIO_FREQUENCY, t.LOCK, t.DEMOD_TYPE,
      t.OUTPUT_SAMPRATE, t.OUTPUT_CHANNELS, t.DIRECT_CONVERSION, t.HIGH_EDGE, t.LOW_EDGE,
      t.OUTPUT_BITS_PER_SAMPLE, t.RF_ATTEN, t.RF_GAIN]) (hv : x < 2 ^ 64) :
    (Field.int tag x).WellTyped :=
  ⟨(ht tag hx).1, (ht tag hx).2, hv⟩

theorem float_field_ok (tag x : Nat) (h : 0 < tag ∧ tag < 256) :
    ∀ y ∈ float_field tag (x % 2 ^ 32), y.WellTyped := by
  intro y hy
  unfold float_field at hy
  split at hy
  · simp at hy
  · simp only [List.mem_singleton] at hy
    subst hy
    have : x % 2 ^ 32 < 2 ^ 32 := Nat.mod_lt _ (by norm_num)
    exact ⟨h.1, h.2, by omega⟩

theorem double_field_ok (tag x : Nat) (h : 0 < tag ∧ tag < 256) :
    ∀ y ∈ double_field tag (x % 2 ^ 64), y.WellTyped := by
  intro y hy
  unfold double_field at hy
  split at hy
  · simp at hy
  · simp only [List.mem_singleton] at hy
    subst hy
    exact ⟨h.1, h.2, Nat.mod_lt _ (by norm_num)⟩

theorem rx888_fields_ok (t : StatusTags) (ht : t.WellTyped) (f : Rx888Frontend)
    (hd : ∀ d, f.description = some d → d.length < 2 ^ 32 ∧ ∀ b ∈ d, b < 256) :
    ∀ x ∈ rx888_fields t f, x.WellTyped := by
  have key : ∀ tag v : Nat, tag ∈ [t.COMMAND_TAG, t.CMD_CNT, t.GPS_TIME, t.DESCRIPTION,
      t.INPUT_SAMPRATE, t.OUTPUT_METADATA_PACKETS, t.CALIBRATE, t.RADIO_FREQUENCY, t.LOCK,
      t.DEMOD_TYPE, t.OUTPUT_SAMPRATE, t.OUTPUT_CHANNELS, t.DIRECT_CONVERSION, t.HIGH_EDGE,
      t.LOW_EDGE, t.OUTPUT_BITS_PER_SAMPLE, t.RF_ATTEN, t.RF_GAIN] → v < 2 ^ 64 →
      (Field.int tag v).WellTyped := int_field_ok t ht
  have m32 : ∀ v : Nat, v % 2 ^ 32 < 2 ^ 64 := fun v => by
    have : v % 2 ^ 32 < 2 ^ 32 := Nat.mod_lt _ (by norm_num)
    omega
  have m64 : ∀ v : Nat, v % 2 ^ 64 < 2 ^ 64 := fun v => Nat.mod_lt _ (by norm_num)
  intro x hx
  unfold rx888_fields at hx
  simp only [List.mem_append, List.mem_cons, List.mem_singleton, List.not_mem_nil, or_false,
    or_assoc] at hx
  rcases hx with rfl | rfl | rfl | h | rfl | rfl | h | h | rfl | rfl | rfl | rfl | rfl | rfl |
    h | rfl
  · exact key _ _ (by simp) (m32 _)
  · exact key _ _ (by simp) (m64 _)
  · exact key _ _ (by simp) (m64 _)
  · cases hdesc : f.description with
    | none => rw [hdesc] at h; simp at h
    | some d =>
      rw [hdesc] at h
      simp only [List.mem_singleton] at h
      subst h
      exact ⟨(ht _ (by simp)).1, (ht _ (by simp)).2, (hd d hdesc).1, (hd d hdesc).2⟩
  · exact key _ _ (by simp) (m32 _)
  · exact key _ _ (by simp) (m64 _)
  · exact float_field_ok _ _ (ht _ (by simp)) x h
  · exact float_field_ok _ _ (ht _ (by simp)) x h
  · exact key _ _ (by simp) (by norm_num)
  · exact key _ _ (by simp) (by norm_num)
  · exact key _ _ (by simp) (m32 _)
  · exact key _ _ (by simp) (by norm_num)
  · exact key _ _ (by simp) (by norm_num)
  · exact key _ _ (by simp) (by norm_num)
  · exact float_field_ok _ _ (ht _ (by simp)) x h
  · exact key _ _ (by simp) (by norm_num)

theorem airspyhf_fields_ok (t : StatusTags) (ht : t.WellTyped) (f : AirspyhfFrontend)
    (hd : f.description.length < 2 ^ 32 ∧ ∀ b ∈ f.description, b < 256) :
    ∀ x ∈ airspyhf_fields t f, x.WellTyped := by
  have key : ∀ tag v : Nat, tag ∈ [t.COMMAND_TAG, t.CMD_CNT, t.GPS_TIME, t.DESCRIPTION,
      t.INPUT_SAMPRATE, t.OUTPUT_METADATA_PACKETS, t.CALIBRATE, t.RADIO_FREQUENCY, t.LOCK,
      t.DEMOD_TYPE, t.OUTPUT_SAMPRATE, t.OUTPUT_CHANNELS, t.DIRECT_CONVERSION, t.HIGH_EDGE,
      t.LOW_EDGE, t.OUTPUT_BITS_PER_SAMPLE, t.RF_ATTEN, t.RF_GAIN] → v < 2 ^ 64 →
      (Field.int tag v).WellTyped := int_field_ok t ht
  have m32 : ∀ v : Nat, v % 2 ^ 32 < 2 ^ 64 := fun v => by
    have : v % 2 ^ 32 < 2 ^ 32 := Nat.mod_lt _ (by norm_num)
    omega
  have m64 : ∀ v : Nat, v % 2 ^ 64 < 2 ^ 64 := fun v => Nat.mod_lt _ (by norm_num)
  intro x hx
  unfold airspyhf_fields at hx
  simp only [List.mem_append, List.mem_cons, List.mem_singleton, List.not_mem_nil, or_false,
    or_assoc] at hx
  rcases hx with rfl | rfl | rfl | h | rfl | rfl | h | h | rfl | rfl | rfl | rfl | rfl | h | h
  · exact key _ _ (by simp) (m32 _)
  · exact key _ _ (by simp) (m64 _)
  · exact key _ _ (by simp) (m64 _)
  · split at h
    · simp only [List.mem_singleton] at h
      subst h
      exact ⟨(ht _ (by simp)).1, (ht _ (by simp)).2, hd.1, hd.2⟩
    · simp at h
  · exact key _ _ (by simp) (m32 _)
  · exact key _ _ (by simp) (m64 _)
  · exact double_field_ok _ _ (ht _ (by simp)) x h
  · exact double_field_ok _ _ (ht _ (by simp)) x h
  · exact key _ _ (by simp) (m32 _)
  · exact key _ _ (by simp) (by norm_num)
  · exact key _ _ (by simp) (m32 _)
  · exact key _ _ (by simp) (by norm_num)
  · exact key _ _ (by simp) (by norm_num)
  · exact float_field_ok _ _ (ht _ (by simp)) x h
  · exact float_field_ok _ _ (ht _ (by simp)) x h

theorem float_field_tags (tag x : Nat) :
    (float_field tag x).map Field.tag = if isnan32 x then [] else [tag] := by
  unfold float_field
  split <;> simp [Field.tag]

theorem double_field_tags (tag x : Nat) :
    (double_field tag x).map Field.tag = if isnan64 x then [] else [tag] := by
  unfold double_field
  split <;> simp [Field.tag]

/-- The bytes stored by both drivers: direction byte, last byte, and the records
the walkers read back. -/
theorem status_frames_records (t : StatusTags) (ht : t.WellTyped) (r : Rx888Frontend)
    (a : AirspyhfFrontend)
    (hr : ∀ d, r.description = some d → d.length < 2 ^ 32 ∧ ∀ b ∈ d, b < 256)
    (ha : a.description.length < 2 ^ 32 ∧ ∀ b ∈ a.description, b < 256) :
    ((rx888_status_stores t r).head? = some 0 ∧
      (rx888_status_stores t r).getLast? = some EOL ∧
      frame_records (rx888_status_stores t r) =
        some ((rx888_fields t r).map (fun x => (x.tag, x.value))) ∧
      frame_tags (rx888_status_stores t r) =
        some ([t.COMMAND_TAG, t.CMD_CNT, t.GPS_TIME] ++
          (if r.description.isSome then [t.DESCRIPTION] else []) ++
          [t.INPUT_SAMPRATE, t.OUTPUT_METADATA_PACKETS] ++
          (if isnan32 (r.rf_atten % 2 ^ 32) then [] else [t.RF_ATTEN]) ++
          (if isnan32 (r.rf_gain % 2 ^ 32) then [] else [t.RF_GAIN]) ++
          [t.RADIO_FREQUENCY, t.DEMOD_TYPE, t.OUTPUT_SAMPRATE, t.OUTPUT_CHANNELS,
            t.DIRECT_CONVERSION, t.LOW_EDGE] ++
          (if isnan32 (r.high_edge % 2 ^ 32) then [] else [t.HIGH_EDGE]) ++
          [t.OUTPUT_BITS_PER_SAMPLE])) ∧
    ((airspyhf_status_stores t a).head? = some 0 ∧
      (airspyhf_status_stores t a).getLast? = some EOL ∧
      frame_records (airspyhf_status_stores t a) =
        some ((airspyhf_fields t a).map (fun x => (x.tag, x.value))) ∧
      frame_tags (airspyhf_status_stores t a) =
        some ([t.COMMAND_TAG, t.CMD_CNT, t.GPS_TIME] ++
          (if a.description.head? ≠ none then [t.DESCRIPTION] else []) ++
          [t.INPUT_SAMPRATE, t.OUTPUT_METADATA_PACKETS] ++
          (if isnan64 (a.calibrate % 2 ^ 64) then [] else [t.CALIBRATE]) ++
          (if isnan64 (a.frequency % 2 ^ 64) then [] else [t.RADIO_FREQUENCY]) ++
          [t.LOCK, t.DEMOD_TYPE, t.OUTPUT_SAMPRATE, t.OUTPUT_CHANNELS, t.DIRECT_CONVERSION] ++
          (if isnan32 (a.high_edge % 2 ^ 32) then [] else [t.HIGH_EDGE]) ++
          (if isnan32 (a.low_edge % 2 ^ 32) then [] else [t.LOW_EDGE]))) := by
  have hrx := frame_records_message (rx888_fields t r) (rx888_fields_ok t ht r hr)
  have hax := frame_records_message (airspyhf_fields t a) (airspyhf_fields_ok t ht a ha)
  rw [← rx888_status_stores_eq] at hrx
  rw [← airspyhf_status_stores_eq] at hax
  refine ⟨⟨?_, ?_, hrx, ?_⟩, ⟨?_, ?_, hax, ?_⟩⟩
  · rw [rx888_status_stores_eq]; rfl
  · rw [rx888_status_stores_eq]; exact last_encode_message _
  · unfold frame_tags
    rw [hrx]
    simp only [Option.map_some', List.map_map, Option.some.injEq]
    have hcomp : (Prod.fst ∘ fun x : Field => (x.tag, x.value)) = Field.tag := rfl
    rw [hcomp]
    unfold rx888_fields
    simp only [List.map_append, float_field_tags, List.map_cons, List.map_nil, Field.tag]
    cases r.description <;> simp [Field.tag]
  · rw [airspyhf_status_stores_eq]; rfl
  · rw [airspyhf_status_stores_eq]; exact last_encode_message _
  · unfold frame_tags
    rw [hax]
    simp only [Option.map_some', List.map_map, Option.some.injEq]
    have hcomp : (Prod.fst ∘ fun x : Field => (x.tag, x.value)) = Field.tag := rfl
    rw [hcomp]
    unfold airspyhf_fields
    simp only [List.map_append, float_field_tags, double_field_tags, List.map_cons, List.map_nil,
      Field.tag]
    by_cases hdesc : a.description.head? ≠ none
    · simp [hdesc, Field.tag]
    · simp [hdesc]

theorem encode_int64_length_le (type x : Nat) (hx : x < 2 ^ 64) :
    (encode_int64 type x).bytes.length ≤ 10 ∧
      (x < 2 ^ 32 → (encode_int64 type x).bytes.length ≤ 6) := by
  rw [encode_int64_digits type x hx]
  simp only [List.length_cons, List.length_reverse]
  refine ⟨?_, fun h => ?_⟩
  · have := digits_length_le x 8 (by norm_num; omega)
    omega
  · have := digits_length_le x 4 (by norm_num; omega)
    omega

theorem description_lt_frame (t : StatusTags) (f : Rx888Frontend) (d : List Nat)
    (hd : f.description = some d) : d.length + 4 < (rx888_status_stores t f).length := by
  have h1 : 2 ≤ (encode_int32 t.COMMAND_TAG (f.command_tag % 2 ^ 32)).bytes.length := by
    unfold encode_int32 encode_int64
    split <;> simp
  unfold rx888_status_stores
  rw [hd]
  simp only [List.length_append, encode_string, List.length_cons, List.length_nil, encode_eol]
  omega

theorem encode_float_length_le (tag x : Nat) (hx : x < 2 ^ 32) :
    (encode_float tag x).bytes.length ≤ 6 := by
  unfold encode_float
  split
  · simp
  · exact (encode_int64_length_le tag x (by omega)).2 hx

theorem encode_double_length_le (tag x : Nat) (hx : x < 2 ^ 64) :
    (encode_double tag x).bytes.length ≤ 10 := by
  unfold encode_double
  split
  · simp
  · exact (encode_int64_length_le tag x hx).1

theorem encode_byte_length_le (tag x : Nat) : (encode_byte tag x).bytes.length ≤ 3 := by
  unfold encode_byte
  split <;> simp

theorem encode_string_length_le (tag : Nat) (s : List Nat) :
    (encode_string tag s).bytes.length ≤ s.length + 6 := by
  have h : (encode_length s.length).length ≤ 5 := by
    unfold encode_length
    split
    · simp
    · split
      · simp
      · split <;> simp
  simp only [encode_string, List.length_cons, List.length_append]
  omega

/-- The frame of `send_rx888_status` is at most 111 bytes longer than the
description. -/
theorem rx888_status_stores_length_le (t : StatusTags) (f : Rx888Frontend) :
    (rx888_status_stores t f).length ≤
      (match f.description with | none => 0 | some d => d.length) + 111 := by
  have m32 : ∀ x : Nat, x % 2 ^ 32 < 2 ^ 32 := fun x => Nat.mod_lt _ (by norm_num)
  have m64 : ∀ x : Nat, x % 2 ^ 64 < 2 ^ 64 := fun x => Nat.mod_lt _ (by norm_num)
  have i32 : ∀ tag x : Nat, x < 2 ^ 32 → (encode_int32 tag x).bytes.length ≤ 6 :=
    fun tag x hx => (encode_int64_length_le tag x (by omega)).2 hx
  have a1 := i32 t.COMMAND_TAG _ (m32 f.command_tag)
  have a2 := (encode_int64_length_le t.CMD_CNT _ (m64 f.commands)).1
  have a3 := (encode_int64_length_le t.GPS_TIME _ (m64 f.gps_time)).1
  have a4 := i32 t.INPUT_SAMPRATE _ (m32 f.samprate)
  have a5 := (encode_int64_length_le t.OUTPUT_METADATA_PACKETS _ (m64 (f.metadata_packets + 1))).1
  have a6 := encode_float_length_le t.RF_ATTEN _ (m32 f.rf_atten)
  have a7 := encode_float_length_le t.RF_GAIN _ (m32 f.rf_gain)
  have a8 := encode_double_length_le t.RADIO_FREQUENCY 0 (by norm_num)
  have a9 := encode_byte_length_le t.DEMOD_TYPE 0
  have a10 := i32 t.OUTPUT_SAMPRATE _ (m32 f.samprate)
  have a11 := i32 t.OUTPUT_CHANNELS 1 (by norm_num)
  have a12 := i32 t.DIRECT_CONVERSION 1 (by norm_num)
  have a13 := encode_float_length_le t.LOW_EDGE 0 (by norm_num)
  have a14 := encode_float_length_le t.HIGH_EDGE _ (m32 f.high_edge)
  have a15 := i32 t.OUTPUT_BITS_PER_SAMPLE 16 (by norm_num)
  unfold rx888_status_stores
  cases hd : f.description with
  | none =>
    simp only [List.length_append, List.length_cons, List.length_nil, encode_eol]
    omega
  | some d =>
    have a16 := encode_string_length_le t.DESCRIPTION d
    simp only [List.length_append, List.length_cons, List.length_nil, encode_eol]
    omega

/-- The frame of `send_airspyhf_status` is at most 109 bytes longer than the
description. -/
theorem airspyhf_status_stores_length_le (t : StatusTags) (f : AirspyhfFrontend) :
    (airspyhf_status_stores t f).length ≤ f.description.length + 109 := by
  have m32 : ∀ x : Nat, x % 2 ^ 32 < 2 ^ 32 := fun x => Nat.mod_lt _ (by norm_num)
  have m64 : ∀ x : Nat, x % 2 ^ 64 < 2 ^ 64 := fun x => Nat.mod_lt _ (by norm_num)
  have i32 : ∀ tag x : Nat, x < 2 ^ 32 → (encode_int32 tag x).bytes.length ≤ 6 :=
    fun tag x hx => (encode_int64_length_le tag x (by omega)).2 hx
  have a1 := i32 t.COMMAND_TAG _ (m32 f.command_tag)
  have a2 := (encode_int64_length_le t.CMD_CNT _ (m64 f.commands)).1
  have a3 := (encode_int64_length_le t.GPS_TIME _ (m64 f.gps_time)).1
  have a4 := i32 t.INPUT_SAMPRATE _ (m32 f.samprate)
  have a5 := (encode_int64_length_le t.OUTPUT_METADATA_PACKETS _ (m64 (f.metadata_packets + 1))).1
  have a6 := encode_double_length_le t.CALIBRATE _ (m64 f.calibrate)
  have a7 := encode_double_length_le t.RADIO_FREQUENCY _ (m64 f.frequency)
  have a8 := i32 t.LOCK _ (m32 f.lock)
  have a9 := encode_byte_length_le t.DEMOD_TYPE 0
  have a10 := i32 t.OUTPUT_SAMPRATE _ (m32 f.samprate)
  have a11 := i32 t.OUTPUT_CHANNELS 1 (by norm_num)
  have a12 := i32 t.DIRECT_CONVERSION 1 (by norm_num)
  have a13 := encode_float_length_le t.HIGH_EDGE _ (m32 f.high_edge)
  have a14 := encode_float_length_le t.LOW_EDGE _ (m32 f.low_edge)
  have a16 := encode_string_length_le t.DESCRIPTION f.description
  unfold airspyhf_status_stores
  by_cases hd : f.description.head? ≠ none
  · simp only [if_pos hd, List.length_append, List.length_cons, List.length_nil, encode_eol]
    omega
  · simp only [if_neg hd, List.length_append, List.length_cons, List.length_nil, encode_eol]
    omega

theorem airspyhf_description_le_frame (t : StatusTags) (f : AirspyhfFrontend) :
    f.description.length ≤ (airspyhf_status_stores t f).length := by
  unfold airspyhf_status_stores
  by_cases hd : f.description.head? ≠ none
  · simp only [if_pos hd, List.length_append, encode_string, List.length_cons]
    omega
  · have he : f.description = [] := by
      cases hf : f.description with
      | nil => rfl
      | cons x xs => rw [hf] at hd; simp at hd
    rw [he]
    exact Nat.zero_le _

theorem send_rx888_status_eq (t : StatusTags) (f : Rx888Frontend) :
    send_rx888_status t f =
      if (rx888_status_stores t f).length < 2048 then some (rx888_status_stores t f)
      else none := rfl

theorem send_airspyhf_status_eq (t : StatusTags) (f : AirspyhfFrontend) :
    send_airspyhf_status t f =
      if (airspyhf_status_stores t f).length < 2048 then some (airspyhf_status_stores t f)
      else none := rfl

/-- C19 fails as stated: under an assignment of distinct tags (16 being the
tag of bits-per-sample, 7 that of the calibration and 9 that of the lock bit),
a frame of `send_airspyhf_status` has the records 1 to 15 and none for
bits-per-sample, and a frame of `send_rx888_status` has no record for the
calibration nor for the lock bit. -/
theorem status_frames_counterexample :
    (send_airspyhf_status exampleTags
        ⟨305419896, 3, 81985529216486895, [114, 120], 912000, 7, 0, 4711630319722168320, 0,
          1220508672, 3367992320⟩).bind frame_tags =
      some [1, 2, 3, 4, 5, 6, 7, 8, 9, 10, 11, 12, 13, 14, 15] ∧
    exampleTags.OUTPUT_BITS_PER_SAMPLE = 16 ∧
    (send_rx888_status exampleTags
        ⟨305419896, 3, 81985529216486895, some [114, 120], 32000000, 7, 0, 1069547520,
          1264942592⟩).bind frame_tags =
      some [1, 2, 3, 4, 5, 6, 17, 18, 8, 10, 11, 12, 13, 15, 14, 16] ∧
    exampleTags.CALIBRATE = 7 ∧ exampleTags.LOCK = 9 := by
  decide

/-- C19 as amended: every frame that `send_rx888_status` or
`send_airspyhf_status` hands to `send`, which it does when the bytes assembled
in `packet[2048]` number fewer than 2048 (`assert(len < sizeof(packet))`),
starts with the direction byte 0, ends with the `EOL` byte, and the walkers
read from it, in this order, exactly one record for each of: command tag,
command count, GPS time, the description when one is set, input sample rate
and metadata packet counter; then, for `send_rx888_status`, RF attenuation and
RF gain, tuned frequency, demod kind, output sample rate, output channel count,
direct-conversion flag, low and high spectrum edge and bits-per-sample, with no
record for calibration or lock bit; and, for `send_airspyhf_status`,
calibration, tuned frequency, lock bit, demod kind, output sample rate, output
channel count, direct-conversion flag, high and low spectrum edge, with no
record for bits-per-sample.  A floating-point field whose value is a NaN has no
record.  A frame is sent if and only if its bytes number fewer than 2048, and
that is so whenever the description has at most 1900 bytes. -/
theorem status_frames (t : StatusTags) (ht : t.WellTyped) (r : Rx888Frontend)
    (a : AirspyhfFrontend)
    (hr : ∀ d, r.description = some d → ∀ b ∈ d, b < 256)
    (ha : ∀ b ∈ a.description, b < 256) :
    ((∀ p, send_rx888_status t r = some p →
      p.length < 2048 ∧ p.head? = some 0 ∧ p.getLast? = some EOL ∧
      frame_records p = some ((rx888_fields t r).map (fun x => (x.tag, x.value))) ∧
      frame_tags p =
        some ([t.COMMAND_TAG, t.CMD_CNT, t.GPS_TIME] ++
          (if r.description.isSome then [t.DESCRIPTION] else []) ++
          [t.INPUT_SAMPRATE, t.OUTPUT_METADATA_PACKETS] ++
          (if isnan32 (r.rf_atten % 2 ^ 32) then [] else [t.RF_ATTEN]) ++
          (if isnan32 (r.rf_gain % 2 ^ 32) then [] else [t.RF_GAIN]) ++
          [t.RADIO_FREQUENCY, t.DEMOD_TYPE, t.OUTPUT_SAMPRATE, t.OUTPUT_CHANNELS,
            t.DIRECT_CONVERSION, t.LOW_EDGE] ++
          (if isnan32 (r.high_edge % 2 ^ 32) then [] else [t.HIGH_EDGE]) ++
          [t.OUTPUT_BITS_PER_SAMPLE])) ∧
      ((∃ p, send_rx888_status t r = some p) ↔ (rx888_status_stores t r).length < 2048) ∧
      ((∀ d, r.description = some d → d.length ≤ 1900) →
        ∃ p, send_rx888_status t r = some p)) ∧
    ((∀ p, send_airspyhf_status t a = some p →
      p.length < 2048 ∧ p.head? = some 0 ∧ p.getLast? = some EOL ∧
      frame_records p = some ((airspyhf_fields t a).map (fun x => (x.tag, x.value))) ∧
      frame_tags p =
        some ([t.COMMAND_TAG, t.CMD_CNT, t.GPS_TIME] ++
          (if a.description.head? ≠ none then [t.DESCRIPTION] else []) ++
          [t.INPUT_SAMPRATE, t.OUTPUT_METADATA_PACKETS] ++
          (if isnan64 (a.calibrate % 2 ^ 64) then [] else [t.CALIBRATE]) ++
          (if isnan64 (a.frequency % 2 ^ 64) then [] else [t.RADIO_FREQUENCY]) ++
          [t.LOCK, t.DEMOD_TYPE, t.OUTPUT_SAMPRATE, t.OUTPUT_CHANNELS, t.DIRECT_CONVERSION] ++
          (if isnan32 (a.high_edge % 2 ^ 32) then [] else [t.HIGH_EDGE]) ++
          (if isnan32 (a.low_edge % 2 ^ 32) then [] else [t.LOW_EDGE]))) ∧
      ((∃ p, send_airspyhf_status t a = some p) ↔
        (airspyhf_status_stores t a).length < 2048) ∧
      (a.description.length ≤ 1900 → ∃ p, send_airspyhf_status t a = some p)) := by
  have hrl := rx888_status_stores_length_le t r
  have hal := airspyhf_status_stores_length_le t a
  refine ⟨⟨?_, ?_, ?_⟩, ⟨?_, ?_, ?_⟩⟩
  · intro p hp
    rw [send_rx888_status_eq] at hp
    split at hp
    · next hlt =>
      simp only [Option.some.injEq] at hp
      subst hp
      obtain ⟨⟨r1, r2, r3, r4⟩, -⟩ := status_frames_records t ht r
        { a with description := [] }
        (fun d hd => ⟨by have := description_lt_frame t r d hd; omega, hr d hd⟩)
        ⟨by simp, by simp⟩
      exact ⟨hlt, r1, r2, r3, r4⟩
    · simp at hp
  · rw [send_rx888_status_eq]
    constructor
    · rintro ⟨p, hp⟩
      by_contra hlt
      rw [if_neg hlt] at hp
      simp at hp
    · intro hlt
      exact ⟨_, if_pos hlt⟩
  · intro hd
    rw [send_rx888_status_eq]
    refine ⟨_, if_pos ?_⟩
    cases hdesc : r.description with
    | none => rw [hdesc] at hrl; simp only at hrl; omega
    | some d =>
      have := hd d hdesc
      rw [hdesc] at hrl
      simp only at hrl
      omega
  · intro p hp
    rw [send_airspyhf_status_eq] at hp
    split at hp
    · next hlt =>
      simp only [Option.some.injEq] at hp
      subst hp
      obtain ⟨-, ⟨a1, a2, a3, a4⟩⟩ := status_frames_records t ht
        { r with description := none } a (fun d hd => by simp at hd)
        ⟨by have := airspyhf_description_le_frame t a; omega, ha⟩
      exact ⟨hlt, a1, a2, a3, a4⟩
    · simp at hp
  · rw [send_airspyhf_status_eq]
    constructor
    · rintro ⟨p, hp⟩
      by_contra hlt
      rw [if_neg hlt] at hp
      simp at hp
    · intro hlt
      exact ⟨_, if_pos hlt⟩
  · intro hd
    rw [send_airspyhf_status_eq]
    exact ⟨_, if_pos (by omega)⟩

theorem exampleTags_wellTyped : exampleTags.WellTyped := by
  intro x hx
  simp only [exampleTags, List.mem_cons, List.mem_singleton, List.not_mem_nil, or_false] at hx
  omega

/-- Witness of the amended C19: the frames of an RX888 at 32 MHz and of an
Airspy HF at 912 kHz, both described as `rx`, are sent, and the walkers read
the tags listed. -/
theorem status_frames_witness :
    (∃ p, send_rx888_status exampleTags
        ⟨305419896, 3, 81985529216486895, some [114, 120], 32000000, 7, 0, 1069547520,
          1264942592⟩ = some p ∧ p.length < 2048 ∧
      frame_tags p = some [1, 2, 3, 4, 5, 6, 17, 18, 8, 10, 11, 12, 13, 15, 14, 16]) ∧
    (∃ p, send_airspyhf_status exampleTags
        ⟨305419896, 3, 81985529216486895, [114, 120], 912000, 7, 0, 4711630319722168320, 0,
          1220508672, 3367992320⟩ = some p ∧ p.length < 2048 ∧
      frame_tags p = some [1, 2, 3, 4, 5, 6, 7, 8, 9, 10, 11, 12, 13, 14, 15]) := by
  have h := status_frames exampleTags exampleTags_wellTyped
    ⟨305419896, 3, 81985529216486895, some [114, 120], 32000000, 7, 0, 1069547520, 1264942592⟩
    ⟨305419896, 3, 81985529216486895, [114, 120], 912000, 7, 0, 4711630319722168320, 0,
      1220508672, 3367992320⟩
    (by
      intro d hd
      simp only [Option.some.injEq] at hd
      subst hd
      decide)
    (by decide)
  obtain ⟨⟨h1, -, h3⟩, ⟨g1, -, g3⟩⟩ := h
  obtain ⟨p, hp⟩ := h3 (by
    intro d hd
    simp only [Option.some.injEq] at hd
    subst hd
    decide)
  obtain ⟨q, hq⟩ := g3 (by decide)
  refine ⟨⟨p, hp, (h1 p hp).1, ?_⟩, ⟨q, hq, (g1 q hq).1, ?_⟩⟩
  · rw [(h1 p hp).2.2.2.2]; decide
  · rw [(g1 q hq).2.2.2.2]; decide

/-- C20, the code at the failing input.  With a configured description of 2048
bytes, whatever the rest of the front-end state, `send_rx888_status` stores
more than 2052 bytes in its 2048-byte `packet`: bytes are written at indices
from 2048 on and `len < sizeof(packet)` is false, so that the run does not get
to `send`.  In general the bytes stored outnumber those of the description by
more than 4, and a description of 2044 bytes or more is enough. -/
theorem send_rx888_status_overflow (t : StatusTags) (f : Rx888Frontend) (d : List Nat) :
    2052 < (rx888_status_stores t
      { f with description := some (List.replicate 2048 97) }).length ∧
    d.length + 4 < (rx888_status_stores t { f with description := some d }).length ∧
    send_rx888_status t { f with description := some (List.replicate 2048 97) } = none ∧
    (2044 ≤ d.length → send_rx888_status t { f with description := some d } = none) := by
  have h := description_lt_frame t { f with description := some (List.replicate 2048 97) }
    (List.replicate 2048 97) rfl
  rw [List.length_replicate] at h
  have h2 := description_lt_frame t { f with description := some d } d rfl
  refine ⟨h, h2, ?_, ?_⟩
  · rw [send_rx888_status_eq, if_neg (by omega)]
  · intro hd
    rw [send_rx888_status_eq, if_neg (by omega)]

/-! ## The randomizer of the RX888 -/

theorem xor_flip (p : Nat) (hp : p < 2 ^ 32) (hodd : p % 2 = 1) :
    p ^^^ (2 ^ 32 - 2) = 2 ^ 32 - p := by
  apply Nat.eq_of_testBit_eq
  intro i
  obtain ⟨q, rfl⟩ : ∃ q, p = q + 1 := ⟨p - 1, by omega⟩
  rw [Nat.testBit_xor, Nat.testBit_two_pow_sub_succ (by omega : q < 2 ^ 32),
    show (2 ^ 32 - 2 : Nat) = 2 ^ 32 - (1 + 1) from rfl,
    Nat.testBit_two_pow_sub_succ (by norm_num : 1 < 2 ^ 32)]
  cases i with
  | zero =>
    simp only [Nat.testBit_zero]
    have : q % 2 = 0 := by omega
    simp [hodd, this]
  | succ j =>
    simp only [Nat.testBit_succ]
    have h1 : (q + 1) / 2 = q / 2 := by omega
    have h2 : (1 : Nat) / 2 = 0 := by norm_num
    rw [h1, h2]
    by_cases hj : j + 1 < 32
    · simp [hj]
    · have : (q / 2).testBit j = false := by
        apply Nat.testBit_lt_two_pow
        have : 2 ^ 31 ≤ 2 ^ j := Nat.pow_le_pow_right (by norm_num) (by omega)
        omega
      simp [hj, this]

theorem testBit_mask (i : Nat) (h1 : 1 ≤ i) (h2 : i < 32) : (2 ^ 32 - 2 : Nat).testBit i = true := by
  rw [show (2 ^ 32 - 2 : Nat) = 2 ^ 32 - (1 + 1) from rfl,
    Nat.testBit_two_pow_sub_succ (by norm_num : 1 < 2 ^ 32)]
  obtain ⟨j, rfl⟩ : ∃ j, i = j + 1 := ⟨i - 1, by omega⟩
  simp [Nat.testBit_succ, h2]

theorem int_bits_lt (x : Int) : int_bits x < 2 ^ 32 := by
  unfold int_bits; omega

theorem randomizer_unmask_even (s : Int) (hs : -2 ^ 31 ≤ s ∧ s < 2 ^ 31) (he : s % 2 = 0) :
    randomizer_unmask s = s := by
  have hl : int_bits s &&& 1 = 0 := by
    rw [Nat.and_one_is_mod]; unfold int_bits; omega
  unfold randomizer_unmask
  simp only [hl]
  have hm : int_bits (-2 * ((0 : Nat) : Int)) = 0 := by decide
  rw [hm, Nat.xor_zero]
  unfold int_bits toInt32
  omega

theorem randomizer_unmask_bits (s : Int) (ho : s % 2 = 1) :
    int_bits (randomizer_unmask s) = int_bits s ^^^ (2 ^ 32 - 2) := by
  have hl : int_bits s &&& 1 = 1 := by
    rw [Nat.and_one_is_mod]; unfold int_bits; omega
  unfold randomizer_unmask
  simp only [hl]
  have hm : int_bits (-2 * ((1 : Nat) : Int)) = 2 ^ 32 - 2 := by decide
  rw [hm]
  have hlt : int_bits s ^^^ (2 ^ 32 - 2) < 2 ^ 32 :=
    Nat.xor_lt_two_pow (int_bits_lt s) (by norm_num)
  generalize int_bits s ^^^ (2 ^ 32 - 2) = z at hlt ⊢
  unfold int_bits toInt32
  omega

theorem randomizer_unmask_odd (s : Int) (hs : -2 ^ 31 < s ∧ s < 2 ^ 31) (ho : s % 2 = 1) :
    randomizer_unmask s = -s := by
  have hl : int_bits s &&& 1 = 1 := by
    rw [Nat.and_one_is_mod]; unfold int_bits; omega
  unfold randomizer_unmask
  simp only [hl]
  have hm : int_bits (-2 * ((1 : Nat) : Int)) = 2 ^ 32 - 2 := by decide
  rw [hm, xor_flip _ (int_bits_lt s) (by unfold int_bits; omega)]
  have hlt := int_bits_lt s
  have hb : ((int_bits s : Nat) : Int) = s % 2 ^ 32 := by unfold int_bits; omega
  rw [Nat.cast_sub (by omega)]
  unfold toInt32
  push_cast
  omega


theorem rx888_callback_values (randomizer : Bool) : ∀ (samples : List Int) (e : Nat),
    (Rx888.rx_callback randomizer samples e).1 =
      samples.map (fun x => if randomizer then randomizer_unmask x else x) := by
  intro samples
  induction samples with
  | nil => intro e; rfl
  | cons x xs ih => intro e; simp [Rx888.rx_callback, ih]

/-- C26: for every `int16_t` sample, the randomizer unmask of `rx_callback` of
`rx888.c` returns the sample unchanged when its least significant bit is 0;
when that bit is 1 it returns the `int` whose bits 1 to 31 are those of the
sample inverted and whose bit 0 is that of the sample, which is the negated
sample; the result lies in the range of `int16_t`, has the least significant
bit of the sample, and the unmask applied to it gives the sample back.  With
`randomizer` set the loop of the callback passes on the unmask of each sample. -/
theorem randomizer_unmask_spec (sample : Int) (hs : -2 ^ 15 ≤ sample ∧ sample < 2 ^ 15) :
    (sample % 2 = 0 → randomizer_unmask sample = sample) ∧
    (sample % 2 = 1 →
      (∀ i, 1 ≤ i → i < 32 →
        (int_bits (randomizer_unmask sample)).testBit i = !(int_bits sample).testBit i) ∧
      (int_bits (randomizer_unmask sample)).testBit 0 = (int_bits sample).testBit 0 ∧
      randomizer_unmask sample = -sample) ∧
    (-2 ^ 15 ≤ randomizer_unmask sample ∧ randomizer_unmask sample < 2 ^ 15) ∧
    randomizer_unmask sample % 2 = sample % 2 ∧
    randomizer_unmask (randomizer_unmask sample) = sample ∧
    (∀ (rest : List Int) (e : Nat),
      (Rx888.rx_callback true (sample :: rest) e).1 =
        randomizer_unmask sample :: rest.map randomizer_unmask) := by
  have hcb : ∀ (rest : List Int) (e : Nat),
      (Rx888.rx_callback true (sample :: rest) e).1 =
        randomizer_unmask sample :: rest.map randomizer_unmask := by
    intro rest e
    rw [rx888_callback_values]
    simp
  rcases Int.emod_two_eq_zero_or_one sample with he | ho
  · have h := randomizer_unmask_even sample (by omega) he
    refine ⟨fun _ => h, fun h1 => by omega, by rw [h]; exact hs, by rw [h], by rw [h, h], hcb⟩
  · have h := randomizer_unmask_odd sample (by omega) ho
    have hb := randomizer_unmask_bits sample ho
    refine ⟨fun h0 => by omega, fun _ => ⟨?_, ?_, h⟩, by rw [h]; omega, by rw [h]; omega, ?_, hcb⟩
    · intro i h1 h2
      rw [hb, Nat.testBit_xor, testBit_mask i h1 h2]
      simp
    · rw [hb, Nat.testBit_xor]
      have : (2 ^ 32 - 2 : Nat).testBit 0 = false := by decide
      rw [this]
      simp
    · rw [h, randomizer_unmask_odd (-sample) (by omega) (by omega)]
      omega

/-- Witness of C26 at the samples 12345 and -32768. -/
theorem randomizer_unmask_spec_witness :
    randomizer_unmask 12345 = -12345 ∧ randomizer_unmask (-12345) = 12345 ∧
    randomizer_unmask (-32768) = -32768 ∧
    (Rx888.rx_callback true [12345, -32768, 2, -1] 0).1 = [-12345, -32768, 2, 1] := by
  have h1 := randomizer_unmask_spec 12345 (by decide)
  have h2 := randomizer_unmask_spec (-32768) (by decide)
  refine ⟨(h1.2.1 (by decide)).2.2, ?_, h2.1 (by decide), by decide⟩
  have h3 := h1.2.2.2.2.1
  rw [(h1.2.1 (by decide)).2.2] at h3
  exact h3

/-! ## The tuning lock of the Airspy HF -/

/-- Two walks over the same buffer whose switches keep a relation between
their states on every record other than `EOL`, and leave or continue the loop
together, visit the same records and end in related states. -/
theorem tlv_scan_rel {σ τ : Type} (sw1 : Nat → Nat → Nat → σ → Action σ)
    (sw2 : Nat → Nat → Nat → τ → Action τ) (R : σ → τ → Prop) (mem : Mem) (length : Int)
    (hsw : ∀ type cp optlen s t, type ≠ EOL → R s t →
      (∃ s1 t1 r1 r2, sw1 type cp optlen s = Action.next s1 r1 ∧
        sw2 type cp optlen t = Action.next t1 r2 ∧ R s1 t1) ∨
      (∃ s1 t1 r1 r2, sw1 type cp optlen s = Action.stop s1 r1 ∧
        sw2 type cp optlen t = Action.stop t1 r2 ∧ R s1 t1)) :
    ∀ (fuel cp : Nat) (s : σ) (t : τ) (r : Scan σ), R s t →
      tlv_scan sw1 mem length fuel cp s = some r →
      ∃ u, tlv_scan sw2 mem length fuel cp t = some u ∧ R r.state u.state ∧ r.cp = u.cp ∧
        r.starts = u.starts := by
  intro fuel
  induction fuel with
  | zero => intro cp s t r _ h; simp [tlv_scan] at h
  | succ k ih =>
    intro cp s t r hR h
    rw [tlv_scan_succ] at h ⊢
    by_cases hc : (cp : Int) < length
    · rw [if_pos hc] at h ⊢
      by_cases he : rd mem cp = EOL
      · rw [if_pos he] at h ⊢
        cases h
        exact ⟨_, rfl, hR, rfl, rfl⟩
      · rw [if_neg he] at h ⊢
        by_cases hv : ((parse_optlen mem (cp + 1)).2 : Int) + ((parse_optlen mem (cp + 1)).1 : Int)
            ≥ length
        · rw [if_pos hv] at h ⊢
          cases h
          exact ⟨_, rfl, hR, rfl, rfl⟩
        · rw [if_neg hv] at h ⊢
          rcases hsw (rd mem cp) (parse_optlen mem (cp + 1)).2 (parse_optlen mem (cp + 1)).1 s t he hR
            with ⟨s1, t1, r1, r2, e1, e2, hR1⟩ | ⟨s1, t1, r1, r2, e1, e2, hR1⟩
          · rw [e1] at h
            rw [e2]
            simp only at h ⊢
            cases hrec : tlv_scan sw1 mem length k
                ((parse_optlen mem (cp + 1)).2 + (parse_optlen mem (cp + 1)).1) s1 with
            | none => rw [hrec] at h; simp at h
            | some r0 =>
              rw [hrec] at h
              obtain ⟨u0, hu0, hRu, hcp, hst⟩ := ih _ s1 t1 r0 hR1 hrec
              simp only [Option.map_some', Option.some.injEq] at h
              subst h
              exact ⟨⟨u0.state, u0.cp, _, cp :: u0.starts⟩, by rw [hu0]; rfl, hRu, hcp, by simp [hst]⟩
          · rw [e1] at h
            rw [e2]
            simp only [Option.some.injEq] at h
            subst h
            exact ⟨_, rfl, hR1, rfl, rfl⟩
    · rw [if_neg hc] at h ⊢
      cases h
      exact ⟨_, rfl, hR, rfl, rfl⟩

/-- With the tuning lock set, the switch of `decode_airspyhf_commands` never
calls `set_correct_freq`, and treats every record other than a frequency the
way it does with the lock clear. -/
theorem airspyhf_switch_locked (tags : AirspyhfTags) (mem : Mem) (base : List Nat)
    (type cp optlen : Nat) (s t : AirspyhfState)
    (hR : s.lock = true ∧ t.lock = false ∧ s.freq_calls = base ∧
      s.command_tag = t.command_tag ∧ s.calibrate = t.calibrate) :
    (∃ s1 t1 r1 r2, airspyhf_switch tags mem type cp optlen s = Action.next s1 r1 ∧
      airspyhf_switch tags mem type cp optlen t = Action.next t1 r2 ∧
      (s1.lock = true ∧ t1.lock = false ∧ s1.freq_calls = base ∧
        s1.command_tag = t1.command_tag ∧ s1.calibrate = t1.calibrate)) ∨
    (∃ s1 t1 r1 r2, airspyhf_switch tags mem type cp optlen s = Action.stop s1 r1 ∧
      airspyhf_switch tags mem type cp optlen t = Action.stop t1 r2 ∧
      (s1.lock = true ∧ t1.lock = false ∧ s1.freq_calls = base ∧
        s1.command_tag = t1.command_tag ∧ s1.calibrate = t1.calibrate)) := by
  obtain ⟨h1, h2, h3, h4, h5⟩ := hR
  left
  unfold airspyhf_switch
  by_cases c0 : type = EOL
  · rw [if_pos c0, if_pos c0]
    exact ⟨_, _, _, _, rfl, rfl, h1, h2, h3, h4, h5⟩
  · rw [if_neg c0, if_neg c0]
    by_cases c1 : type = tags.COMMAND_TAG
    · rw [if_pos c1, if_pos c1]
      exact ⟨_, _, _, _, rfl, rfl, h1, h2, h3, rfl, h5⟩
    · rw [if_neg c1, if_neg c1]
      by_cases c2 : type = tags.CALIBRATE
      · rw [if_pos c2, if_pos c2]
        exact ⟨_, _, _, _, rfl, rfl, h1, h2, h3, h4, rfl⟩
      · rw [if_neg c2, if_neg c2]
        by_cases c3 : type = tags.RADIO_FREQUENCY
        · rw [if_pos c3, if_pos c3, h1, h2]
          simp only [if_true, Bool.false_eq_true, if_false]
          exact ⟨_, _, _, _, rfl, rfl, h1, rfl, h3, h4, h5⟩
        · rw [if_neg c3, if_neg c3]
          exact ⟨_, _, _, _, rfl, rfl, h1, h2, h3, h4, h5⟩

theorem last_record_concat (T type : Nat) (value : List Nat) :
    ∀ acc : List (Nat × List Nat),
      last_record T (acc ++ [(type, value)]) =
        if type = T then some value else last_record T acc := by
  intro acc
  induction acc with
  | nil => simp [last_record]
  | cons x xs ih =>
    obtain ⟨ty, v⟩ := x
    have e : last_record T ((ty, v) :: xs ++ [(type, value)]) =
        match last_record T (xs ++ [(type, value)]) with
        | some v => some v
        | none => if ty = T then some v else none := rfl
    rw [e, ih]
    by_cases h : type = T
    · simp only [if_pos h]
    · simp only [if_neg h]
      rfl

theorem decode_loop_ext (mem1 mem2 : Mem) : ∀ (n cp1 cp2 acc : Nat),
    (∀ i, i < n → rd mem1 (cp1 + i) = rd mem2 (cp2 + i)) →
    decode_int_loop mem1 n cp1 acc = decode_int_loop mem2 n cp2 acc := by
  intro n
  induction n with
  | zero => intro cp1 cp2 acc _; rfl
  | succ k ih =>
    intro cp1 cp2 acc h
    have h0 := h 0 (by omega)
    simp only [Nat.add_zero] at h0
    simp only [decode_int_loop, h0]
    apply ih
    intro i hi
    have := h (i + 1) (by omega)
    simpa [Nat.add_assoc, Nat.add_comm 1 i] using this

theorem toInt32_toNat_le (n : Nat) : (toInt32 (n : Int)).toNat ≤ n := by
  unfold toInt32; omega

/-- The decoders give the same value on the value bytes of a record as noted
by `record_switch` and on the buffer they were read from. -/
theorem decode_int_record (mem : Mem) (cp optlen : Nat) :
    decode_int (memOf ((List.range optlen).map (fun i => rd mem (cp + i)))) 0
        (toInt32 (((List.range optlen).map (fun i => rd mem (cp + i))).length : Nat)) =
      decode_int mem cp (toInt32 optlen) := by
  simp only [List.length_map, List.length_range]
  unfold decode_int
  apply decode_loop_ext
  intro i hi
  have hle := toInt32_toNat_le optlen
  have hi2 : i < optlen := by omega
  simp [rd, memOf, List.getD_eq_getElem?_getD, hi2]

theorem decode_double_record (mem : Mem) (cp optlen : Nat) :
    decode_double (memOf ((List.range optlen).map (fun i => rd mem (cp + i)))) 0
        (toInt32 (((List.range optlen).map (fun i => rd mem (cp + i))).length : Nat)) =
      decode_double mem cp (toInt32 optlen) := by
  have h := decode_int_record mem cp optlen
  simp only [List.length_map, List.length_range] at h ⊢
  unfold decode_double decode_float_union decode_double_union
  rw [h]



/-- With the tuning lock set, the switch of `decode_airspyhf_commands` stores
the value of each `COMMAND_TAG` and each `CALIBRATE` record, and nothing else:
after any records the state holds the decoded values of the last such records.
The case label `COMMAND_TAG` comes first: were `CALIBRATE` the same number, its
case would never be taken. -/
theorem airspyhf_switch_applies (tags : AirspyhfTags) (mem : Mem) (s0 : AirspyhfState)
    (type cp optlen : Nat) (s : AirspyhfState)
    (acc : List (Nat × List Nat)) (htype : type ≠ EOL)
    (hR : s.lock = true ∧ s.freq_calls = s0.freq_calls ∧
      s.command_tag = (match last_record tags.COMMAND_TAG acc with
        | some v => decode_int (memOf v) 0 (toInt32 (v.length : Nat)) % 2 ^ 32
        | none => s0.command_tag) ∧
      (tags.COMMAND_TAG ≠ tags.CALIBRATE →
        s.calibrate = (match last_record tags.CALIBRATE acc with
          | some v => decode_double (memOf v) 0 (toInt32 (v.length : Nat))
          | none => s0.calibrate))) :
    (∃ s1 t1 r1 r2, airspyhf_switch tags mem type cp optlen s = Action.next s1 r1 ∧
      record_switch mem type cp optlen acc = Action.next t1 r2 ∧
      (s1.lock = true ∧ s1.freq_calls = s0.freq_calls ∧
        s1.command_tag = (match last_record tags.COMMAND_TAG t1 with
          | some v => decode_int (memOf v) 0 (toInt32 (v.length : Nat)) % 2 ^ 32
          | none => s0.command_tag) ∧
        (tags.COMMAND_TAG ≠ tags.CALIBRATE →
          s1.calibrate = (match last_record tags.CALIBRATE t1 with
            | some v => decode_double (memOf v) 0 (toInt32 (v.length : Nat))
            | none => s0.calibrate)))) ∨
    (∃ s1 t1 r1 r2, airspyhf_switch tags mem type cp optlen s = Action.stop s1 r1 ∧
      record_switch mem type cp optlen acc = Action.stop t1 r2 ∧
      (s1.lock = true ∧ s1.freq_calls = s0.freq_calls ∧
        s1.command_tag = (match last_record tags.COMMAND_TAG t1 with
          | some v => decode_int (memOf v) 0 (toInt32 (v.length : Nat)) % 2 ^ 32
          | none => s0.command_tag) ∧
        (tags.COMMAND_TAG ≠ tags.CALIBRATE →
          s1.calibrate = (match last_record tags.CALIBRATE t1 with
            | some v => decode_double (memOf v) 0 (toInt32 (v.length : Nat))
            | none => s0.calibrate)))) := by
  obtain ⟨h1, h2, h3, h4⟩ := hR
  left
  unfold airspyhf_switch record_switch
  rw [if_neg htype]
  by_cases c1 : type = tags.COMMAND_TAG
  · rw [if_pos c1]
    refine ⟨_, _, _, _, rfl, rfl, h1, h2, ?_, ?_⟩
    · rw [last_record_concat, if_pos c1]
      simp only
      rw [decode_int_record]
    · intro hne
      rw [last_record_concat, if_neg (by rw [c1]; exact hne)]
      exact h4 hne
  · rw [if_neg c1]
    by_cases c2 : type = tags.CALIBRATE
    · rw [if_pos c2]
      refine ⟨_, _, _, _, rfl, rfl, h1, h2, ?_, ?_⟩
      · rw [last_record_concat, if_neg c1]
        exact h3
      · intro _
        rw [last_record_concat, if_pos c2]
        simp only
        rw [decode_double_record]
    · rw [if_neg c2]
      by_cases c3 : type = tags.RADIO_FREQUENCY
      · rw [if_pos c3, h1]
        simp only [if_true]
        refine ⟨_, _, _, _, rfl, rfl, h1, h2, ?_, ?_⟩
        · rw [last_record_concat, if_neg c1]
          exact h3
        · intro hne
          rw [last_record_concat, if_neg c2]
          exact h4 hne
      · rw [if_neg c3]
        refine ⟨_, _, _, _, rfl, rfl, h1, h2, ?_, ?_⟩
        · rw [last_record_concat, if_neg c1]
          exact h3
        · intro hne
          rw [last_record_concat, if_neg c2]
          exact h4 hne

/-- C27: for every command buffer, every `length` and every state of the front
end with the tuning lock set, `decode_airspyhf_commands` finishes without a
single call of `set_correct_freq`, the only place where it programs the device
and stores the tuned frequency, and leaves the lock set.  The records it
visits are those of the loop of the walkers; `command_tag` ends as the value
`decode_int` gives for the last `COMMAND_TAG` record and `calibrate` as the
value `decode_double` gives for the last `CALIBRATE` record (each with the
record length converted to `int`; the case labels `COMMAND_TAG` and `CALIBRATE`
of the `switch` being different numbers), or as before when there is no such
record.  These are the values the walk from the same state with the lock clear
stores. -/
theorem locked_tuning_ignores_frequency (tags : AirspyhfTags) (mem : Mem) (length : Int)
    (s : AirspyhfState) (hlock : s.lock = true) :
    ∃ r recs, decode_airspyhf_commands tags mem length s = some r ∧
      (tlv_scan (record_switch mem) mem length (length.toNat + 1) 0 []).map Scan.state =
        some recs ∧
      r.state.freq_calls = s.freq_calls ∧ r.state.lock = true ∧
      r.state.command_tag = (match last_record tags.COMMAND_TAG recs with
        | some v => decode_int (memOf v) 0 (toInt32 (v.length : Nat)) % 2 ^ 32
        | none => s.command_tag) ∧
      (tags.COMMAND_TAG ≠ tags.CALIBRATE →
        r.state.calibrate = (match last_record tags.CALIBRATE recs with
          | some v => decode_double (memOf v) 0 (toInt32 (v.length : Nat))
          | none => s.calibrate)) ∧
      ∃ u, decode_airspyhf_commands tags mem length { s with lock := false } = some u ∧
        r.state.command_tag = u.state.command_tag ∧ r.state.calibrate = u.state.calibrate ∧
        r.cp = u.cp ∧ r.starts = u.starts := by
  obtain ⟨r, hr, -, -⟩ := tlv_scan_advances (airspyhf_switch tags mem) mem length s
  obtain ⟨u, hu, ⟨h1, -, h3, h4, h5⟩, hcp, hst⟩ :=
    tlv_scan_rel (airspyhf_switch tags mem) (airspyhf_switch tags mem)
      (fun a b => a.lock = true ∧ b.lock = false ∧ a.freq_calls = s.freq_calls ∧
        a.command_tag = b.command_tag ∧ a.calibrate = b.calibrate) mem length
      (fun type cp optlen a b _ hR =>
        airspyhf_switch_locked tags mem s.freq_calls type cp optlen a b hR)
      (length.toNat + 1) 0 s { s with lock := false } r ⟨hlock, rfl, rfl, rfl, rfl⟩ hr
  obtain ⟨w, hw, ⟨-, -, g3, g4⟩, -, -⟩ :=
    tlv_scan_rel (airspyhf_switch tags mem) (record_switch mem)
      (fun a acc => a.lock = true ∧ a.freq_calls = s.freq_calls ∧
        a.command_tag = (match last_record tags.COMMAND_TAG acc with
          | some v => decode_int (memOf v) 0 (toInt32 (v.length : Nat)) % 2 ^ 32
          | none => s.command_tag) ∧
        (tags.COMMAND_TAG ≠ tags.CALIBRATE →
          a.calibrate = (match last_record tags.CALIBRATE acc with
            | some v => decode_double (memOf v) 0 (toInt32 (v.length : Nat))
            | none => s.calibrate))) mem length
      (fun type cp optlen a acc htype hR =>
        airspyhf_switch_applies tags mem s type cp optlen a acc htype hR)
      (length.toNat + 1) 0 s [] r ⟨hlock, rfl, rfl, fun _ => rfl⟩ hr
  exact ⟨r, w.state, hr, by rw [hw]; rfl, h3, h1, g3, g4, u, hu, h4, h5, hcp, hst⟩

/-- Witness of C27: a command with a `RADIO_FREQUENCY` record (tag 3, the
`double` 7.0e6), a `COMMAND_TAG` record (tag 1, value 7) and a `CALIBRATE`
record (tag 2, the `float` 1.0), with the lock set: no call of
`set_correct_freq`, the command tag 7 and the calibration 1.0 are stored. -/
theorem locked_tuning_ignores_frequency_witness :
    ∃ r recs, decode_airspyhf_commands ⟨1, 2, 3⟩
        (memOf [3, 8, 65, 90, 179, 240, 0, 0, 0, 0, 1, 1, 7, 2, 4, 63, 128, 0, 0, 0]) 20
        ⟨0, 0, true, []⟩ = some r ∧
      recs = [(3, [65, 90, 179, 240, 0, 0, 0, 0]), (1, [7]), (2, [63, 128, 0, 0])] ∧
      r.state = ⟨7, 4607182418800017408, true, []⟩ ∧
      r.state.command_tag = (match last_record 1 recs with
        | some v => decode_int (memOf v) 0 (toInt32 (v.length : Nat)) % 2 ^ 32
        | none => 0) ∧
      r.state.calibrate = (match last_record 2 recs with
        | some v => decode_double (memOf v) 0 (toInt32 (v.length : Nat))
        | none => 0) := by
  obtain ⟨r, recs, hr, hrecs, -, -, h3, h4, -⟩ :=
    locked_tuning_ignores_frequency ⟨1, 2, 3⟩
      (memOf [3, 8, 65, 90, 179, 240, 0, 0, 0, 0, 1, 1, 7, 2, 4, 63, 128, 0, 0, 0]) 20
      ⟨0, 0, true, []⟩ rfl
  have e1 : (tlv_scan
      (record_switch (memOf [3, 8, 65, 90, 179, 240, 0, 0, 0, 0, 1, 1, 7, 2, 4, 63, 128, 0, 0, 0]))
      (memOf [3, 8, 65, 90, 179, 240, 0, 0, 0, 0, 1, 1, 7, 2, 4, 63, 128, 0, 0, 0]) 20
      ((20 : Int).toNat + 1) 0 []).map Scan.state =
      some [(3, [65, 90, 179, 240, 0, 0, 0, 0]), (1, [7]), (2, [63, 128, 0, 0])] := by decide
  have e2 : (decode_airspyhf_commands ⟨1, 2, 3⟩
      (memOf [3, 8, 65, 90, 179, 240, 0, 0, 0, 0, 1, 1, 7, 2, 4, 63, 128, 0, 0, 0]) 20
      ⟨0, 0, true, []⟩).map Scan.state = some ⟨7, 4607182418800017408, true, []⟩ := by decide
  rw [e1, Option.some.injEq] at hrecs
  rw [hr, Option.map_some', Option.some.injEq] at e2
  exact ⟨r, recs, hr, hrecs.symm, e2, h3, h4 (by decide)⟩

/-- The same command with the lock set and with the lock clear: the frequency
record reaches `set_correct_freq` only with the lock clear, the command tag 7
and the calibration are stored in both cases. -/
theorem locked_tuning_example :
    (decode_airspyhf_commands ⟨1, 2, 3⟩
        (memOf [3, 8, 65, 90, 179, 240, 0, 0, 0, 0, 1, 1, 7, 2, 4, 63, 128, 0, 0, 0]) 20
        ⟨0, 0, true, []⟩).map Scan.state = some ⟨7, 4607182418800017408, true, []⟩ ∧
    (decode_airspyhf_commands ⟨1, 2, 3⟩
        (memOf [3, 8, 65, 90, 179, 240, 0, 0, 0, 0, 1, 1, 7, 2, 4, 63, 128, 0, 0, 0]) 20
        ⟨0, 0, false, []⟩).map Scan.state =
      some ⟨7, 4607182418800017408, false, [4709274203742797824]⟩ := by
  decide

/-! ## The earlier codec -/

theorem libradio_get_ssrc_loop_succ (T : Nat) (mem : Mem) (length : Int) (fuel cp : Nat) :
    Libradio.get_ssrc_loop T mem length (fuel + 1) cp =
      if (cp : Int) < length then
        if rd mem cp = EOL then some ⟨0, cp + 1, [cp], [cp]⟩
        else
          if ((cp + 2 : Nat) : Int) + (rd mem (cp + 1) : Int) ≥ length then
            some ⟨0, cp + 2, [cp, cp + 1], [cp]⟩
          else if rd mem cp = EOL then some ⟨0, cp + 2, [cp, cp + 1], [cp]⟩
          else if rd mem cp = T then
            some ⟨toInt32 (decode_int mem (cp + 2) (toInt32 (rd mem (cp + 1)))), cp + 2,
              [cp, cp + 1] ++ value_reads (cp + 2) (rd mem (cp + 1)), [cp]⟩
          else
            (Libradio.get_ssrc_loop T mem length fuel (cp + 2 + rd mem (cp + 1))).map
              (fun r => ⟨r.state, r.cp, [cp, cp + 1] ++ r.reads, cp :: r.starts⟩)
      else some ⟨0, cp, [], []⟩ := by
  rfl

theorem libradio_get_ssrc_total (T : Nat) (mem : Mem) (length : Int) :
    ∀ (fuel cp : Nat), length.toNat - cp < fuel →
      ∃ r, Libradio.get_ssrc_loop T mem length fuel cp = some r := by
  intro fuel
  induction fuel with
  | zero => intro cp h; omega
  | succ k ih =>
    intro cp h
    rw [libradio_get_ssrc_loop_succ]
    by_cases hc : (cp : Int) < length
    · rw [if_pos hc]
      by_cases he : rd mem cp = EOL
      · rw [if_pos he]; exact ⟨_, rfl⟩
      · rw [if_neg he]
        by_cases hv : ((cp + 2 : Nat) : Int) + (rd mem (cp + 1) : Int) ≥ length
        · rw [if_pos hv]; exact ⟨_, rfl⟩
        · rw [if_neg hv, if_neg he]
          by_cases hT : rd mem cp = T
          · rw [if_pos hT]; exact ⟨_, rfl⟩
          · rw [if_neg hT]
            obtain ⟨r, hr⟩ := ih (cp + 2 + rd mem (cp + 1)) (by omega)
            exact ⟨_, by rw [hr]; rfl⟩
    · rw [if_neg hc]
      exact ⟨_, rfl⟩

theorem parse_optlen_short (mem : Mem) (cp : Nat) (h : rd mem cp < 128) :
    parse_optlen mem cp = (rd mem cp, cp + 1) := by
  unfold parse_optlen
  simp only [and_128_of_lt _ h, ne_eq, not_true_eq_false, if_false]

theorem toInt32_mod (n : Int) : toInt32 n % 2 ^ 32 = n % 2 ^ 32 := by
  unfold toInt32; omega

theorem header_two (cp : Nat) : List.range' cp (cp + 1 + 1 - cp) = [cp, cp + 1] := by
  have : cp + 1 + 1 - cp = 2 := by omega
  rw [this]; rfl

/-- On a buffer whose scan by the earlier `get_ssrc` meets no length byte with
the top bit set, the loop of the current `get_ssrc` makes the same walk. -/
theorem libradio_get_ssrc_sim (T : Nat) (mem : Mem) (length : Int) :
    ∀ (fuel cp : Nat) (r : Scan Int), Libradio.get_ssrc_loop T mem length fuel cp = some r →
      (∀ p ∈ r.starts, rd mem p ≠ EOL → rd mem (p + 1) < 128) →
      ∃ u, tlv_scan (get_ssrc_switch T mem) mem length fuel cp 0 = some u ∧
        (u.state : Int) = r.state % 2 ^ 32 ∧ u.cp = r.cp ∧ u.reads = r.reads ∧
        u.starts = r.starts := by
  intro fuel
  induction fuel with
  | zero => intro cp r h; simp [Libradio.get_ssrc_loop] at h
  | succ k ih =>
    intro cp r h hs
    rw [tlv_scan_succ]
    rw [libradio_get_ssrc_loop_succ] at h
    by_cases hc : (cp : Int) < length
    · rw [if_pos hc] at h ⊢
      by_cases he : rd mem cp = EOL
      · rw [if_pos he] at h ⊢
        simp only [Option.some.injEq] at h
        subst h
        exact ⟨_, rfl, rfl, rfl, rfl, rfl⟩
      · rw [if_neg he] at h ⊢
        by_cases hv : ((cp + 2 : Nat) : Int) + (rd mem (cp + 1) : Int) ≥ length
        · rw [if_pos hv] at h
          simp only [Option.some.injEq] at h
          subst h
          have hsmall := hs cp (List.mem_singleton.mpr rfl) he
          rw [parse_optlen_short mem (cp + 1) hsmall]
          simp only [header_two]
          rw [if_pos (by push_cast at hv ⊢; omega)]
          exact ⟨_, rfl, rfl, rfl, rfl, rfl⟩
        · rw [if_neg hv, if_neg he] at h
          by_cases hT : rd mem cp = T
          · rw [if_pos hT] at h
            simp only [Option.some.injEq] at h
            subst h
            have hsmall := hs cp (List.mem_singleton.mpr rfl) he
            rw [parse_optlen_short mem (cp + 1) hsmall]
            simp only [header_two]
            rw [if_neg (by push_cast at hv ⊢; omega)]
            simp only [get_ssrc_switch, if_neg he, if_pos hT]
            refine ⟨_, rfl, ?_, rfl, rfl, rfl⟩
            simp only [toInt32_mod]
            norm_cast
          · rw [if_neg hT] at h
            cases hrec : Libradio.get_ssrc_loop T mem length k (cp + 2 + rd mem (cp + 1)) with
            | none => rw [hrec] at h; simp at h
            | some r0 =>
              rw [hrec] at h
              simp only [Option.map_some', Option.some.injEq] at h
              subst h
              have hsmall := hs cp (List.mem_cons_self _ _) he
              obtain ⟨u0, hu0, h1, h2, h3, h4⟩ := ih (cp + 2 + rd mem (cp + 1)) r0 hrec
                (fun p hp => hs p (List.mem_cons_of_mem _ hp))
              rw [parse_optlen_short mem (cp + 1) hsmall]
              simp only [header_two]
              rw [if_neg (by push_cast at hv ⊢; omega)]
              simp only [get_ssrc_switch, if_neg he, if_neg hT]
              have hpos : cp + 1 + 1 + rd mem (cp + 1) = cp + 2 + rd mem (cp + 1) := by omega
              have hu1 : tlv_scan (get_ssrc_switch T mem) mem length k
                  (cp + 1 + 1 + rd mem (cp + 1)) 0 = some u0 := by rw [hpos]; exact hu0
              rw [hu1]
              exact ⟨_, rfl, h1, h2, by simp [h3], by simp [h4]⟩
    · rw [if_neg hc] at h ⊢
      simp only [Option.some.injEq] at h
      subst h
      exact ⟨_, rfl, rfl, rfl, rfl, rfl⟩

/-- C29: for every buffer and `length`, `get_ssrc` of `libradio/status.c`
finishes, and when every length byte its scan meets is below 128, `get_ssrc`
of `status.c` finishes too, returns the same value modulo `2 ^ 32`, stops at
the same position, and has read the same bytes in the same iterations of the
loop. -/
theorem get_ssrc_agrees_with_libradio (OUTPUT_SSRC : Nat) (mem : Mem) (length : Int) :
    ∃ r, Libradio.get_ssrc_scan OUTPUT_SSRC mem length = some r ∧
      Libradio.get_ssrc OUTPUT_SSRC mem length = some r.state ∧
      ((∀ p ∈ r.starts, rd mem p ≠ EOL → rd mem (p + 1) < 128) →
        ∃ u, get_ssrc_scan OUTPUT_SSRC mem length = some u ∧
          get_ssrc OUTPUT_SSRC mem length = some u.state ∧
          (u.state : Int) = r.state % 2 ^ 32 ∧ u.cp = r.cp ∧ u.reads = r.reads ∧
          u.starts = r.starts) := by
  obtain ⟨r, hr⟩ := libradio_get_ssrc_total OUTPUT_SSRC mem length (length.toNat + 1) 0 (by omega)
  refine ⟨r, hr, by simp [Libradio.get_ssrc, Libradio.get_ssrc_scan] at hr ⊢; simp [hr], ?_⟩
  intro hs
  obtain ⟨u, hu, h1, h2, h3, h4⟩ :=
    libradio_get_ssrc_sim OUTPUT_SSRC mem length (length.toNat + 1) 0 r hr hs
  exact ⟨u, hu, by simp [get_ssrc, get_ssrc_scan] at hu ⊢; simp [hu], h1, h2, h3, h4⟩


/-- Witness of C29 on a command with a one-byte record of tag 5 and the
`OUTPUT_SSRC` record (tag 18) of the SSRC `0xFFFFFFFE`: the earlier `get_ssrc`
returns the `int` -2, the current one the `uint32_t` 4294967294. -/
theorem get_ssrc_agrees_with_libradio_witness :
    Libradio.get_ssrc_scan 18 (memOf [5, 1, 9, 18, 4, 255, 255, 255, 254, 0]) 10 =
      some ⟨-2, 5, [0, 1, 3, 4, 5, 6, 7, 8], [0, 3]⟩ ∧
    (∀ p ∈ [0, 3], rd (memOf [5, 1, 9, 18, 4, 255, 255, 255, 254, 0]) p ≠ EOL →
      rd (memOf [5, 1, 9, 18, 4, 255, 255, 255, 254, 0]) (p + 1) < 128) ∧
    ∃ u, get_ssrc_scan 18 (memOf [5, 1, 9, 18, 4, 255, 255, 255, 254, 0]) 10 = some u ∧
      get_ssrc 18 (memOf [5, 1, 9, 18, 4, 255, 255, 255, 254, 0]) 10 = some u.state ∧
      (u.state : Int) = -2 % 2 ^ 32 ∧ u.cp = 5 ∧ u.reads = [0, 1, 3, 4, 5, 6, 7, 8] ∧
      u.starts = [0, 3] := by
  obtain ⟨r, hr, -, h⟩ :=
    get_ssrc_agrees_with_libradio 18 (memOf [5, 1, 9, 18, 4, 255, 255, 255, 254, 0]) 10
  have hr0 : Libradio.get_ssrc_scan 18 (memOf [5, 1, 9, 18, 4, 255, 255, 255, 254, 0]) 10 =
      some ⟨-2, 5, [0, 1, 3, 4, 5, 6, 7, 8], [0, 3]⟩ := by decide
  rw [hr0, Option.some.injEq] at hr
  subst hr
  exact ⟨hr0, by decide, h (by decide)⟩

/-- Where a length byte with the top bit set is met the two functions part: on
the record `18 81 01 07` followed by `EOL` the earlier `get_ssrc` takes the
byte `0x81` for a length of 129 and returns 0, the current one returns 7. -/
theorem get_ssrc_long_length_example :
    Libradio.get_ssrc 18 (memOf [18, 129, 1, 7, 0]) 5 = some 0 ∧
    get_ssrc 18 (memOf [18, 129, 1, 7, 0]) 5 = some 7 := by
  decide

theorem libradio_encode_string_eq (type : Nat) (s : List Nat) (hn : s.length < 2 ^ 31) :
    Libradio.encode_string type s =
      some ⟨type % 256 :: min s.length 255 :: s.take 255, 2 + ((min s.length 255 : Nat) : Int)⟩ := by
  unfold Libradio.encode_string
  rw [toInt32_of_lt _ hn]
  by_cases h : s.length ≤ 255
  · have h1 : ¬ ((s.length : Int) > 255) := by omega
    have h2 : ¬ ((s.length : Int) < 0) := by omega
    have h3 : ((s.length : Int) % 256).toNat = s.length := by omega
    have h4 : min s.length 255 = s.length := by omega
    simp only [h1, if_false, h2, h3, h4, Int.toNat_ofNat, List.take_length]
    rw [List.take_of_length_le h]
  · have h1 : (s.length : Int) > 255 := by omega
    have h4 : min s.length 255 = 255 := by omega
    simp only [h1, if_true, h4]
    rfl

/-- C28, the claim at failing inputs.  For a string of 130 bytes `encode_string`
of `libradio/status.c` writes the single length byte 130, which the length rule
reads as the escape `0x82`: it takes the first two bytes of the string for the
length (here 1799) and places the value two bytes later.  For a string of 300
bytes it writes the length byte 255 and only the first 255 bytes. -/
theorem libradio_encode_string_counterexample :
    Libradio.encode_string 14 (List.replicate 130 7) =
      some ⟨14 :: 130 :: List.replicate 130 7, 132⟩ ∧
    parse_optlen (memOf (14 :: 130 :: List.replicate 130 7)) 1 = (1799, 4) ∧
    Libradio.encode_string 14 (List.replicate 300 7) =
      some ⟨14 :: 255 :: List.replicate 255 7, 257⟩ := by
  refine ⟨?_, by decide, ?_⟩
  · rw [libradio_encode_string_eq _ _ (by rw [List.length_replicate]; norm_num),
      List.length_replicate, List.take_replicate]
    rfl
  · rw [libradio_encode_string_eq _ _ (by rw [List.length_replicate]; norm_num),
      List.length_replicate, List.take_replicate]
    rfl

/-- C28 as amended: for every byte string of length `n < 2 ^ 31`,
`encode_string` of `libradio/status.c` writes the tag, the single length byte
`min(n, 255)` and the first `min(n, 255)` bytes of the string, and returns
`2 + min(n, 255)`; for `n < 128` the record is the one the current
`encode_string` writes, and wherever it is stored the length rule of the
walkers recovers `n`, the position of the string and its `n` bytes. -/
theorem libradio_encode_string_layout (type : Nat) (s : List Nat) (hn : s.length < 2 ^ 31)
    (hb : ∀ b ∈ s, b < 256) :
    Libradio.encode_string type s =
      some ⟨type % 256 :: min s.length 255 :: s.take 255, 2 + ((min s.length 255 : Nat) : Int)⟩ ∧
    (s.length < 128 →
      Libradio.encode_string type s = some ⟨type % 256 :: s.length :: s, 2 + (s.length : Int)⟩ ∧
      (encode_string type s).bytes = type % 256 :: s.length :: s ∧
      ∀ (mem : Mem) (cp : Nat), MemHas mem cp (type % 256 :: s.length :: s) →
        parse_optlen mem (cp + 1) = (s.length, cp + 2) ∧ MemHas mem (cp + 2) s ∧
        (List.range s.length).map (fun i => rd mem (cp + 2 + i)) = s) := by
  refine ⟨libradio_encode_string_eq type s hn, fun hlt => ?_⟩
  obtain ⟨lb, hbytes, hshort, -, -, -, hp, -, -⟩ := encode_string_record type s (by omega)
  have hlb := hshort hlt
  subst hlb
  have hmin : min s.length 255 = s.length := by omega
  refine ⟨?_, by simpa using hbytes, ?_⟩
  · rw [libradio_encode_string_eq type s hn, hmin, List.take_of_length_le (by omega)]
  · intro mem cp hm
    have hm2 : MemHas mem cp (encode_string type s).bytes := by rw [hbytes]; simpa using hm
    obtain ⟨p1, p2⟩ := hp mem cp hm2
    simp only [List.length_singleton] at p1 p2
    exact ⟨p1, p2, map_rd_self mem (cp + 2) s hb p2⟩

/-- Witness of the amended C28 at the two-byte string `rx`. -/
theorem libradio_encode_string_layout_witness :
    Libradio.encode_string 14 [114, 120] = some ⟨[14, 2, 114, 120], 4⟩ ∧
    parse_optlen (memOf [14, 2, 114, 120]) (0 + 1) = (2, 0 + 2) ∧
    (List.range 2).map (fun i => rd (memOf [14, 2, 114, 120]) (0 + 2 + i)) = [114, 120] := by
  have h := (libradio_encode_string_layout 14 [114, 120] (by decide) (by decide)).2 (by decide)
  have h2 := h.2.2 (memOf [14, 2, 114, 120]) 0 (memOf_has _)
  exact ⟨h.1, h2.1, h2.2.2⟩

/-! ## The poll command -/

theorem send_poll_eq (S C : Nat) (ssrc : Int) (random : Nat) (hr : random < 2 ^ 31) :
    send_poll S C ssrc random = ⟨1 :: encode_message (poll_fields S C ssrc random), random⟩ := by
  have h1 : random % 2 ^ 32 = random := Nat.mod_eq_of_lt (by omega)
  have h2 : ((toInt32 (random : Int)) % 2 ^ 64).toNat = random := by
    unfold toInt32; omega
  unfold send_poll poll_fields
  simp only [h1, encode_int, h2]
  split <;> simp [encode_message, Field.encode]

theorem frame_records_cons (b : Nat) (fs : List Field) (hok : ∀ x ∈ fs, x.WellTyped) :
    frame_records (b :: encode_message fs) = some (fs.map (fun x => (x.tag, x.value))) := by
  unfold frame_records
  simp only [List.tail_cons]
  have h := walk_records (memOf (encode_message fs)) (encode_message fs).length fs 0
    ((encode_message fs).length + 1) [] hok (memOf_has _) (by omega)
    (by have := length_le_encode_message fs; omega)
  simpa using h

theorem poll_fields_ok (S C : Nat) (ssrc : Int) (random : Nat)
    (hS : 0 < S ∧ S < 256) (hC : 0 < C ∧ C < 256) (hr : random < 2 ^ 31) :
    ∀ x ∈ poll_fields S C ssrc random, x.WellTyped := by
  intro x hx
  unfold poll_fields at hx
  have h64 : (ssrc % 2 ^ 64).toNat < 2 ^ 64 := by omega
  split at hx
  · simp only [List.singleton_append, List.mem_cons, List.mem_singleton, List.not_mem_nil,
      or_false] at hx
    rcases hx with rfl | rfl
    · exact ⟨hS.1, hS.2, h64⟩
    · exact ⟨hC.1, hC.2, by omega⟩
  · simp only [List.nil_append, List.mem_singleton] at hx
    subst hx
    exact ⟨hC.1, hC.2, by omega⟩

theorem poll_length (S C : Nat) (ssrc : Int) (random : Nat) (hr : random < 2 ^ 31) :
    (encode_message (poll_fields S C ssrc random)).length ≤ 17 := by
  have h64 : (ssrc % 2 ^ 64).toNat < 2 ^ 64 := by omega
  have a := (encode_int64_length_le S (ssrc % 2 ^ 64).toNat h64).1
  have b := (encode_int64_length_le C random (by omega)).2 (by omega)
  unfold poll_fields
  split
  · simp only [List.singleton_append, encode_message, Field.encode, encode_eol, List.length_append,
      List.length_singleton]
    omega
  · simp only [List.nil_append, encode_message, Field.encode, encode_eol, List.length_append,
      List.length_singleton]
    omega


theorem poll_first_numbers (S C : Nat) (ssrc : Int) (random : Nat) (hne : S ≠ C)
    (hr : random < 2 ^ 31) :
    first_number C (poll_fields S C ssrc random) = random ∧
    first_number S (poll_fields S C ssrc random) = (ssrc % 2 ^ 32).toNat := by
  have h1 : random % 2 ^ 32 = random := Nat.mod_eq_of_lt (by omega)
  have h2 : (ssrc % 2 ^ 64).toNat % 2 ^ 32 = (ssrc % 2 ^ 32).toNat := by omega
  unfold poll_fields
  by_cases h0 : ssrc = 0
  · subst h0
    simp only [ne_eq, not_true_eq_false, if_false, List.nil_append, first_number, Field.tag,
      Field.number, if_true, h1, if_neg (Ne.symm hne)]
    simp
  · simp only [ne_eq, h0, not_false_eq_true, if_true, List.singleton_append, first_number,
      Field.tag, Field.number, h1, h2, if_neg hne]
    simp

/-- C30: for every `int ssrc` and every value below `2 ^ 31` of `random()`, with
distinct tags `OUTPUT_SSRC` and `COMMAND_TAG` that are bytes other than `EOL`,
`send_poll` returns the tag and assembles the byte 1, the `encode_int64` record
of `ssrc` (as a `uint64_t`) under `OUTPUT_SSRC` if and only if `ssrc != 0`, the
record of the tag under `COMMAND_TAG`, and `EOL`; the walkers see exactly these
records; the command has at most 18 bytes; on the bytes after the leading 1
`get_tag` returns the tag and `get_ssrc` returns `ssrc` modulo `2 ^ 32`, which
is 0 when `ssrc = 0`. -/
theorem send_poll_parses (OUTPUT_SSRC COMMAND_TAG : Nat) (ssrc : Int) (random : Nat)
    (hS : 0 < OUTPUT_SSRC ∧ OUTPUT_SSRC < 256) (hC : 0 < COMMAND_TAG ∧ COMMAND_TAG < 256)
    (hne : OUTPUT_SSRC ≠ COMMAND_TAG) (hs : -2 ^ 31 ≤ ssrc ∧ ssrc < 2 ^ 31)
    (hr : random < 2 ^ 31) :
    (send_poll OUTPUT_SSRC COMMAND_TAG ssrc random).tag = random ∧
    (send_poll OUTPUT_SSRC COMMAND_TAG ssrc random).packet =
      1 :: ((if ssrc ≠ 0 then (encode_int64 OUTPUT_SSRC (ssrc % 2 ^ 64).toNat).bytes else []) ++
        (encode_int64 COMMAND_TAG random).bytes ++ [EOL]) ∧
    frame_records (send_poll OUTPUT_SSRC COMMAND_TAG ssrc random).packet =
      some ((if ssrc ≠ 0 then
          [(OUTPUT_SSRC, (encode_int64 OUTPUT_SSRC (ssrc % 2 ^ 64).toNat).bytes.drop 2)]
        else []) ++ [(COMMAND_TAG, (encode_int64 COMMAND_TAG random).bytes.drop 2)]) ∧
    (send_poll OUTPUT_SSRC COMMAND_TAG ssrc random).packet.length ≤ 18 ∧
    get_tag COMMAND_TAG (memOf (send_poll OUTPUT_SSRC COMMAND_TAG ssrc random).packet.tail)
      (((send_poll OUTPUT_SSRC COMMAND_TAG ssrc random).packet.length : Int) - 1) = some random ∧
    get_ssrc OUTPUT_SSRC (memOf (send_poll OUTPUT_SSRC COMMAND_TAG ssrc random).packet.tail)
      (((send_poll OUTPUT_SSRC COMMAND_TAG ssrc random).packet.length : Int) - 1) =
        some (ssrc % 2 ^ 32).toNat ∧
    ((ssrc % 2 ^ 32).toNat = 0 ↔ ssrc = 0) := by
  have hok := poll_fields_ok OUTPUT_SSRC COMMAND_TAG ssrc random hS hC hr
  have hlen := poll_length OUTPUT_SSRC COMMAND_TAG ssrc random hr
  have hfn := poll_first_numbers OUTPUT_SSRC COMMAND_TAG ssrc random hne hr
  have hfl := length_le_encode_message (poll_fields OUTPUT_SSRC COMMAND_TAG ssrc random)
  rw [send_poll_eq OUTPUT_SSRC COMMAND_TAG ssrc random hr]
  simp only [List.tail_cons, List.length_cons, Nat.cast_add, Nat.cast_one, add_sub_cancel_right]
  refine ⟨trivial, ?_, ?_, by omega, ?_, ?_, by omega⟩
  · unfold poll_fields
    split <;> simp [encode_message, Field.encode, encode_eol]
  · rw [frame_records_cons _ _ hok]
    unfold poll_fields
    split <;> simp [Field.tag, Field.value]
  · unfold get_tag get_tag_scan
    simp only [Int.toNat_ofNat]
    rw [walk_first COMMAND_TAG _ _ (by omega) _ 0 _ hok (memOf_has _) (by omega) (by omega),
      hfn.1]
  · unfold get_ssrc get_ssrc_scan
    simp only [Int.toNat_ofNat, get_ssrc_switch_eq]
    rw [walk_first OUTPUT_SSRC _ _ (by omega) _ 0 _ hok (memOf_has _) (by omega) (by omega),
      hfn.2]

/-- Witness of C30 at the SSRC `-2` (`0xFFFFFFFE` as a `uint32_t`) and the tag
`0x12345678`, under the tags 18 for `OUTPUT_SSRC` and 1 for `COMMAND_TAG`. -/
theorem send_poll_parses_witness :
    (send_poll 18 1 (-2) 305419896).packet =
      [1, 18, 8, 255, 255, 255, 255, 255, 255, 255, 254, 1, 4, 18, 52, 86, 120, 0] ∧
    get_tag 1 (memOf (send_poll 18 1 (-2) 305419896).packet.tail)
      (((send_poll 18 1 (-2) 305419896).packet.length : Int) - 1) = some 305419896 ∧
    get_ssrc 18 (memOf (send_poll 18 1 (-2) 305419896).packet.tail)
      (((send_poll 18 1 (-2) 305419896).packet.length : Int) - 1) = some 4294967294 := by
  have h := send_poll_parses 18 1 (-2) 305419896 (by decide) (by decide) (by decide)
    (by decide) (by decide)
  exact ⟨by decide, h.2.2.2.2.1, h.2.2.2.2.2.1⟩

/-! ## The PLL lock detector and the AGC of the linear demodulator -/

theorem int_checked_some (n m : Int) (h : int_checked n = some m) :
    m = n ∧ -2 ^ 31 ≤ n ∧ n < 2 ^ 31 := by
  unfold int_checked at h
  split at h
  · simp only [Option.some.injEq] at h
    exact ⟨h.symm, by assumption⟩
  · simp at h

theorem int_checked_of_range (n : Int) (h : -2 ^ 31 ≤ n ∧ n < 2 ^ 31) : int_checked n = some n := by
  unfold int_checked
  rw [if_pos h]

/-- The value stored in `sig.snr` is never below zero: the comparison
`snr < 0` of the lock detector is false in every block. -/
theorem snr_never_negative {F : Type} [LinearOrderedField F] (signal noise : F) :
    snr_negative (pll_snr signal noise) = false := by
  unfold pll_snr
  split
  · simp only [snr_negative, decide_eq_false_iff_not, not_lt]
    split
    · exact le_refl _
    · next h => exact not_lt.mp h
  · rfl

theorem snr_positive_blocklen {F : Type} [LinearOrderedField F] (s : Nat → F × F) (N : Int)
    (h : snr_positive (pll_snr (pll_energy s N.toNat).1 (pll_energy s N.toNat).2) = true) :
    0 < N := by
  by_contra hN
  have h0 : N.toNat = 0 := by omega
  rw [h0] at h
  simp [pll_energy, pll_snr, snr_positive] at h

/-- What the PLL pass leaves in the lock detector. -/
theorem pll_pass_spec {F : Type} [LinearOrderedField F] (L N : Int) (s : Nat → F × F)
    (chan c : Channel F) (hp : chan.pll = true) (h : pll_pass L N s chan = some c) :
    ∃ lc1 : Int, -2 ^ 31 < L ∧
      ((lc1 = chan.lock_count ∧
          snr_positive (pll_snr (pll_energy s N.toNat).1 (pll_energy s N.toNat).2) = false) ∨
        (lc1 = chan.lock_count + N ∧ 0 < N ∧ lc1 < 2 ^ 31 ∧
          snr_positive (pll_snr (pll_energy s N.toNat).1 (pll_energy s N.toNat).2) = true)) ∧
      ((c.pll_lock = true ∧ c.lock_count = L ∧ L ≤ lc1 ∧ -L < L) ∨
        (c.pll_lock = false ∧ c.lock_count = -L ∧ (lc1 ≤ -L ∨ (L ≤ lc1 ∧ L ≤ -L))) ∨
        (c.pll_lock = chan.pll_lock ∧ c.lock_count = lc1 ∧ -L < lc1 ∧ lc1 < L)) ∧
      c.lock_timer = ((int_to_float c.lock_count : Int) : F) ∧
      c.snr = pll_snr (pll_energy s N.toNat).1 (pll_energy s N.toNat).2 ∧
      c.pll = true ∧ c.was_on = true ∧ c.agc = chan.agc ∧ c.env = chan.env ∧
      c.channels = chan.channels ∧ c.min_IF = chan.min_IF ∧ c.max_IF = chan.max_IF ∧
      c.n0 = chan.n0 ∧ c.bb_power = chan.bb_power ∧ c.threshold = chan.threshold ∧
      c.recovery_rate = chan.recovery_rate ∧ c.hangtime = chan.hangtime ∧
      c.hangcount = chan.hangcount ∧ c.gain = chan.gain ∧ c.headroom = chan.headroom := by
  unfold pll_pass at h
  rw [if_pos hp] at h
  simp only [snr_never_negative, Bool.false_eq_true, if_false] at h
  cases hcount : (if snr_positive (pll_snr (pll_energy s N.toNat).1 (pll_energy s N.toNat).2) = true
      then int_checked (chan.lock_count + N) else some chan.lock_count) with
  | none => rw [hcount] at h; simp at h
  | some lc1 =>
    rw [hcount] at h
    cases hlow : int_checked (-L) with
    | none => rw [hlow] at h; simp at h
    | some low =>
      rw [hlow] at h
      simp only [Option.some_bind, Option.some.injEq] at h
      obtain ⟨hl1, hl2, hl3⟩ := int_checked_some _ _ hlow
      subst hl1
      have hlc : (lc1 = chan.lock_count ∧
            snr_positive (pll_snr (pll_energy s N.toNat).1 (pll_energy s N.toNat).2) = false) ∨
          (lc1 = chan.lock_count + N ∧ 0 < N ∧ lc1 < 2 ^ 31 ∧
            snr_positive (pll_snr (pll_energy s N.toNat).1 (pll_energy s N.toNat).2) = true) := by
        split at hcount
        · next hpos =>
          obtain ⟨e1, e2, e3⟩ := int_checked_some _ _ hcount
          exact Or.inr ⟨e1, snr_positive_blocklen s N hpos, by omega, hpos⟩
        · next hneg =>
          simp only [Option.some.injEq] at hcount
          exact Or.inl ⟨hcount.symm, by simpa using hneg⟩
      subst h
      refine ⟨lc1, by omega, hlc, ?_, rfl, rfl, hp, rfl, rfl, rfl, rfl, rfl, rfl, rfl, rfl, rfl, rfl,
        rfl, rfl, rfl, rfl⟩
      simp only
      by_cases h1 : lc1 ≥ L
      · rw [if_pos h1]
        by_cases h2 : L ≤ -L
        · rw [if_pos h2]
          exact Or.inr (Or.inl ⟨rfl, rfl, Or.inr ⟨h1, h2⟩⟩)
        · rw [if_neg h2]
          exact Or.inl ⟨rfl, rfl, h1, by omega⟩
      · rw [if_neg h1]
        by_cases h2 : lc1 ≤ -L
        · rw [if_pos h2]
          exact Or.inr (Or.inl ⟨rfl, rfl, Or.inl h2⟩)
        · rw [if_neg h2]
          exact Or.inr (Or.inr ⟨rfl, rfl, by omega, by omega⟩)

theorem pll_pass_off {F : Type} [LinearOrderedField F] (L N : Int) (s : Nat → F × F)
    (chan : Channel F) (hp : chan.pll = false) :
    pll_pass L N s chan = some { chan with was_on := false } := by
  unfold pll_pass
  rw [hp]
  rfl


/-- A pass over a block is the PLL pass followed by the AGC decision and the
output pass, which leave the lock detector alone. -/
theorem demod_linear_block_parts {F : Type} [LinearOrderedField F] [FloorRing F]
    (sqrtf : F → F) (powf : F → F → F) (L : Int) (b : Block F) (chan c : Channel F)
    (h : demod_linear_block sqrtf powf L b chan = some c) :
    ∃ c1 d, pll_pass L b.N b.s { chan with bb_power := b.bb_power, n0 := b.n0 } = some c1 ∧
      agc_decision sqrtf powf b.N c1 = some d ∧
      c = { c1 with hangcount := d.2, gain := output_pass_gain b.N d.1 c1 } := by
  unfold demod_linear_block at h
  simp only at h
  cases h1 : pll_pass L b.N b.s { chan with bb_power := b.bb_power, n0 := b.n0 } with
  | none => rw [h1] at h; simp at h
  | some c1 =>
    rw [h1] at h
    simp only [Option.some_bind] at h
    cases h2 : agc_decision sqrtf powf b.N c1 with
    | none => rw [h2] at h; simp at h
    | some d =>
      rw [h2] at h
      simp only [Option.map_some', Option.some.injEq] at h
      exact ⟨c1, d, rfl, h2, h.symm⟩

theorem agc_decision_defined {F : Type} [LinearOrderedField F] [FloorRing F]
    (sqrtf : F → F) (powf : F → F → F) (N : Int) (chan : Channel F) (k : Int)
    (hk : float_to_int chan.hangtime = some k) :
    ∃ d, agc_decision sqrtf powf N chan = some d := by
  unfold agc_decision
  simp only [hk, Option.map_some']
  split
  · split
    · exact ⟨_, rfl⟩
    · split
      · exact ⟨_, rfl⟩
      · split
        · exact ⟨_, rfl⟩
        · exact ⟨_, rfl⟩
  · exact ⟨_, rfl⟩

theorem pll_pass_defined {F : Type} [LinearOrderedField F] (L N : Int) (s : Nat → F × F)
    (chan : Channel F) (hL : -2 ^ 31 < L ∧ L < 2 ^ 31)
    (hsum : snr_positive (pll_snr (pll_energy s N.toNat).1 (pll_energy s N.toNat).2) = true →
      -2 ^ 31 ≤ chan.lock_count + N ∧ chan.lock_count + N < 2 ^ 31) :
    ∃ c, pll_pass L N s chan = some c := by
  unfold pll_pass
  split
  · simp only [snr_never_negative, Bool.false_eq_true, if_false]
    rw [int_checked_of_range (-L) (by omega)]
    split
    · next hpos =>
      rw [int_checked_of_range _ (hsum hpos)]
      exact ⟨_, rfl⟩
    · exact ⟨_, rfl⟩
  · exact ⟨_, rfl⟩

/-- A pass over a block is defined when the lock limit is an `int` other than
`INT_MIN`, the sum `lock_count + N` fits an `int` where it is computed, and `hangtime` converts to
an `int`. -/
theorem demod_linear_block_defined {F : Type} [LinearOrderedField F] [FloorRing F]
    (sqrtf : F → F) (powf : F → F → F) (L : Int) (b : Block F) (chan : Channel F) (k : Int)
    (hL : -2 ^ 31 < L ∧ L < 2 ^ 31)
    (hsum : snr_positive (pll_snr (pll_energy b.s b.N.toNat).1 (pll_energy b.s b.N.toNat).2) = true →
      -2 ^ 31 ≤ chan.lock_count + b.N ∧ chan.lock_count + b.N < 2 ^ 31)
    (hk : float_to_int chan.hangtime = some k) :
    ∃ c, demod_linear_block sqrtf powf L b chan = some c := by
  obtain ⟨c1, h1⟩ := pll_pass_defined L b.N b.s { chan with bb_power := b.bb_power, n0 := b.n0 }
    hL hsum
  have hh : c1.hangtime = chan.hangtime := by
    by_cases hp : chan.pll = true
    · obtain ⟨-, -, -, -, -, -, -, -, -, -, -, -, -, -, -, -, -, e, -⟩ :=
        pll_pass_spec L b.N b.s { chan with bb_power := b.bb_power, n0 := b.n0 } c1 hp h1
      exact e
    · rw [pll_pass_off _ _ _ _ (by simpa using hp)] at h1
      simp only [Option.some.injEq] at h1
      subst h1
      rfl
  obtain ⟨d, h2⟩ := agc_decision_defined sqrtf powf b.N c1 k (by rw [hh]; exact hk)
  unfold demod_linear_block
  simp only [h1, Option.some_bind, h2, Option.map_some']
  exact ⟨_, rfl⟩


theorem int_to_float_exact (n : Int) (h : n.natAbs ≤ 2 ^ 24) : int_to_float n = n := by
  unfold int_to_float
  rcases Nat.lt_or_ge n.natAbs (2 ^ 24) with h1 | h1
  · have hq : float_scale 32 n.natAbs = 1 := by
      unfold float_scale
      rw [if_pos h1]
    simp only [hq, Nat.div_one, Nat.mod_one, mul_zero, gt_iff_lt, Nat.not_lt_zero, false_or,
      mul_one]
    have : ¬ ((0 : Nat) = 1 ∧ n.natAbs % 2 = 1) := by omega
    rw [if_neg this]
    exact Int.sign_mul_natAbs n
  · have he : n.natAbs = 2 ^ 24 := by omega
    rw [he]
    have hq : float_scale 32 (2 ^ 24) = 2 := by decide
    simp only [hq]
    have : n.sign * ((2 ^ 24 : Nat) : Int) = n := by
      rw [← he]; exact Int.sign_mul_natAbs n
    simpa using this

/-- The lock detector after a pass over a block with the PLL enabled. -/
theorem lock_detector_after_block {F : Type} [LinearOrderedField F] [FloorRing F]
    (sqrtf : F → F) (powf : F → F → F) (L : Int) (b : Block F) (chan c : Channel F)
    (hp : chan.pll = true) (h : demod_linear_block sqrtf powf L b chan = some c) :
    ∃ lc1 : Int, -2 ^ 31 < L ∧
      ((lc1 = chan.lock_count ∧
          snr_positive (pll_snr (pll_energy b.s b.N.toNat).1 (pll_energy b.s b.N.toNat).2) = false) ∨
        (lc1 = chan.lock_count + b.N ∧ 0 < b.N ∧ lc1 < 2 ^ 31 ∧
          snr_positive (pll_snr (pll_energy b.s b.N.toNat).1 (pll_energy b.s b.N.toNat).2) = true)) ∧
      ((c.pll_lock = true ∧ c.lock_count = L ∧ L ≤ lc1 ∧ -L < L) ∨
        (c.pll_lock = false ∧ c.lock_count = -L ∧ (lc1 ≤ -L ∨ (L ≤ lc1 ∧ L ≤ -L))) ∨
        (c.pll_lock = chan.pll_lock ∧ c.lock_count = lc1 ∧ -L < lc1 ∧ lc1 < L)) ∧
      c.lock_timer = ((int_to_float c.lock_count : Int) : F) ∧ c.pll = true ∧
      c.hangtime = chan.hangtime := by
  obtain ⟨c1, d, h1, -, rfl⟩ := demod_linear_block_parts sqrtf powf L b chan c h
  obtain ⟨lc1, e1, e2, e3, e4, -, e5, -, -, -, -, -, -, -, -, -, -, e6, -⟩ :=
    pll_pass_spec L b.N b.s { chan with bb_power := b.bb_power, n0 := b.n0 } c1 hp h1
  exact ⟨lc1, e1, e2, e3, e4, e5, e6⟩

/-- A pass over a block with the PLL disabled leaves the lock detector alone. -/
theorem lock_detector_off {F : Type} [LinearOrderedField F] [FloorRing F]
    (sqrtf : F → F) (powf : F → F → F) (L : Int) (b : Block F) (chan c : Channel F)
    (hp : chan.pll = false) (h : demod_linear_block sqrtf powf L b chan = some c) :
    c.pll_lock = chan.pll_lock ∧ c.lock_count = chan.lock_count ∧
      c.lock_timer = chan.lock_timer ∧ c.pll = false ∧ c.hangtime = chan.hangtime := by
  obtain ⟨c1, d, h1, -, rfl⟩ := demod_linear_block_parts sqrtf powf L b chan c h
  rw [pll_pass_off _ _ _ _ (by simpa using hp)] at h1
  simp only [Option.some.injEq] at h1
  subst h1
  exact ⟨rfl, rfl, rfl, hp, rfl⟩

/-- C22 as amended: for `lock_limit > 0`, any prior `lock_count` and any block
on which the pass is defined (no `int` overflow), after a pass with the PLL
enabled `-lock_limit <= lock_count <= lock_limit`, `lock_timer` is `lock_count`
converted to `float`, which equals `lock_count` when `lock_limit <= 2 ^ 24`,
`lock_count = lock_limit` implies that `pll_lock` is set and
`lock_count = -lock_limit` that it is clear.  The pass is defined when
`lock_limit` and `lock_count + N` fit an `int` and `hangtime` converts to one. -/
theorem lock_count_clamped {F : Type} [LinearOrderedField F] [FloorRing F]
    (sqrtf : F → F) (powf : F → F → F) (lock_limit : Int) (b : Block F) (chan : Channel F)
    (hL : 0 < lock_limit) (hp : chan.pll = true) :
    (∀ k : Int, lock_limit < 2 ^ 31 →
      (-2 ^ 31 ≤ chan.lock_count + b.N ∧ chan.lock_count + b.N < 2 ^ 31) →
      float_to_int chan.hangtime = some k →
      ∃ c, demod_linear_block sqrtf powf lock_limit b chan = some c) ∧
    ∀ c, demod_linear_block sqrtf powf lock_limit b chan = some c →
      (-lock_limit ≤ c.lock_count ∧ c.lock_count ≤ lock_limit) ∧
      c.lock_timer = ((int_to_float c.lock_count : Int) : F) ∧
      (lock_limit ≤ 2 ^ 24 → c.lock_timer = (c.lock_count : F)) ∧
      (c.lock_count = lock_limit → c.pll_lock = true) ∧
      (c.lock_count = -lock_limit → c.pll_lock = false) := by
  refine ⟨fun k h1 h2 h3 =>
    demod_linear_block_defined sqrtf powf lock_limit b chan k ⟨by omega, h1⟩ (fun _ => h2) h3, ?_⟩
  intro c h
  obtain ⟨lc1, e1, e2, e3, e4, -, -⟩ :=
    lock_detector_after_block sqrtf powf lock_limit b chan c hp h
  refine ⟨by omega, e4, ?_, ?_, ?_⟩
  · intro h24
    rw [e4, int_to_float_exact c.lock_count (by omega)]
  · intro hc
    rcases e3 with ⟨a, -⟩ | ⟨-, a, -⟩ | ⟨-, a, -, a2⟩
    · exact a
    · omega
    · omega
  · intro hc
    rcases e3 with ⟨-, a, -⟩ | ⟨a, -⟩ | ⟨-, a, a2, -⟩
    · omega
    · exact a
    · omega

/-- C23: the value of `pll_lock` after a pass over a block differs from the
value before only if the PLL is enabled and `lock_count` ends the pass at
`+lock_limit` (clear to set) or at `-lock_limit` (set to clear); and when the
next block has `N < 2 * lock_limit`, the pass over it leaves `pll_lock` as the
flip set it. -/
theorem pll_lock_flips_at_extremes {F : Type} [LinearOrderedField F] [FloorRing F]
    (sqrtf : F → F) (powf : F → F → F) (lock_limit : Int) (b : Block F) (chan c : Channel F)
    (h : demod_linear_block sqrtf powf lock_limit b chan = some c) :
    (c.pll_lock ≠ chan.pll_lock →
      chan.pll = true ∧
      ((chan.pll_lock = false ∧ c.pll_lock = true ∧ c.lock_count = lock_limit) ∨
        (chan.pll_lock = true ∧ c.pll_lock = false ∧ c.lock_count = -lock_limit))) ∧
    ∀ (b2 : Block F) (c2 : Channel F), c.pll_lock ≠ chan.pll_lock → b2.N < 2 * lock_limit →
      demod_linear_block sqrtf powf lock_limit b2 c = some c2 → c2.pll_lock = c.pll_lock := by
  by_cases hp : chan.pll = true
  · obtain ⟨lc1, e1, e2, e3, -, e5, -⟩ :=
      lock_detector_after_block sqrtf powf lock_limit b chan c hp h
    constructor
    · intro hne
      refine ⟨hp, ?_⟩
      rcases e3 with ⟨a1, a2, -⟩ | ⟨a1, a2, -⟩ | ⟨a1, -⟩
      · left
        refine ⟨?_, a1, a2⟩
        cases hb : chan.pll_lock
        · rfl
        · rw [a1, hb] at hne; exact absurd rfl hne
      · right
        refine ⟨?_, a1, a2⟩
        cases hb : chan.pll_lock
        · rw [a1, hb] at hne; exact absurd rfl hne
        · rfl
      · exact absurd a1 hne
    · intro b2 c2 hne hN h2
      obtain ⟨lc2, f1, f2, f3, -⟩ :=
        lock_detector_after_block sqrtf powf lock_limit b2 c c2 e5 h2
      rcases e3 with ⟨a1, a2, -, a4⟩ | ⟨a1, a2, -⟩ | ⟨a1, -⟩
      · rcases f3 with ⟨g1, -⟩ | ⟨-, -, g3⟩ | ⟨g1, -⟩
        · rw [g1, a1]
        · omega
        · exact g1
      · rcases f3 with ⟨-, -, g3, g4⟩ | ⟨g1, -⟩ | ⟨g1, -⟩
        · omega
        · rw [g1, a1]
        · exact g1
      · exact absurd a1 hne
  · have hp2 : chan.pll = false := by simpa using hp
    obtain ⟨e1, -⟩ := lock_detector_off sqrtf powf lock_limit b chan c hp2 h
    exact ⟨fun hne => absurd e1 hne, fun _ _ hne => absurd e1 hne⟩

theorem pll_energy_const {F : Type} [LinearOrderedField F] (a b : F) (n : Nat) :
    pll_energy (fun _ => (a, b)) n = ((n : F) * (a * a), (n : F) * (b * b)) := by
  induction n with
  | zero => simp [pll_energy]
  | succ k ih =>
    simp only [pll_energy, ih, Nat.cast_succ]
    refine Prod.ext ?_ ?_ <;> simp only <;> ring

theorem gain_loop_eq {F : Type} [LinearOrderedField F] (gain_change : F) : ∀ (n : Nat) (gain : F),
    gain_loop gain_change n gain = gain * gain_change ^ n := by
  intro n
  induction n with
  | zero => intro gain; simp [gain_loop]
  | succ k ih => intro gain; simp only [gain_loop, ih]; ring

theorem output_pass_gain_eq {F : Type} [LinearOrderedField F] (N : Int) (gain_change : F)
    (chan : Channel F) : output_pass_gain N gain_change chan = chan.gain * gain_change ^ N.toNat := by
  unfold output_pass_gain
  simp only [gain_loop_eq, ite_self]

/-- A block measured with more noise than signal leaves `sig.snr` at zero. -/
theorem pll_snr_low {F : Type} [LinearOrderedField F] (signal noise : F) (hn : noise ≠ 0)
    (hlow : signal / noise - 1 < 0) : pll_snr signal noise = some 0 := by
  unfold pll_snr
  rw [if_pos hn]
  simp only [hlow, if_true]

/-- A pass over a block measured with more noise than signal, with the loop
locked and the counter at the limit: the counter and the lock stay. -/
theorem locked_block_low_snr {F : Type} [LinearOrderedField F] [FloorRing F]
    (sqrtf : F → F) (powf : F → F → F) (L : Int) (b : Block F) (chan : Channel F) (k : Int)
    (hL : 0 < L ∧ L < 2 ^ 31) (hp : chan.pll = true) (hlock : chan.pll_lock = true)
    (hcount : chan.lock_count = L) (hk : float_to_int chan.hangtime = some k)
    (hn : (pll_energy b.s b.N.toNat).2 ≠ 0)
    (hlow : (pll_energy b.s b.N.toNat).1 / (pll_energy b.s b.N.toNat).2 - 1 < 0) :
    ∃ c, demod_linear_block sqrtf powf L b chan = some c ∧ c.pll = true ∧ c.pll_lock = true ∧
      c.lock_count = L ∧ c.hangtime = chan.hangtime := by
  have hsnr := pll_snr_low _ _ hn hlow
  have hnp : snr_positive (pll_snr (pll_energy b.s b.N.toNat).1 (pll_energy b.s b.N.toNat).2) =
      false := by
    rw [hsnr]; simp [snr_positive]
  obtain ⟨c, hc⟩ := demod_linear_block_defined sqrtf powf L b chan k ⟨by omega, hL.2⟩
    (fun h => by rw [hnp] at h; exact absurd h (by simp)) hk
  obtain ⟨lc1, -, e2, e3, -, e5, e6⟩ := lock_detector_after_block sqrtf powf L b chan c hp hc
  have hlc : lc1 = L := by
    rcases e2 with ⟨a, -⟩ | ⟨-, -, -, a⟩
    · rw [a, hcount]
    · rw [hnp] at a; exact absurd a (by simp)
  refine ⟨c, hc, e5, ?_, ?_, e6⟩
  · rcases e3 with ⟨a, -⟩ | ⟨-, -, a⟩ | ⟨a, -⟩
    · exact a
    · omega
    · rw [a, hlock]
  · rcases e3 with ⟨-, a, -⟩ | ⟨-, -, a⟩ | ⟨-, -, -, a⟩
    · exact a
    · omega
    · omega

/-- C21, the code against the claim.  With the loop locked and `lock_count` at
`lock_limit > 0`, blocks measured with more noise than signal (`noise != 0`,
`signal/noise - 1 < 0`) never decrement `lock_count`: line 95 has set
`sig.snr` to 0 before line 111 tests `sig.snr < 0`.  After any number of such
blocks `lock_count` is still `lock_limit` and `pll_lock` is still set. -/
theorem pll_lock_never_released {F : Type} [LinearOrderedField F] [FloorRing F]
    (sqrtf : F → F) (powf : F → F → F) (lock_limit : Int) (k : Int)
    (hL : 0 < lock_limit ∧ lock_limit < 2 ^ 31) :
    ∀ (blocks : List (Block F)) (chan : Channel F), chan.pll = true → chan.pll_lock = true →
      chan.lock_count = lock_limit → float_to_int chan.hangtime = some k →
      (∀ b ∈ blocks, (pll_energy b.s b.N.toNat).2 ≠ 0 ∧
        (pll_energy b.s b.N.toNat).1 / (pll_energy b.s b.N.toNat).2 - 1 < 0) →
      ∃ c, demod_linear sqrtf powf lock_limit blocks chan = some c ∧ c.pll_lock = true ∧
        c.lock_count = lock_limit := by
  intro blocks
  induction blocks with
  | nil =>
    intro chan _ hlock hcount _ _
    exact ⟨chan, rfl, hlock, hcount⟩
  | cons b rest ih =>
    intro chan hp hlock hcount hk hall
    obtain ⟨hn, hlow⟩ := hall b (List.mem_cons_self _ _)
    obtain ⟨c, hc, e1, e2, e3, e4⟩ :=
      locked_block_low_snr sqrtf powf lock_limit b chan k hL hp hlock hcount hk hn hlow
    obtain ⟨c2, hc2, f1, f2⟩ := ih c e1 e2 e3 (by rw [e4]; exact hk)
      (fun b2 hb2 => hall b2 (List.mem_cons_of_mem _ hb2))
    exact ⟨c2, by simp only [demod_linear, hc, Option.some_bind]; exact hc2, f1, f2⟩

theorem float_to_int_example : float_to_int (55 : ℚ) = some 55 := by
  simp [float_to_int, int_checked]

/-- Witness of C21, the failing input: at 48 kHz (`lock_limit = 2400`), a
locked loop fed five blocks of 960 samples, 4800 samples in all, each sample
with in-phase part 1 and quadrature part 2, is still locked. -/
theorem pll_lock_never_released_witness :
    ∃ c, demod_linear (fun x => x) (fun x _ => x) 2400
        (List.replicate 5 ⟨960, fun _ => (1, 2), 0, 0⟩) exampleChannel = some c ∧
      c.pll_lock = true ∧ c.lock_count = 2400 :=
  pll_lock_never_released (fun x => x) (fun x _ => x) 2400 55 (by decide) _ exampleChannel rfl rfl
    rfl float_to_int_example
    (by
      intro b hb
      rw [List.eq_of_mem_replicate hb]
      have h960 : (960 : Int).toNat = 960 := by decide
      simp only [pll_energy_const, h960]
      norm_num)

/-- C22, the claim at a failing input: with `lock_limit = 16777218` and
`lock_count = 16777217`, a block without quadrature energy (`sig.snr` is `NAN`)
leaves `lock_count` at 16777217, which no `float` holds: `lock_timer` becomes
16777216. -/
theorem lock_timer_counterexample :
    ∃ c, demod_linear_block (fun x => x) (fun x _ => x) 16777218 ⟨1, fun _ => (1, 0), 0, 0⟩
        { exampleChannel with lock_count := 16777217 } = some c ∧
      c.lock_count = 16777217 ∧ c.lock_timer = 16777216 ∧ c.lock_timer ≠ (c.lock_count : ℚ) := by
  have hnp : snr_positive (pll_snr
      (pll_energy (fun _ : Nat => ((1 : ℚ), (0 : ℚ))) (1 : Int).toNat).1
      (pll_energy (fun _ : Nat => ((1 : ℚ), (0 : ℚ))) (1 : Int).toNat).2) = false := by
    simp only [pll_energy_const]
    simp [pll_snr, snr_positive]
  obtain ⟨c, hc⟩ := demod_linear_block_defined (fun x => x) (fun x _ => x) 16777218
    ⟨1, fun _ => ((1 : ℚ), (0 : ℚ)), 0, 0⟩ { exampleChannel with lock_count := 16777217 } 55
    (by decide) (fun h => by rw [hnp] at h; exact absurd h (by simp)) float_to_int_example
  obtain ⟨lc1, -, e2, e3, e4, -, -⟩ := lock_detector_after_block _ _ _ _ _ c rfl hc
  have hlc : lc1 = 16777217 := by
    rcases e2 with ⟨a, -⟩ | ⟨-, -, -, a⟩
    · exact a
    · rw [hnp] at a; exact absurd a (by simp)
  have hcount : c.lock_count = 16777217 := by
    rcases e3 with ⟨-, -, a, -⟩ | ⟨-, -, a⟩ | ⟨-, a, -⟩
    · omega
    · omega
    · rw [a, hlc]
  have ht : int_to_float 16777217 = 16777216 := by decide
  have htimer : c.lock_timer = 16777216 := by
    rw [e4, hcount, ht]; norm_num
  exact ⟨c, hc, hcount, htimer, by rw [htimer, hcount]; norm_num⟩

/-- Witness of the amended C22: at 48 kHz a block of 960 samples with more
in-phase than quadrature energy. -/
theorem lock_count_clamped_witness :
    ∃ c, demod_linear_block (fun x => x) (fun x _ => x) 2400 ⟨960, fun _ => (2, 1), 0, 0⟩
        exampleChannel = some c ∧
      (-2400 ≤ c.lock_count ∧ c.lock_count ≤ 2400) ∧
      c.lock_timer = ((int_to_float c.lock_count : Int) : ℚ) ∧
      ((2400 : Int) ≤ 2 ^ 24 → c.lock_timer = (c.lock_count : ℚ)) ∧
      (c.lock_count = 2400 → c.pll_lock = true) ∧ (c.lock_count = -2400 → c.pll_lock = false) := by
  have h := lock_count_clamped (fun x => x) (fun x _ => x) 2400 ⟨960, fun _ => ((2 : ℚ), (1 : ℚ)), 0, 0⟩
    exampleChannel (by decide) rfl
  obtain ⟨c, hc⟩ := h.1 55 (by decide) (by decide) float_to_int_example
  exact ⟨c, hc, h.2 c hc⟩

/-- Witness of C23: at 48 kHz an unlocked loop with the counter at 1500 locks
on a block of 960 samples with more in-phase than quadrature energy, the
counter ending at the limit 2400, and no following block of fewer than 4800
samples unlocks it. -/
theorem pll_lock_flips_at_extremes_witness :
    ∃ c, demod_linear_block (fun x => x) (fun x _ => x) 2400 ⟨960, fun _ => (2, 1), 0, 0⟩
        { exampleChannel with lock_count := 1500, pll_lock := false } = some c ∧
      c.pll_lock = true ∧ c.lock_count = 2400 ∧
      ∀ (b2 : Block ℚ) (c2 : Channel ℚ), b2.N < 2 * 2400 →
        demod_linear_block (fun x => x) (fun x _ => x) 2400 b2 c = some c2 →
        c2.pll_lock = true := by
  have hpos : snr_positive (pll_snr
      (pll_energy (fun _ : Nat => ((2 : ℚ), (1 : ℚ))) (960 : Int).toNat).1
      (pll_energy (fun _ : Nat => ((2 : ℚ), (1 : ℚ))) (960 : Int).toNat).2) = true := by
    have h960 : (960 : Int).toNat = 960 := by decide
    simp only [pll_energy_const, h960]
    norm_num [pll_snr, snr_positive]
  obtain ⟨c, hc⟩ := demod_linear_block_defined (fun x => x) (fun x _ => x) 2400
    ⟨960, fun _ => ((2 : ℚ), (1 : ℚ)), 0, 0⟩
    { exampleChannel with lock_count := 1500, pll_lock := false } 55
    (by decide) (fun _ => by decide) float_to_int_example
  obtain ⟨lc1, -, e2, e3, -, -, -⟩ := lock_detector_after_block _ _ _ _ _ c rfl hc
  have hlc : lc1 = 2460 := by
    rcases e2 with ⟨-, a⟩ | ⟨a, -⟩
    · rw [hpos] at a; exact absurd a (by simp)
    · exact a
  have hlock : c.pll_lock = true ∧ c.lock_count = 2400 := by
    rcases e3 with ⟨a, b, -⟩ | ⟨-, -, a⟩ | ⟨-, -, -, a⟩
    · exact ⟨a, b⟩
    · omega
    · omega
  have h := pll_lock_flips_at_extremes (fun x => x) (fun x _ => x) 2400
    ⟨960, fun _ => ((2 : ℚ), (1 : ℚ)), 0, 0⟩
    { exampleChannel with lock_count := 1500, pll_lock := false } c hc
  refine ⟨c, hc, hlock.1, hlock.2, fun b2 c2 hN h2 => ?_⟩
  rw [h.2 b2 c2 (by rw [hlock.1]; simp) hN h2]
  exact hlock.1

/-- The PLL pass leaves the fields alone that the AGC and the output pass use. -/
theorem pll_pass_keeps {F : Type} [LinearOrderedField F] (L N : Int) (s : Nat → F × F)
    (chan c : Channel F) (h : pll_pass L N s chan = some c) :
    c.agc = chan.agc ∧ c.env = chan.env ∧ c.channels = chan.channels ∧
      c.min_IF = chan.min_IF ∧ c.max_IF = chan.max_IF ∧ c.n0 = chan.n0 ∧
      c.bb_power = chan.bb_power ∧ c.threshold = chan.threshold ∧
      c.recovery_rate = chan.recovery_rate ∧ c.hangtime = chan.hangtime ∧
      c.hangcount = chan.hangcount ∧ c.gain = chan.gain ∧ c.headroom = chan.headroom := by
  by_cases hp : chan.pll = true
  · obtain ⟨-, -, -, -, -, -, -, -, e⟩ := pll_pass_spec L N s chan c hp h
    exact e
  · rw [pll_pass_off _ _ _ _ (by simpa using hp)] at h
    simp only [Option.some.injEq] at h
    subst h
    exact ⟨rfl, rfl, rfl, rfl, rfl, rfl, rfl, rfl, rfl, rfl, rfl, rfl, rfl⟩

/-- The AGC decision and the output pass after a defined PLL pass, in terms of
the channel before the pass and the block. -/
theorem demod_linear_block_agc {F : Type} [LinearOrderedField F] [FloorRing F]
    (sqrtf : F → F) (powf : F → F → F) (L : Int) (b : Block F) (chan c1 : Channel F)
    (h1 : pll_pass L b.N b.s { chan with bb_power := b.bb_power, n0 := b.n0 } = some c1) :
    demod_linear_block sqrtf powf L b chan =
      (agc_decision sqrtf powf b.N { chan with bb_power := b.bb_power, n0 := b.n0 }).map
        fun d => { c1 with hangcount := d.2, gain := chan.gain * d.1 ^ b.N.toNat } := by
  obtain ⟨e1, e2, e3, e4, e5, e6, e7, e8, e9, e10, e11, e12, e13⟩ :=
    pll_pass_keeps L b.N b.s _ c1 h1
  have hagc : agc_decision sqrtf powf b.N c1 =
      agc_decision sqrtf powf b.N { chan with bb_power := b.bb_power, n0 := b.n0 } := by
    unfold agc_decision
    rw [e1, e4, e5, e6, e7, e8, e9, e10, e11, e12, e13]
  unfold demod_linear_block
  simp only [h1, Option.some_bind, hagc, output_pass_gain_eq, e12]


theorem agc_decision_eq {F : Type} [LinearOrderedField F] [FloorRing F] (sqrtf : F → F)
    (powf : F → F → F) (N : Int) (chan : Channel F) :
    agc_decision sqrtf powf N chan =
      if chan.agc = true then
        if sqrtf chan.bb_power * chan.gain > chan.headroom then
          (float_to_int chan.hangtime).map fun hangcount =>
            (powf (chan.headroom / sqrtf chan.bb_power / chan.gain) (1 / (N : F)), hangcount)
        else if sqrtf (|chan.min_IF - chan.max_IF| * chan.n0) * chan.gain >
            chan.threshold * chan.headroom then
          some (powf (chan.threshold * chan.headroom /
            sqrtf (|chan.min_IF - chan.max_IF| * chan.n0) / chan.gain) (1 / (N : F)), chan.hangcount)
        else if chan.hangcount > 0 then some (1, chan.hangcount - 1)
        else some (powf chan.recovery_rate (1 / (N : F)), chan.hangcount)
      else some (1, chan.hangcount) := by
  rfl

theorem float_to_int_nonneg {F : Type} [LinearOrderedField F] [FloorRing F] (x : F) (k : Int)
    (hx : 0 ≤ x) (h : float_to_int x = some k) : 0 ≤ k := by
  unfold float_to_int at h
  rw [if_pos hx] at h
  obtain ⟨e, -, -⟩ := int_checked_some _ _ h
  rw [e]
  exact Int.floor_nonneg.mpr hx

/-- C25: after a defined PLL pass, with AGC enabled, when neither
`ampl * gain > headroom` nor `bn * gain > threshold * headroom` holds and
`hangcount > 0`, the pass over the block leaves `output.gain` as it was and
`hangcount` one lower; in every other case `hangcount` is left as it was or
(signal over headroom) set to `hangtime` converted to `int`, so that
`hangcount >= 0` is kept when `hangtime >= 0`; with AGC disabled gain and
`hangcount` are left as they were.  The pass is defined whenever `hangtime`
converts to an `int`. -/
theorem agc_hang_holds_gain {F : Type} [LinearOrderedField F] [FloorRing F]
    (sqrtf : F → F) (powf : F → F → F) (lock_limit : Int) (b : Block F) (chan c1 : Channel F)
    (h1 : pll_pass lock_limit b.N b.s { chan with bb_power := b.bb_power, n0 := b.n0 } = some c1) :
    (chan.agc = true → ¬ (sqrtf b.bb_power * chan.gain > chan.headroom) →
      ¬ (sqrtf (|chan.min_IF - chan.max_IF| * b.n0) * chan.gain >
        chan.threshold * chan.headroom) →
      0 < chan.hangcount →
      ∃ c, demod_linear_block sqrtf powf lock_limit b chan = some c ∧ c.gain = chan.gain ∧
        c.hangcount = chan.hangcount - 1) ∧
    (chan.agc = false →
      ∃ c, demod_linear_block sqrtf powf lock_limit b chan = some c ∧ c.gain = chan.gain ∧
        c.hangcount = chan.hangcount) ∧
    (∀ c, demod_linear_block sqrtf powf lock_limit b chan = some c →
      ¬ (chan.agc = true ∧ ¬ (sqrtf b.bb_power * chan.gain > chan.headroom) ∧
        ¬ (sqrtf (|chan.min_IF - chan.max_IF| * b.n0) * chan.gain >
          chan.threshold * chan.headroom) ∧ 0 < chan.hangcount) →
      c.hangcount = chan.hangcount ∨
        (chan.agc = true ∧ sqrtf b.bb_power * chan.gain > chan.headroom ∧
          float_to_int chan.hangtime = some c.hangcount)) ∧
    (∀ c, demod_linear_block sqrtf powf lock_limit b chan = some c →
      0 ≤ chan.hangcount → 0 ≤ chan.hangtime → 0 ≤ c.hangcount) ∧
    (∀ k, float_to_int chan.hangtime = some k →
      ∃ c, demod_linear_block sqrtf powf lock_limit b chan = some c) := by
  have hb := demod_linear_block_agc sqrtf powf lock_limit b chan c1 h1
  rw [agc_decision_eq] at hb
  simp only at hb
  refine ⟨?_, ?_, ?_, ?_, ?_⟩
  · intro hagc hover hnoisy hhang
    rw [if_pos hagc, if_neg hover, if_neg hnoisy, if_pos hhang] at hb
    exact ⟨_, hb, by simp, rfl⟩
  · intro hagc
    rw [hagc] at hb
    exact ⟨_, hb, by simp, rfl⟩
  · intro c hc hnot
    rw [hb] at hc
    by_cases hagc : chan.agc = true
    · rw [if_pos hagc] at hc
      by_cases hover : sqrtf b.bb_power * chan.gain > chan.headroom
      · rw [if_pos hover] at hc
        cases hk : float_to_int chan.hangtime with
        | none => rw [hk] at hc; simp at hc
        | some k =>
          rw [hk] at hc
          simp only [Option.map_some', Option.some.injEq] at hc
          subst hc
          exact Or.inr ⟨hagc, hover, rfl⟩
      · rw [if_neg hover] at hc
        by_cases hnoisy : sqrtf (|chan.min_IF - chan.max_IF| * b.n0) * chan.gain >
            chan.threshold * chan.headroom
        · rw [if_pos hnoisy] at hc
          simp only [Option.map_some', Option.some.injEq] at hc
          subst hc
          exact Or.inl rfl
        · rw [if_neg hnoisy] at hc
          by_cases hhang : chan.hangcount > 0
          · exact absurd ⟨hagc, hover, hnoisy, hhang⟩ hnot
          · rw [if_neg hhang] at hc
            simp only [Option.map_some', Option.some.injEq] at hc
            subst hc
            exact Or.inl rfl
    · rw [if_neg hagc] at hc
      simp only [Option.map_some', Option.some.injEq] at hc
      subst hc
      exact Or.inl rfl
  · intro c hc h0 ht
    rw [hb] at hc
    by_cases hagc : chan.agc = true
    · rw [if_pos hagc] at hc
      by_cases hover : sqrtf b.bb_power * chan.gain > chan.headroom
      · rw [if_pos hover] at hc
        cases hk : float_to_int chan.hangtime with
        | none => rw [hk] at hc; simp at hc
        | some k =>
          rw [hk] at hc
          simp only [Option.map_some', Option.some.injEq] at hc
          subst hc
          exact float_to_int_nonneg chan.hangtime k ht hk
      · rw [if_neg hover] at hc
        by_cases hnoisy : sqrtf (|chan.min_IF - chan.max_IF| * b.n0) * chan.gain >
            chan.threshold * chan.headroom
        · rw [if_pos hnoisy] at hc
          simp only [Option.map_some', Option.some.injEq] at hc
          subst hc
          exact h0
        · rw [if_neg hnoisy] at hc
          by_cases hhang : chan.hangcount > 0
          · rw [if_pos hhang] at hc
            simp only [Option.map_some', Option.some.injEq] at hc
            subst hc
            show 0 ≤ chan.hangcount - 1
            omega
          · rw [if_neg hhang] at hc
            simp only [Option.map_some', Option.some.injEq] at hc
            subst hc
            exact h0
    · rw [if_neg hagc] at hc
      simp only [Option.map_some', Option.some.injEq] at hc
      subst hc
      exact h0
  · intro k hk
    rw [hb, hk]
    simp only [Option.map_some']
    split
    · split
      · exact ⟨_, rfl⟩
      · split
        · exact ⟨_, rfl⟩
        · split
          · exact ⟨_, rfl⟩
          · exact ⟨_, rfl⟩
    · exact ⟨_, rfl⟩

theorem float_to_int_of_int {F : Type} [LinearOrderedField F] [FloorRing F] (x : F) (k m : Int)
    (h : float_to_int x = some k) (hx : x = (m : F)) : k = m := by
  unfold float_to_int at h
  obtain ⟨e, -, -⟩ := int_checked_some _ _ h
  rw [e, hx]
  split <;> simp

theorem rpow_root_pow (r : ℝ) (hr : 0 ≤ r) (N : Int) (hN : 1 ≤ N) :
    (r ^ ((1 : ℝ) / (N : ℝ))) ^ N.toNat = r := by
  have hcast : ((N.toNat : Nat) : ℝ) = (N : ℝ) := by
    have : ((N.toNat : Nat) : Int) = N := Int.toNat_of_nonneg (by omega)
    exact_mod_cast this
  have hne : (N : ℝ) ≠ 0 := by
    have : (1 : ℝ) ≤ (N : ℝ) := by exact_mod_cast hN
    positivity
  rw [← Real.rpow_natCast, ← Real.rpow_mul hr, hcast, one_div, inv_mul_cancel₀ hne,
    Real.rpow_one]

/-- C24: after a defined PLL pass, with AGC enabled, `N >= 1`, positive gain and
headroom, and `hangtime` within the range of `int`, in exact real arithmetic
(`sqrtf` the real square root, `powf` the real power): whenever
`ampl * gain > headroom`, whatever the noise, the AGC decision is the factor
`((headroom/ampl)/gain)^(1/N)` with `hangcount` set to `hangtime` converted to
`int` (to `hangtime` itself when that is an integer), the factor is below 1,
and the pass over the block ends with `output.gain = headroom / ampl`. -/
theorem agc_over_headroom (lock_limit : Int) (b : Block ℝ) (chan c1 : Channel ℝ) (k : Int)
    (h1 : pll_pass lock_limit b.N b.s { chan with bb_power := b.bb_power, n0 := b.n0 } = some c1)
    (hagc : chan.agc = true) (hN : 1 ≤ b.N) (hg : 0 < chan.gain) (hH : 0 < chan.headroom)
    (hover : Real.sqrt b.bb_power * chan.gain > chan.headroom)
    (hk : float_to_int chan.hangtime = some k) :
    agc_decision Real.sqrt (fun x y => x ^ y) b.N
        { chan with bb_power := b.bb_power, n0 := b.n0 } =
      some ((chan.headroom / Real.sqrt b.bb_power / chan.gain) ^ ((1 : ℝ) / (b.N : ℝ)), k) ∧
    (chan.headroom / Real.sqrt b.bb_power / chan.gain) ^ ((1 : ℝ) / (b.N : ℝ)) < 1 ∧
    (∀ m : Int, chan.hangtime = (m : ℝ) → k = m) ∧
    ∃ c, demod_linear_block Real.sqrt (fun x y => x ^ y) lock_limit b chan = some c ∧
      c.hangcount = k ∧ c.gain = chan.headroom / Real.sqrt b.bb_power := by
  have hampl : 0 < Real.sqrt b.bb_power := by
    by_contra hneg
    have h0 : Real.sqrt b.bb_power * chan.gain ≤ 0 :=
      mul_nonpos_of_nonpos_of_nonneg (not_lt.mp hneg) hg.le
    linarith
  have hr0 : 0 < chan.headroom / Real.sqrt b.bb_power / chan.gain := by positivity
  have hr1 : chan.headroom / Real.sqrt b.bb_power / chan.gain < 1 := by
    rw [div_div, div_lt_one (by positivity)]
    exact hover
  have hNpos : (0 : ℝ) < (1 : ℝ) / (b.N : ℝ) := by
    have : (1 : ℝ) ≤ (b.N : ℝ) := by exact_mod_cast hN
    positivity
  have hdec : agc_decision Real.sqrt (fun x y => x ^ y) b.N
      { chan with bb_power := b.bb_power, n0 := b.n0 } =
      some ((chan.headroom / Real.sqrt b.bb_power / chan.gain) ^ ((1 : ℝ) / (b.N : ℝ)), k) := by
    rw [agc_decision_eq]
    simp only [hagc, if_true, if_pos hover, hk, Option.map_some']
  refine ⟨hdec, Real.rpow_lt_one hr0.le hr1 hNpos,
    fun m hm => float_to_int_of_int chan.hangtime k m hk hm, ?_⟩
  rw [demod_linear_block_agc Real.sqrt (fun x y => x ^ y) lock_limit b chan c1 h1, hdec]
  refine ⟨_, rfl, rfl, ?_⟩
  show chan.gain * ((chan.headroom / Real.sqrt b.bb_power / chan.gain) ^ ((1 : ℝ) / (b.N : ℝ))) ^
    b.N.toNat = chan.headroom / Real.sqrt b.bb_power
  rw [rpow_root_pow _ hr0.le b.N hN]
  field_simp
  ring

/-- Witness of C25: with AGC enabled, no signal and `hangcount = 3`, a block
leaves the gain at 1 and `hangcount` at 2. -/
theorem agc_hang_holds_gain_witness :
    ∃ c, demod_linear_block (fun x => x) (fun x _ => x) 2400 ⟨960, fun _ => (2, 1), 0, 0⟩
        { exampleChannel with agc := true, hangcount := 3 } = some c ∧
      c.gain = 1 ∧ c.hangcount = 3 - 1 := by
  obtain ⟨c1, h1⟩ := pll_pass_defined 2400 960 (fun _ => ((2 : ℚ), (1 : ℚ)))
    { exampleChannel with agc := true, hangcount := 3, bb_power := 0, n0 := 0 }
    (by decide) (fun _ => by decide)
  exact (agc_hang_holds_gain (fun x => x) (fun x _ => x) 2400 ⟨960, fun _ => ((2 : ℚ), (1 : ℚ)), 0, 0⟩
    { exampleChannel with agc := true, hangcount := 3 } c1 h1).1 rfl
    (by norm_num [exampleChannel]) (by norm_num [exampleChannel]) (by decide)

/-- Witness of C24: gain 4, headroom 1 and a block of two samples of amplitude
`sqrt 1`; the gain ends at `1 / sqrt 1` and `hangcount` at the `hangtime` 55. -/
theorem agc_over_headroom_witness :
    ∃ c, demod_linear_block Real.sqrt (fun x y => x ^ y) 2400 ⟨2, fun _ => (0, 0), 1, 0⟩
        { pll := false, was_on := false, lock_count := 0, pll_lock := false, lock_timer := 0,
          snr := none, agc := true, env := false, channels := 1, min_IF := -5000,
          max_IF := 5000, n0 := 0, bb_power := 0, threshold := 1 / 5, recovery_rate := 1,
          hangtime := 55, hangcount := 0, gain := 4, headroom := 1 } = some c ∧
      c.hangcount = 55 ∧ c.gain = 1 / Real.sqrt 1 :=
  (agc_over_headroom 2400 ⟨2, fun _ => (0, 0), 1, 0⟩
    { pll := false, was_on := false, lock_count := 0, pll_lock := false, lock_timer := 0,
      snr := none, agc := true, env := false, channels := 1, min_IF := -5000,
      max_IF := 5000, n0 := 0, bb_power := 0, threshold := 1 / 5, recovery_rate := 1,
      hangtime := 55, hangcount := 0, gain := 4, headroom := 1 } _ 55
    (pll_pass_off _ _ _ _ rfl) rfl (by decide) (by norm_num) (by norm_num)
    (by norm_num) (by simp [float_to_int, int_checked])).2.2.2

end Ka9q
